import Mathlib

/-!
# `arm_convolve_HWC_q7_basic` (CMSIS-NN, Edge Impulse SDK copy)

A shallow embedding of the Q7 convolution kernel of
`CMSIS/NN/Source/ConvolutionFunctions/arm_convolve_HWC_q7_basic.c`.

Conventions of the embedding.

* The `uint16_t` parameters are natural numbers; the predicate `Conv.WF` records that they
  fit in 16 bits, that the buffers have the sizes the geometry prescribes and that every
  `q7_t` cell holds a value of its type.
* `int`/`q31_t` arithmetic on values is two's complement: every result that the C code
  stores in a 32-bit signed variable goes through `wrap32`; `int16_t` counters go through
  `wrap16`; the `(q7_t)` cast is `q7_cast`.  Shifts follow the Cortex-M barrel shifter:
  `x << s` is `x * 2 ^ s` kept to 32 bits, `x >> s` is `floor (x / 2 ^ s)`, for every `s`.
* Buffers are lists; an access outside a buffer ends the run with the fault that names the
  buffer.  Index arithmetic is exact: an index that passes the bounds check is below the
  length of an object that exists in memory.
* The output buffer carries a ghost log of the indices stored so far, in program order.
* Loops whose counter is an `int` over a `uint16_t` bound are `forUp`; loops whose counter
  is an `int16_t` are `for16`, which takes fuel and ends with `Fault.fuel` when it is used up.
-/

namespace CmsisNN

/-! ## Machine arithmetic -/

/-- Conversion of an integer to `int32_t` (two's complement). -/
def wrap32 (x : Int) : Int := (x + 2 ^ 31) % 2 ^ 32 - 2 ^ 31

/-- Conversion of an integer to `int16_t` (two's complement). -/
def wrap16 (x : Int) : Int := (x + 2 ^ 15) % 2 ^ 16 - 2 ^ 15

/-- The cast `(q7_t)` of an integer: conversion to `int8_t` (two's complement). -/
def q7_cast (x : Int) : Int := (x + 2 ^ 7) % 2 ^ 8 - 2 ^ 7

/-- Membership in the `q7_t` range. -/
def IsQ7 (x : Int) : Prop := -128 ≤ x ∧ x ≤ 127

instance (x : Int) : Decidable (IsQ7 x) := by unfold IsQ7; infer_instance

/-- Modelled from the spec: the macro `NN_ROUND` of `arm_nnsupportfunctions.h`, which is not
part of the sources at hand.  "Rounding constant = `1 << (output_shift − 1)` when
`output_shift > 0`, else 0". -/
def NN_ROUND (out_shift : Nat) : Int :=
  if out_shift > 0 then 2 ^ (out_shift - 1) else 0

/-- Modelled from the spec: the intrinsic `__SSAT(val, sat)` of the CMSIS core headers, which
are not part of the sources at hand.  "Saturation clips to `[-128, 127]`" for `sat = 8`;
in general to the signed `sat`-bit range. -/
def SSAT (val : Int) (sat : Nat) : Int :=
  if val > 2 ^ (sat - 1) - 1 then 2 ^ (sat - 1) - 1
  else if val < -(2 ^ (sat - 1)) then -(2 ^ (sat - 1))
  else val

/-- The expression `(q31_t)b << s`: the shifted value `b * 2 ^ s` kept to 32 bits. -/
def shl32 (b : Int) (s : Nat) : Int := wrap32 (b * 2 ^ s)

/-! ## Runs, faults and buffers -/

/-- What can end a run early: an access outside one of the buffers, or the fuel of an
`int16_t`-counted loop being used up. -/
inductive Fault where
  | Im_in
  | wt
  | bias
  | Im_out
  | bufferA
  | fuel
  deriving DecidableEq, Repr

/-- Outcome of a run. -/
inductive Run (σ : Type) where
  | ok (s : σ)
  | fault (f : Fault)
  deriving DecidableEq, Repr

/-- Sequencing of runs. -/
def Run.bind {σ τ : Type} (r : Run σ) (k : σ → Run τ) : Run τ :=
  match r with
  | .ok s => k s
  | .fault f => .fault f

/-- Read `xs[i]`, the index being a C `int`. -/
def readAt (what : Fault) (xs : List Int) (i : Int) : Run Int :=
  if 0 ≤ i then
    match xs[i.toNat]? with
    | some v => .ok v
    | none => .fault what
  else .fault what

/-- The output tensor `Im_out` with the ghost log of the indices stored so far. -/
structure OutBuf where
  data : List Int
  written : List Nat
  deriving DecidableEq, Repr

/-- The store `Im_out[idx] = v`. -/
def OutBuf.store (o : OutBuf) (idx : Nat) (v : Int) : Run OutBuf :=
  if idx < o.data.length then .ok ⟨o.data.set idx v, o.written ++ [idx]⟩
  else .fault .Im_out

/-- The loop `for (x = 0; x < n; x++) body`, the counter an `int` and `n` a `uint16_t`. -/
def forUp {σ : Type} (n : Nat) (body : Nat → σ → Run σ) (s : σ) : Run σ :=
  match n with
  | 0 => .ok s
  | k + 1 => (forUp k body s).bind (body k)

/-- The loop `for (c = lo; c < hi; c++) body` with an `int16_t` counter `c` compared with
the `int` bound `hi`; the first argument is the fuel, the second the current counter. -/
def for16 {σ : Type} (hi : Int) (body : Int → σ → Run σ) : Nat → Int → σ → Run σ
  | 0, _, _ => .fault .fuel
  | fuel + 1, c, s =>
    if c < hi then (body c s).bind (for16 hi body fuel (wrap16 (c + 1)))
    else .ok s

/-! ## The arguments of the call -/

/-- The read-only arguments of `arm_convolve_HWC_q7_basic`. -/
structure Conv where
  Im_in : List Int
  dim_im_in : Nat
  ch_im_in : Nat
  wt : List Int
  ch_im_out : Nat
  dim_kernel : Nat
  padding : Nat
  stride : Nat
  bias : List Int
  bias_shift : Nat
  out_shift : Nat
  dim_im_out : Nat
  deriving DecidableEq, Repr

/-- Number of entries of one im2col column, `ch_im_in * dim_kernel * dim_kernel`. -/
def Conv.N (a : Conv) : Nat := a.ch_im_in * a.dim_kernel * a.dim_kernel

/-- Well-formed arguments: `uint16_t` parameters, buffers of the sizes the geometry
prescribes, `q7_t` cells. -/
def Conv.WF (a : Conv) : Prop :=
  a.dim_im_in < 2 ^ 16 ∧ a.ch_im_in < 2 ^ 16 ∧ a.ch_im_out < 2 ^ 16 ∧
  a.dim_kernel < 2 ^ 16 ∧ a.padding < 2 ^ 16 ∧ a.stride < 2 ^ 16 ∧
  a.bias_shift < 2 ^ 16 ∧ a.out_shift < 2 ^ 16 ∧ a.dim_im_out < 2 ^ 16 ∧
  a.Im_in.length = a.dim_im_in * a.dim_im_in * a.ch_im_in ∧
  a.wt.length = a.ch_im_out * a.N ∧
  a.bias.length = a.ch_im_out ∧
  (∀ x ∈ a.Im_in, IsQ7 x) ∧ (∀ x ∈ a.wt, IsQ7 x) ∧ (∀ x ∈ a.bias, IsQ7 x)

instance (a : Conv) : Decidable a.WF := by unfold Conv.WF; infer_instance

/-! ## The reference path (lines 160-193) -/

/-- Line 184: one multiply-accumulate of the innermost loop over the input channels `l`. -/
def ref_tap (a : Conv) (i m n : Nat) (in_row in_col : Int) (l : Nat) (conv_out : Int) :
    Run Int :=
  (readAt .Im_in a.Im_in ((in_row * a.dim_im_in + in_col) * a.ch_im_in + l)).bind fun x =>
  (readAt .wt a.wt (i * a.ch_im_in * a.dim_kernel * a.dim_kernel
      + (m * a.dim_kernel + n) * a.ch_im_in + l)).bind fun w =>
  .ok (wrap32 (conv_out + x * w))

/-- Lines 177-187: the body of the loop over the kernel column `n`. -/
def ref_kernel_col (a : Conv) (i j k m n : Nat) (conv_out : Int) : Run Int :=
  let in_row := wrap32 (a.stride * j + m - a.padding)
  let in_col := wrap32 (a.stride * k + n - a.padding)
  if in_row ≥ 0 ∧ in_col ≥ 0 ∧ in_row < a.dim_im_in ∧ in_col < a.dim_im_in then
    forUp a.ch_im_in (ref_tap a i m n in_row in_col) conv_out
  else .ok conv_out

/-- Lines 172-189: the accumulator `conv_out` of output channel `i` at pixel `(j, k)`. -/
def ref_conv_out (a : Conv) (i j k : Nat) : Run Int :=
  (readAt .bias a.bias i).bind fun b =>
  forUp a.dim_kernel
    (fun m c => forUp a.dim_kernel (fun n c => ref_kernel_col a i j k m n c) c)
    (wrap32 (shl32 b a.bias_shift + NN_ROUND a.out_shift))

/-- Lines 172-190: the body of the loop over the output column `k`. -/
def ref_pixel (a : Conv) (i j k : Nat) (out : OutBuf) : Run OutBuf :=
  (ref_conv_out a i j k).bind fun c =>
  out.store (i + (j * a.dim_im_out + k) * a.ch_im_out) (q7_cast (SSAT (c >>> a.out_shift) 8))

/-- Lines 166-193: the reference implementation, run on the output buffer `Im_out`. -/
def arm_convolve_HWC_q7_basic_ref (a : Conv) (Im_out : OutBuf) : Run OutBuf :=
  forUp a.ch_im_out
    (fun i o => forUp a.dim_im_out
      (fun j o => forUp a.dim_im_out (fun k o => ref_pixel a i j k o) o) o) Im_out

/-! ## The DSP path (lines 67-158) -/

/-- The store `bufferA[idx] = v` into the 16-bit working buffer. -/
def writeA (bufferA : List Int) (idx : Nat) (v : Int) : Run (List Int) :=
  if idx < bufferA.length then .ok (bufferA.set idx v) else .fault .bufferA

/-- Line 92: `memset(pBuffer, 0, sizeof(q15_t) * ch_im_in)`, the destination given by its
offset from the start of `bufferA`. -/
def memset_q15 (bufferA : List Int) (dst : Nat) (count : Nat) : Run (List Int) :=
  forUp count (fun l buf => writeA buf (dst + l) 0) bufferA

/-- Modelled from the spec: `arm_q7_to_q15_no_shift(Im_in + src, bufferA + dst, blockSize)`,
whose source is not at hand.  "promoting each 8-bit input sample to 16-bit with no
scaling". -/
def arm_q7_to_q15_no_shift (Im_in : List Int) (src : Int) (bufferA : List Int) (dst : Nat)
    (blockSize : Nat) : Run (List Int) :=
  forUp blockSize
    (fun l buf => (readAt .Im_in Im_in (src + l)).bind fun x => writeA buf (dst + l) x)
    bufferA

/-- State of the DSP path: the working buffer, the offsets of `pBuffer` from `bufferA` and
of `pOut` from `Im_out`, and the output tensor. -/
structure DspState where
  bufferA : List Int
  pBuffer : Nat
  pOut : Nat
  Im_out : OutBuf
  deriving DecidableEq, Repr

/-- Lines 88-100: the body of the loop over `i_ker_x`. -/
def dsp_im2col_tap (a : Conv) (i_ker_y i_ker_x : Int) (st : DspState) : Run DspState :=
  (if i_ker_y < 0 ∨ i_ker_y ≥ a.dim_im_in ∨ i_ker_x < 0 ∨ i_ker_x ≥ a.dim_im_in then
    memset_q15 st.bufferA st.pBuffer a.ch_im_in
  else
    arm_q7_to_q15_no_shift a.Im_in ((i_ker_y * a.dim_im_in + i_ker_x) * a.ch_im_in)
      st.bufferA st.pBuffer a.ch_im_in).bind fun buf =>
  .ok { st with bufferA := buf, pBuffer := st.pBuffer + a.ch_im_in }

/-- Lines 84-102: the im2col of output pixel `(i_out_y, i_out_x)`; both loops have
`int16_t` counters, their bounds are computed in `int`. -/
def dsp_im2col (a : Conv) (fuel : Nat) (i_out_y i_out_x : Int) (st : DspState) :
    Run DspState :=
  for16 (i_out_y * a.stride - a.padding + a.dim_kernel)
    (fun i_ker_y st =>
      for16 (i_out_x * a.stride - a.padding + a.dim_kernel)
        (fun i_ker_x st => dsp_im2col_tap a i_ker_y i_ker_x st)
        fuel (wrap16 (i_out_x * a.stride - a.padding)) st)
    fuel (wrap16 (i_out_y * a.stride - a.padding)) st

/-- Dot product of `n` weights from `wt[wbase ..]` with `n` entries of `bufferA[cbase ..]`,
accumulated on `acc` in 32 bits. -/
def dot_q7_q15 (wt : List Int) (wbase : Nat) (bufferA : List Int) (cbase : Nat) (n : Nat)
    (acc : Int) : Run Int :=
  forUp n
    (fun t acc =>
      (readAt .wt wt (wbase + t)).bind fun w =>
      (readAt .bufferA bufferA (cbase + t)).bind fun b =>
      .ok (wrap32 (acc + w * b)))
    acc

/-- Modelled from the spec: the fused kernel `arm_nn_mat_mult_kernel_q7_q15`, whose source is
not at hand.  "computes, for every output channel, the dot product of the weight row against
both buffered columns simultaneously (dual-output accumulation), adds the pre-shifted bias,
rounds, right-shifts, and saturates to 8-bit, writing two pixels' worth of output for every
output channel".  The two pixels are written channel-innermost from `pOut` on. -/
def arm_nn_mat_mult_kernel_q7_q15 (a : Conv) (bufferA : List Int) (pOut : Nat)
    (out : OutBuf) : Run OutBuf :=
  forUp a.ch_im_out
    (fun i out =>
      (readAt .bias a.bias i).bind fun b =>
      (dot_q7_q15 a.wt (i * a.N) bufferA 0 a.N
        (wrap32 (shl32 b a.bias_shift + NN_ROUND a.out_shift))).bind fun sum =>
      (dot_q7_q15 a.wt (i * a.N) bufferA a.N a.N
        (wrap32 (shl32 b a.bias_shift + NN_ROUND a.out_shift))).bind fun sum2 =>
      (out.store (pOut + i) (q7_cast (SSAT (sum >>> a.out_shift) 8))).bind fun out =>
      out.store (pOut + a.ch_im_out + i) (q7_cast (SSAT (sum2 >>> a.out_shift) 8)))
    out

/-- Lines 104-112: one output pixel of the scan: im2col, then the fused kernel once the
buffer holds two columns. -/
def dsp_pixel (a : Conv) (fuel : Nat) (i_out_y i_out_x : Int) (st : DspState) :
    Run DspState :=
  (dsp_im2col a fuel i_out_y i_out_x st).bind fun st =>
  if st.pBuffer = 2 * a.ch_im_in * a.dim_kernel * a.dim_kernel then
    (arm_nn_mat_mult_kernel_q7_q15 a st.bufferA st.pOut st.Im_out).bind fun out =>
    .ok { st with Im_out := out, pOut := st.pOut + 2 * a.ch_im_out, pBuffer := 0 }
  else .ok st

/-- Lines 80-114: the scan over the output pixels, both counters `int16_t`. -/
def dsp_scan (a : Conv) (fuel : Nat) (st : DspState) : Run DspState :=
  for16 a.dim_im_out
    (fun i_out_y st =>
      for16 a.dim_im_out (fun i_out_x st => dsp_pixel a fuel i_out_y i_out_x st) fuel 0 st)
    fuel 0 st

/-- State of the dot product of the left-over loop: the offsets of `pA` from `wt` and of
`pB` from `bufferA`, and the accumulator `sum`. -/
structure DotState where
  pA : Nat
  pB : Nat
  sum : Int
  deriving DecidableEq, Repr

/-- Modelled from the spec: `read_and_pad`, whose source is not at hand: four consecutive
weights, sign-extended to 16 bits, in order, as two packed pairs. -/
def read_and_pad (wt : List Int) (pA : Nat) : Run ((Int × Int) × (Int × Int)) :=
  (readAt .wt wt pA).bind fun w0 =>
  (readAt .wt wt (pA + 1)).bind fun w1 =>
  (readAt .wt wt (pA + 2)).bind fun w2 =>
  (readAt .wt wt (pA + 3)).bind fun w3 =>
  .ok ((w0, w1), (w2, w3))

/-- Modelled from the spec: `arm_nn_read_q15x2_ia`, whose source is not at hand: two
consecutive 16-bit entries of the working buffer as a packed pair. -/
def arm_nn_read_q15x2 (bufferA : List Int) (pB : Nat) : Run (Int × Int) :=
  (readAt .bufferA bufferA pB).bind fun b0 =>
  (readAt .bufferA bufferA (pB + 1)).bind fun b1 =>
  .ok (b0, b1)

/-- Modelled from the spec: the intrinsic `__SMLAD`, whose source is not at hand: dual 16-bit
multiply with 32-bit accumulate. -/
def SMLAD (x y : Int × Int) (sum : Int) : Int := wrap32 (sum + x.1 * y.1 + x.2 * y.2)

/-- Lines 133-147: one round of the loop that processes four entries. -/
def leftover_quad (a : Conv) (bufferA : List Int) (d : DotState) : Run DotState :=
  (read_and_pad a.wt d.pA).bind fun inA =>
  (arm_nn_read_q15x2 bufferA d.pB).bind fun inB1 =>
  (arm_nn_read_q15x2 bufferA (d.pB + 2)).bind fun inB2 =>
  .ok ⟨d.pA + 4, d.pB + 4, SMLAD inA.2 inB2 (SMLAD inA.1 inB1 d.sum)⟩

/-- Lines 149-155: one round of the loop that processes one entry. -/
def leftover_single (a : Conv) (bufferA : List Int) (d : DotState) : Run DotState :=
  (readAt .wt a.wt d.pA).bind fun inA1 =>
  (readAt .bufferA bufferA d.pB).bind fun inB1 =>
  .ok ⟨d.pA + 1, d.pB + 1, wrap32 (d.sum + inA1 * inB1)⟩

/-- State of the left-over loop over the output channels: the offsets of `pA` from `wt` and
of `pOut` from `Im_out`, and the output tensor. -/
structure LeftState where
  pA : Nat
  pOut : Nat
  Im_out : OutBuf
  deriving DecidableEq, Repr

/-- Lines 125-155: the accumulator `sum` of output channel `i` in the left-over loop, with
the weight pointer where the dot product left it; `colCnt` is a `uint16_t`. -/
def leftover_sum (a : Conv) (bufferA : List Int) (i : Nat) (pA : Nat) : Run DotState :=
  (readAt .bias a.bias i).bind fun b =>
  (forUp (((a.ch_im_in * a.dim_kernel * a.dim_kernel) >>> 2) % 2 ^ 16)
    (fun _ d => leftover_quad a bufferA d)
    ⟨pA, 0, wrap32 (shl32 b a.bias_shift + NN_ROUND a.out_shift)⟩).bind fun d =>
  forUp (((a.ch_im_in * a.dim_kernel * a.dim_kernel) &&& 3) % 2 ^ 16)
    (fun _ d => leftover_single a bufferA d) d

/-- Lines 122-157: the body of the left-over loop over the output channels. -/
def leftover_channel (a : Conv) (bufferA : List Int) (i : Nat) (s : LeftState) :
    Run LeftState :=
  (leftover_sum a bufferA i s.pA).bind fun d =>
  (s.Im_out.store s.pOut (q7_cast (SSAT (d.sum >>> a.out_shift) 8))).bind fun out =>
  .ok ⟨d.pA, s.pOut + 1, out⟩

/-- Lines 116-158: the left-over column. -/
def dsp_leftover (a : Conv) (st : DspState) : Run DspState :=
  if st.pBuffer ≠ 0 then
    (forUp a.ch_im_out (leftover_channel a st.bufferA) ⟨0, st.pOut, st.Im_out⟩).bind fun s =>
    .ok { st with pOut := s.pOut, Im_out := s.Im_out }
  else .ok st

/-- Lines 76-158: the DSP implementation, run with the given fuel on the working buffer
`bufferA` and the output buffer `Im_out`. -/
def arm_convolve_HWC_q7_basic_dsp (a : Conv) (fuel : Nat) (bufferA : List Int)
    (Im_out : OutBuf) : Run DspState :=
  (dsp_scan a fuel ⟨bufferA, 0, 0, Im_out⟩).bind (dsp_leftover a)

/-! ## Quantities used in the statements -/

/-- Membership in the `int32_t` range. -/
def I32 (x : Int) : Prop := -2 ^ 31 ≤ x ∧ x < 2 ^ 31

/-- The input coordinate `stride * o + t - padding` of kernel tap `t` at output
coordinate `o`, as an integer. -/
def coord (a : Conv) (o t : Nat) : Int := a.stride * o + t - a.padding

/-- The contribution of kernel tap `(m, n)` and input channel `l` to output channel `i` at
pixel `(j, k)`: the product of input sample and weight when the tap lies inside the input,
zero otherwise. -/
def tapTerm (a : Conv) (i j k m n l : Nat) : Int :=
  if 0 ≤ coord a j m ∧ coord a j m < a.dim_im_in ∧ 0 ≤ coord a k n ∧ coord a k n < a.dim_im_in
  then
    a.Im_in.getD ((coord a j m * a.dim_im_in + coord a k n) * a.ch_im_in + l).toNat 0 *
      a.wt.getD (i * a.ch_im_in * a.dim_kernel * a.dim_kernel
        + (m * a.dim_kernel + n) * a.ch_im_in + l) 0
  else 0

/-- The sum `S` of the tap contributions over the kernel window and the input channels. -/
def convSum (a : Conv) (i j k : Nat) : Int :=
  ∑ m in Finset.range a.dim_kernel, ∑ n in Finset.range a.dim_kernel,
    ∑ l in Finset.range a.ch_im_in, tapTerm a i j k m n l

/-- The flat index `i + (j * dim_im_out + k) * ch_im_out` of output channel `i` at
pixel `(j, k)`. -/
def outIndex (a : Conv) (i j k : Nat) : Nat := i + (j * a.dim_im_out + k) * a.ch_im_out

/-- The 32-bit accumulator of output channel `i` at pixel `(j, k)` in closed form. -/
def accValue (a : Conv) (i j k : Nat) : Int :=
  wrap32 (a.bias.getD i 0 * 2 ^ a.bias_shift + NN_ROUND a.out_shift + convSum a i j k)

/-- The code stored for output channel `i` at pixel `(j, k)` in closed form. -/
def outValue (a : Conv) (i j k : Nat) : Int := SSAT (accValue a i j k >>> a.out_shift) 8

/-- The effect of a list of stores `(index, value)` on the output buffer. -/
def storeAll (ws : List (Nat × Int)) (o : OutBuf) : OutBuf :=
  ws.foldl (fun o w => ⟨o.data.set w.1 w.2, o.written ++ [w.1]⟩) o

/-- The stores of the reference path in program order: channel, then row, then column. -/
def refStores (a : Conv) : List (Nat × Int) :=
  (List.range a.ch_im_out).flatMap fun i =>
    (List.range a.dim_im_out).flatMap fun j =>
      (List.range a.dim_im_out).flatMap fun k => [(outIndex a i j k, outValue a i j k)]

/-- Number of entries the left-over loop consumes per output channel: four per round of
the first loop and one per round of the second, both counted by the `uint16_t` `colCnt`. -/
def leftCount (a : Conv) : Nat := 4 * ((a.N >>> 2) % 2 ^ 16) + (a.N &&& 3) % 2 ^ 16

/-- The dot product of the `n` weights from `wt[pA ..]` with the first `n` entries of the
working buffer. -/
def colSum (a : Conv) (bufferA : List Int) (pA n : Nat) : Int :=
  ∑ t in Finset.range n, a.wt.getD (pA + t) 0 * bufferA.getD t 0

/-- The 32-bit accumulator of output channel `i` in the left-over loop in closed form. -/
def leftAcc (a : Conv) (bufferA : List Int) (i : Nat) : Int :=
  wrap32 (a.bias.getD i 0 * 2 ^ a.bias_shift + NN_ROUND a.out_shift
    + colSum a bufferA (i * leftCount a) (leftCount a))

/-- The stores of the left-over loop in program order, from offset `pOut` on. -/
def leftStores (a : Conv) (bufferA : List Int) (pOut : Nat) : List (Nat × Int) :=
  (List.range a.ch_im_out).flatMap fun i =>
    [(pOut + i, SSAT (leftAcc a bufferA i >>> a.out_shift) 8)]

/-- Saturation to the signed 8-bit range as the spec words it: values above 127 become 127,
values below -128 become -128, all others are kept. -/
def sat8 (q : Int) : Int := if q > 127 then 127 else if q < -128 then -128 else q

/-- The code `code` is `q` saturated to signed 8 bits: exactly 127 above the range, exactly
-128 below it, `q` itself inside it; in particular `code` lies in `[-128, 127]`. -/
def Saturates (q code : Int) : Prop :=
  (q > 127 → code = 127) ∧ (q < -128 → code = -128) ∧ (-128 ≤ q → q ≤ 127 → code = q)
    ∧ -128 ≤ code ∧ code ≤ 127

/-- The input of side `dim_im_in + 2 * padding` obtained by surrounding `Im_in` with
`padding` rows and columns of zeros on every side, in all channels. -/
def zeroPad (a : Conv) : List Int :=
  (List.range ((a.dim_im_in + 2 * a.padding) * (a.dim_im_in + 2 * a.padding) * a.ch_im_in)).map
    fun idx =>
      let r := idx / a.ch_im_in / (a.dim_im_in + 2 * a.padding)
      let c := idx / a.ch_im_in % (a.dim_im_in + 2 * a.padding)
      let l := idx % a.ch_im_in
      if a.padding ≤ r ∧ r < a.dim_im_in + a.padding ∧ a.padding ≤ c ∧ c < a.dim_im_in + a.padding
      then a.Im_in.getD (((r - a.padding) * a.dim_im_in + (c - a.padding)) * a.ch_im_in + l) 0
      else 0

/-- The same convolution on the zero-padded input, with padding 0. -/
def padded (a : Conv) : Conv :=
  { a with Im_in := zeroPad a, dim_im_in := a.dim_im_in + 2 * a.padding, padding := 0 }

/-- The value `q` is the accumulator `acc` divided by `2 ^ s` and rounded to the nearest
integer, ties toward plus infinity: `q = floor ((acc + 2^(s-1)) / 2^s)` for `s ≥ 1`, and
`q = acc` for `s = 0`. -/
def RoundsHalfUp (acc : Int) (s : Nat) (q : Int) : Prop :=
  (s = 0 → q = acc) ∧
  (1 ≤ s → q = (acc + 2 ^ (s - 1)) / 2 ^ s
    ∧ acc - 2 ^ (s - 1) < q * 2 ^ s ∧ q * 2 ^ s ≤ acc + 2 ^ (s - 1))

/-- The geometry fits the `int16_t` counters of the DSP path: every value a counter takes,
the exit values `dim_im_out` and `(dim_im_out - 1) * stride - padding + dim_kernel` included,
lies in `[-32768, 32767]`. -/
def Conv.Fits16 (a : Conv) : Prop :=
  a.dim_im_out ≤ 32767 ∧ a.padding ≤ 32768 ∧
  a.dim_im_out * a.stride + a.dim_kernel ≤ 32767 + a.padding + a.stride

instance (a : Conv) : Decidable a.Fits16 := by unfold Conv.Fits16; infer_instance

/-- The buffer `buf` with the entries `vs` written from offset `p` on. -/
def blit (buf : List Int) (p : Nat) (vs : List Int) : List Int :=
  (List.range buf.length).map fun i =>
    if p ≤ i ∧ i < p + vs.length then vs.getD (i - p) 0 else buf.getD i 0

/-- The `ch_im_in` entries that the im2col writes for the kernel tap at input coordinates
`(r, c)`: the input samples at `(r, c)`, or zeros when the tap lies outside the input. -/
def tapEntries (a : Conv) (r c : Int) : List Int :=
  (List.range a.ch_im_in).map fun (l : Nat) =>
    if r < 0 ∨ r ≥ a.dim_im_in ∨ c < 0 ∨ c ≥ a.dim_im_in then 0
    else a.Im_in.getD ((r * a.dim_im_in + c) * a.ch_im_in + l).toNat 0

/-- The im2col column of output pixel `(y, x)`: kernel row, then kernel column, then input
channel. -/
def colList (a : Conv) (y x : Nat) : List Int :=
  (List.range a.dim_kernel).flatMap fun (m : Nat) =>
    (List.range a.dim_kernel).flatMap fun (n : Nat) =>
      tapEntries a ((y : Int) * a.stride - a.padding + m) ((x : Int) * a.stride - a.padding + n)

/-- The function `f` appends the entries `vs` to the working buffer at `pBuffer` and advances
`pBuffer` past them, whenever they fit. -/
def Appends (f : DspState → Run DspState) (vs : List Int) : Prop :=
  ∀ st : DspState, st.pBuffer + vs.length ≤ st.bufferA.length →
    f st = .ok { st with
      bufferA := blit st.bufferA st.pBuffer vs, pBuffer := st.pBuffer + vs.length }

/-- The stores of one call of the fused kernel in program order: for every output channel
the code of the first buffered column at `pOut + i` and the code of the second at
`pOut + ch_im_out + i`. -/
def kernelStores (a : Conv) (bufferA : List Int) (pOut : Nat) : List (Nat × Int) :=
  (List.range a.ch_im_out).flatMap fun (i : Nat) =>
    [(pOut + i, SSAT (wrap32 (a.bias.getD i 0 * 2 ^ a.bias_shift + NN_ROUND a.out_shift
        + ∑ t in Finset.range a.N, a.wt.getD (i * a.N + t) 0 * bufferA.getD (0 + t) 0)
        >>> a.out_shift) 8),
     (pOut + a.ch_im_out + i,
      SSAT (wrap32 (a.bias.getD i 0 * 2 ^ a.bias_shift + NN_ROUND a.out_shift
        + ∑ t in Finset.range a.N, a.wt.getD (i * a.N + t) 0 * bufferA.getD (a.N + t) 0)
        >>> a.out_shift) 8)]

/-- The code of output channel `i` at the pixel with row-major index `q`. -/
def pixValue (a : Conv) (q i : Nat) : Int :=
  outValue a i (q / a.dim_im_out) (q % a.dim_im_out)

/-- State of the scan of the DSP path after `p` output pixels, started on a working buffer
of `bufLen` slots and the output buffer `out0`: `pBuffer` is at 0 or at `N`, the buffer holds
the column of the last pixel when `p` is odd, and the pixels consumed in pairs so far are in
the output, all other output cells being untouched. -/
def ScanInv (a : Conv) (bufLen : Nat) (out0 : OutBuf) (p : Nat) (st : DspState) : Prop :=
  st.bufferA.length = bufLen ∧
  st.Im_out.data.length = out0.data.length ∧
  st.pBuffer = (p % 2) * a.N ∧
  st.pOut = (p - p % 2) * a.ch_im_out ∧
  (p % 2 = 1 → ∀ t, t < a.N →
    st.bufferA.getD t 0
      = (colList a ((p - 1) / a.dim_im_out) ((p - 1) % a.dim_im_out)).getD t 0) ∧
  (∀ q i, q < p - p % 2 → i < a.ch_im_out →
    st.Im_out.data[q * a.ch_im_out + i]? = some (pixValue a q i)) ∧
  (∀ idx, (p - p % 2) * a.ch_im_out ≤ idx → st.Im_out.data[idx]? = out0.data[idx]?)

/-! ## Concrete arguments -/

/-- A 3x3 two-channel input convolved with two 3x3 filters, padding 1, stride 1. -/
def sample_args : Conv :=
  { Im_in := [1, 2, 3, 4, 5, 6, 7, 8, 9, 10, 11, 12, 13, 14, 15, 16, 17, 18],
    dim_im_in := 3, ch_im_in := 2,
    wt := [1, 2, 3, 4, 5, 6, 7, 8, 9, 10, -1, -2, -3, -4, -5, -6, -7, -8,
           1, 0, 0, 0, 0, 0, 0, 0, 0, 0, 0, 0, 0, 0, 0, 0, 0, 1],
    ch_im_out := 2, dim_kernel := 3, padding := 1, stride := 1, bias := [3, -4],
    bias_shift := 2, out_shift := 3, dim_im_out := 3 }

/-- Arguments on which the shifted bias leaves the 32-bit range: `64 << 25`. -/
def c1_args : Conv :=
  { Im_in := [1], dim_im_in := 1, ch_im_in := 1, wt := [1], ch_im_out := 1, dim_kernel := 1,
    padding := 0, stride := 1, bias := [64], bias_shift := 25, out_shift := 0,
    dim_im_out := 1 }

/-- The 1x1 single-channel convolution with weight 1, bias 0 and no shifts. -/
def identity_args (x : Int) : Conv :=
  { Im_in := [x], dim_im_in := 1, ch_im_in := 1, wt := [1], ch_im_out := 1, dim_kernel := 1,
    padding := 0, stride := 1, bias := [0], bias_shift := 0, out_shift := 0,
    dim_im_out := 1 }

/-- Arguments on which the shifted bias leaves the 32-bit range and the result is rounded:
`64 << 25` with `out_shift = 1`. -/
def c5_args : Conv :=
  { Im_in := [0], dim_im_in := 1, ch_im_in := 1, wt := [0], ch_im_out := 1, dim_kernel := 1,
    padding := 0, stride := 1, bias := [64], bias_shift := 25, out_shift := 1,
    dim_im_out := 1 }

/-- The rounding scenario of the spec: accumulator 5, `out_shift = 1`. -/
def rounding_args : Conv :=
  { Im_in := [0], dim_im_in := 1, ch_im_in := 1, wt := [0], ch_im_out := 1, dim_kernel := 1,
    padding := 0, stride := 1, bias := [5], bias_shift := 0, out_shift := 1,
    dim_im_out := 1 }

/-- Arguments with a zero filter on which the shifted bias leaves the 32-bit range:
`1 << 31`. -/
def c7_args : Conv :=
  { Im_in := [5], dim_im_in := 1, ch_im_in := 1, wt := [0], ch_im_out := 1, dim_kernel := 1,
    padding := 0, stride := 1, bias := [1], bias_shift := 31, out_shift := 0,
    dim_im_out := 1 }

/-- The bias-shift scenario of the spec: bias 3, `bias_shift = 2`, `out_shift = 0`, with a
zero filter. -/
def bias_args : Conv :=
  { Im_in := [5], dim_im_in := 1, ch_im_in := 1, wt := [0], ch_im_out := 1, dim_kernel := 1,
    padding := 0, stride := 1, bias := [3], bias_shift := 2, out_shift := 0,
    dim_im_out := 1 }

/-- The stride/geometry scenario: a single-channel `d x d` input filled with `v`, one
`K x K` filter of ones, stride `s`, padding 0, bias 0, both shifts 0 and
`dim_im_out = (d - K) / s + 1`. -/
def ones_args (v : Int) (d K s : Nat) : Conv :=
  { Im_in := List.replicate (d * d) v, dim_im_in := d, ch_im_in := 1,
    wt := List.replicate (K * K) 1, ch_im_out := 1, dim_kernel := K, padding := 0,
    stride := s, bias := [0], bias_shift := 0, out_shift := 0,
    dim_im_out := (d - K) / s + 1 }

/-- Well-formed arguments with a consistent geometry, `(1 + 2 * 40000 - 1) / 65535 + 1 = 2`,
whose padding does not fit an `int16_t`. -/
def c2_args : Conv :=
  { Im_in := [5], dim_im_in := 1, ch_im_in := 1, wt := [1], ch_im_out := 1, dim_kernel := 1,
    padding := 40000, stride := 65535, bias := [0], bias_shift := 0, out_shift := 0,
    dim_im_out := 2 }

/-- Well-formed arguments with a consistent geometry, `(1 + 2 * 32767 - 1) / 65534 + 1 = 2`,
on which the kernel-column counter reaches 32767. -/
def c10_args : Conv :=
  { Im_in := [5], dim_im_in := 1, ch_im_in := 1, wt := [1], ch_im_out := 1, dim_kernel := 1,
    padding := 32767, stride := 65534, bias := [0], bias_shift := 0, out_shift := 0,
    dim_im_out := 2 }

/-- The arguments of the single-channel call for output channel `i`: the weight pointer
advanced to row `i` (`wt + i * N`, `N` weights), the bias pointer advanced to `bias + i`
(one bias), `ch_im_out = 1`; input, geometry and shifts as in `a`. -/
def channel (a : Conv) (i : Nat) : Conv :=
  { a with wt := (a.wt.drop (i * a.N)).take a.N, ch_im_out := 1,
           bias := (a.bias.drop i).take 1 }

/-- Lines 177-187 stopped after `l` rounds of the loop over the input channels: the body of
the loop over the kernel column `n` as in `ref_kernel_col`, the innermost loop cut at `l`. -/
def ref_kernel_col_at (a : Conv) (i j k m n l : Nat) (conv_out : Int) : Run Int :=
  let in_row := wrap32 (a.stride * j + m - a.padding)
  let in_col := wrap32 (a.stride * k + n - a.padding)
  if in_row ≥ 0 ∧ in_col ≥ 0 ∧ in_row < a.dim_im_in ∧ in_col < a.dim_im_in then
    forUp l (ref_tap a i m n in_row in_col) conv_out
  else .ok conv_out

/-- The accumulator `conv_out` of the reference path while the loop nest of lines 173-188
stands at kernel row `m`, kernel column `n` and input channel `l`: the rows below `m`, the
columns below `n` of row `m` and the channels below `l` of tap `(m, n)` have been added. -/
def ref_conv_out_at (a : Conv) (i j k m n l : Nat) : Run Int :=
  (readAt .bias a.bias i).bind fun b =>
  (forUp m
    (fun m c => forUp a.dim_kernel (fun n c => ref_kernel_col a i j k m n c) c)
    (wrap32 (shl32 b a.bias_shift + NN_ROUND a.out_shift))).bind fun c =>
  (forUp n (fun n c => ref_kernel_col a i j k m n c) c).bind fun c =>
  ref_kernel_col_at a i j k m n l c

/-- The exact sum of the tap contributions added before the loop nest stands at
`(m, n, l)`, in the order of the loops. -/
def sumBefore (a : Conv) (i j k m n l : Nat) : Int :=
  (∑ m1 in Finset.range m, ∑ n1 in Finset.range a.dim_kernel,
      ∑ l1 in Finset.range a.ch_im_in, tapTerm a i j k m1 n1 l1)
  + (∑ n1 in Finset.range n, ∑ l1 in Finset.range a.ch_im_in, tapTerm a i j k m n1 l1)
  + ∑ l1 in Finset.range l, tapTerm a i j k m n l1

/-- The accumulator `sum` of the left-over loop after `r` rounds of the loop that processes
four entries and `s` rounds of the loop that processes one entry (lines 125-155). -/
def leftover_sum_at (a : Conv) (bufferA : List Int) (i : Nat) (pA : Nat) (r s : Nat) :
    Run DotState :=
  (readAt .bias a.bias i).bind fun b =>
  (forUp r (fun _ d => leftover_quad a bufferA d)
    ⟨pA, 0, wrap32 (shl32 b a.bias_shift + NN_ROUND a.out_shift)⟩).bind fun d =>
  forUp s (fun _ d => leftover_single a bufferA d) d

/-- Arguments with `N = 5` and two output channels: the left-over loop runs one round of
four and one round of one per channel. -/
def c15_args : Conv :=
  { Im_in := [1, 2, 3, 4, 5], dim_im_in := 1, ch_im_in := 5,
    wt := [1, 1, 1, 1, 1, 2, 0, 0, 0, -1], ch_im_out := 2, dim_kernel := 1,
    padding := 0, stride := 1, bias := [0, 1], bias_shift := 0, out_shift := 0,
    dim_im_out := 1 }

/-- Modelled from the spec: the status type `arm_cmsis_nn_status`, whose declaration is not
at hand: "a single success code in the current design; the signature reserves room for
future error codes (the calling convention is a discriminated status, not a boolean)". -/
inductive arm_cmsis_nn_status
  | ARM_CMSIS_NN_SUCCESS
  | failure (code : Int)
  deriving DecidableEq, Repr

/-- What a call leaves behind: the output tensor, the two scratch buffers and the status
returned to the application. -/
structure CallResult where
  Im_out : OutBuf
  bufferA : List Int
  bufferB : List Int
  status : arm_cmsis_nn_status
  deriving DecidableEq, Repr

/-- Lines 50-199: the whole function. `ARM_MATH_DSP` tells which of the two bodies the
preprocessor keeps (`ARM_MATH_DSP` defined and `ARM_MATH_MVEI` not); `bufferB` is unused
(line 67); the only `return` is the one of line 198. -/
def arm_convolve_HWC_q7_basic (ARM_MATH_DSP : Bool) (a : Conv) (fuel : Nat) (Im_out : OutBuf)
    (bufferA bufferB : List Int) : Run CallResult :=
  if ARM_MATH_DSP then
    (arm_convolve_HWC_q7_basic_dsp a fuel bufferA Im_out).bind fun st =>
    .ok ⟨st.Im_out, st.bufferA, bufferB, .ARM_CMSIS_NN_SUCCESS⟩
  else
    (arm_convolve_HWC_q7_basic_ref a Im_out).bind fun o =>
    .ok ⟨o, bufferA, bufferB, .ARM_CMSIS_NN_SUCCESS⟩

/-- Well-formed arguments with a consistent geometry, `(1 + 2 * 16384 - 1) / 32767 + 1 = 2`,
that fit the `int16_t` counters, while the same convolution on the zero-padded input of side
`1 + 2 * 16384 = 32769` with padding 0, also consistent, `(32769 - 1) / 32767 + 1 = 2`, does
not. -/
def c4_args : Conv :=
  { Im_in := [5], dim_im_in := 1, ch_im_in := 1, wt := [1], ch_im_out := 1, dim_kernel := 1,
    padding := 16384, stride := 32767, bias := [0], bias_shift := 0, out_shift := 0,
    dim_im_out := 2 }

/-! # Properties -/

/-! ## Machine arithmetic and loops -/

theorem wrap32_I32 (x : Int) : I32 (wrap32 x) := by
  unfold I32 wrap32; constructor <;> omega

theorem wrap32_of_I32 {x : Int} (h : I32 x) : wrap32 x = x := by
  unfold I32 at h; unfold wrap32; omega

theorem wrap32_add_left (x y : Int) : wrap32 (wrap32 x + y) = wrap32 (x + y) := by
  unfold wrap32; omega

theorem SSAT_eight (x : Int) :
    SSAT x 8 = if x > 127 then 127 else if x < -128 then -128 else x := by
  unfold SSAT; norm_num

theorem SSAT_isQ7 (x : Int) : IsQ7 (SSAT x 8) := by
  rw [SSAT_eight]; unfold IsQ7; split_ifs <;> omega

theorem q7_cast_of_isQ7 {x : Int} (h : IsQ7 x) : q7_cast x = x := by
  unfold IsQ7 at h; unfold q7_cast; omega

theorem q7_cast_SSAT (x : Int) : q7_cast (SSAT x 8) = SSAT x 8 :=
  q7_cast_of_isQ7 (SSAT_isQ7 x)

@[simp] theorem Run.bind_ok {σ τ : Type} (s : σ) (k : σ → Run τ) : (Run.ok s).bind k = k s := rfl

@[simp] theorem Run.bind_fault {σ τ : Type} (f : Fault) (k : σ → Run τ) :
    (Run.fault f : Run σ).bind k = .fault f := rfl

theorem forUp_succ {σ : Type} (n : Nat) (body : Nat → σ → Run σ) (s : σ) :
    forUp (n + 1) body s = (forUp n body s).bind (body n) := rfl

/-- Hoare rule for `forUp`: an invariant that every round re-establishes holds at the end,
and the loop does not fault. -/
theorem forUp_inv {σ : Type} (P : Nat → σ → Prop) (n : Nat) (body : Nat → σ → Run σ) (s : σ)
    (h0 : P 0 s)
    (hstep : ∀ k s, k < n → P k s → ∃ s', body k s = .ok s' ∧ P (k + 1) s') :
    ∃ s', forUp n body s = .ok s' ∧ P n s' := by
  induction n with
  | zero => exact ⟨s, rfl, h0⟩
  | succ n ih =>
    obtain ⟨s1, h1, hP1⟩ := ih (fun k s hk hP => hstep k s (Nat.lt_succ_of_lt hk) hP)
    obtain ⟨s2, h2, hP2⟩ := hstep n s1 (Nat.lt_succ_self n) hP1
    exact ⟨s2, by rw [forUp_succ, h1, Run.bind_ok, h2], hP2⟩

/-- A loop that adds one term per round to a 32-bit accumulator computes the wrapped sum. -/
theorem forUp_acc (n : Nat) (body : Nat → Int → Run Int) (t : Nat → Int) (acc : Int)
    (h : ∀ l acc, l < n → I32 acc → body l acc = .ok (wrap32 (acc + t l)))
    (hacc : I32 acc) :
    forUp n body acc = .ok (wrap32 (acc + ∑ l in Finset.range n, t l)) := by
  induction n with
  | zero => simp [forUp, wrap32_of_I32 hacc]
  | succ n ih =>
    rw [forUp_succ, ih (fun l acc hl ha => h l acc (Nat.lt_succ_of_lt hl) ha), Run.bind_ok,
      h n _ (Nat.lt_succ_self n) (wrap32_I32 _), wrap32_add_left, Finset.sum_range_succ,
      add_assoc]

theorem flat_lt {a b x y : Nat} (hx : x < a) (hy : y < b) : x * b + y < a * b := by
  calc x * b + y < x * b + b := by omega
    _ = (x + 1) * b := by ring
    _ ≤ a * b := Nat.mul_le_mul_right b hx

/-! ## The reference accumulator -/

theorem readAt_ok (what : Fault) (xs : List Int) (i : Int) (h0 : 0 ≤ i)
    (h : i.toNat < xs.length) : readAt what xs i = .ok (xs.getD i.toNat 0) := by
  unfold readAt
  simp [h0, List.getElem?_eq_getElem h, List.getD_eq_getElem?_getD]

theorem readAt_nat (what : Fault) (xs : List Int) (i : Nat) (h : i < xs.length) :
    readAt what xs (i : Int) = .ok (xs.getD i 0) := by
  have := readAt_ok what xs (i : Int) (Int.ofNat_nonneg i) (by simpa using h)
  simpa using this

theorem wrap32_coord (a : Conv) (o t : Nat) (hs : a.stride < 2 ^ 16) (hp : a.padding < 2 ^ 16)
    (hd : a.dim_im_in < 2 ^ 16) (ho : o < 2 ^ 16) (ht : t < 2 ^ 16) :
    ((0 ≤ wrap32 (a.stride * o + t - a.padding)
        ∧ wrap32 (a.stride * o + t - a.padding) < a.dim_im_in)
      ↔ (0 ≤ coord a o t ∧ coord a o t < a.dim_im_in))
    ∧ (0 ≤ coord a o t ∧ coord a o t < a.dim_im_in →
        wrap32 (a.stride * o + t - a.padding) = coord a o t) := by
  have h1 : a.stride * o ≤ 65535 * 65535 := Nat.mul_le_mul (by omega) (by omega)
  have h2 : (a.stride : Int) * o ≤ 4294836225 := by exact_mod_cast h1
  have h3 : 0 ≤ (a.stride : Int) * o := by positivity
  unfold coord wrap32
  generalize (a.stride : Int) * o = q at *
  constructor
  · constructor <;> intro h <;> omega
  · intro h; omega

theorem wt_index_lt (a : Conv) (i m n l : Nat) (hi : i < a.ch_im_out) (hm : m < a.dim_kernel)
    (hn : n < a.dim_kernel) (hl : l < a.ch_im_in) :
    i * a.ch_im_in * a.dim_kernel * a.dim_kernel + (m * a.dim_kernel + n) * a.ch_im_in + l
      < a.ch_im_out * a.N := by
  have h1 : (m * a.dim_kernel + n) * a.ch_im_in + l < a.dim_kernel * a.dim_kernel * a.ch_im_in :=
    flat_lt (flat_lt hm hn) hl
  have h2 : a.dim_kernel * a.dim_kernel * a.ch_im_in = a.N := by unfold Conv.N; ring
  have h3 := flat_lt hi (h2 ▸ h1)
  have h4 : i * a.ch_im_in * a.dim_kernel * a.dim_kernel = i * a.N := by unfold Conv.N; ring
  omega

theorem ref_tap_eq (a : Conv) (hwf : a.WF) (i m n l : Nat) (r c : Nat) (acc : Int)
    (hi : i < a.ch_im_out) (hm : m < a.dim_kernel) (hn : n < a.dim_kernel)
    (hl : l < a.ch_im_in) (hr : r < a.dim_im_in) (hc : c < a.dim_im_in) :
    ref_tap a i m n r c l acc = .ok (wrap32 (acc +
      a.Im_in.getD ((r * a.dim_im_in + c) * a.ch_im_in + l) 0 *
      a.wt.getD (i * a.ch_im_in * a.dim_kernel * a.dim_kernel
        + (m * a.dim_kernel + n) * a.ch_im_in + l) 0)) := by
  obtain ⟨_, _, _, _, _, _, _, _, _, hIn, hWt, _⟩ := hwf
  have h1 : (r * a.dim_im_in + c) * a.ch_im_in + l < a.Im_in.length := by
    rw [hIn]; exact flat_lt (flat_lt hr hc) hl
  have h2 := wt_index_lt a i m n l hi hm hn hl
  rw [← hWt] at h2
  have e1 : ((r : Int) * a.dim_im_in + c) * a.ch_im_in + l
      = (((r * a.dim_im_in + c) * a.ch_im_in + l : Nat) : Int) := by push_cast; ring
  have e2 : (i : Int) * a.ch_im_in * a.dim_kernel * a.dim_kernel
      + (m * a.dim_kernel + n) * a.ch_im_in + l
      = ((i * a.ch_im_in * a.dim_kernel * a.dim_kernel
        + (m * a.dim_kernel + n) * a.ch_im_in + l : Nat) : Int) := by push_cast; ring
  unfold ref_tap
  rw [e1, e2, readAt_nat _ _ _ h1, readAt_nat _ _ _ h2]
  rfl

theorem ref_kernel_col_eq (a : Conv) (hwf : a.WF) (i j k m n : Nat) (acc : Int)
    (hi : i < a.ch_im_out) (hj : j < 2 ^ 16) (hk : k < 2 ^ 16) (hm : m < a.dim_kernel)
    (hn : n < a.dim_kernel) (hacc : I32 acc) :
    ref_kernel_col a i j k m n acc
      = .ok (wrap32 (acc + ∑ l in Finset.range a.ch_im_in, tapTerm a i j k m n l)) := by
  have hwf' := hwf
  obtain ⟨hd, _, _, hK, hp, hs, _⟩ := hwf'
  obtain ⟨hr1, hr2⟩ := wrap32_coord a j m hs hp hd hj (by omega)
  obtain ⟨hc1, hc2⟩ := wrap32_coord a k n hs hp hd hk (by omega)
  unfold ref_kernel_col
  by_cases hin : 0 ≤ coord a j m ∧ coord a j m < a.dim_im_in
      ∧ 0 ≤ coord a k n ∧ coord a k n < a.dim_im_in
  · obtain ⟨h1, h2, h3, h4⟩ := hin
    have hrw := hr2 ⟨h1, h2⟩
    have hcw := hc2 ⟨h3, h4⟩
    simp only [hrw, hcw]
    rw [if_pos ⟨h1, h3, h2, h4⟩]
    obtain ⟨r, hr⟩ := Int.eq_ofNat_of_zero_le h1
    obtain ⟨c, hc⟩ := Int.eq_ofNat_of_zero_le h3
    have hrlt : r < a.dim_im_in := by rw [hr] at h2; exact_mod_cast h2
    have hclt : c < a.dim_im_in := by rw [hc] at h4; exact_mod_cast h4
    rw [hr, hc]
    apply forUp_acc
    · intro l acc' hl _
      rw [ref_tap_eq a hwf i m n l r c acc' hi hm hn hl hrlt hclt]
      have e1 : ((coord a j m * a.dim_im_in + coord a k n) * a.ch_im_in + l).toNat
          = (r * a.dim_im_in + c) * a.ch_im_in + l := by
        rw [hr, hc]
        have : ((r : Int) * a.dim_im_in + c) * a.ch_im_in + l
            = (((r * a.dim_im_in + c) * a.ch_im_in + l : Nat) : Int) := by push_cast; ring
        rw [this, Int.toNat_ofNat]
      unfold tapTerm
      rw [if_pos ⟨h1, h2, h3, h4⟩, e1]
    · exact hacc
  · have hcond : ¬ (wrap32 (a.stride * j + m - a.padding) ≥ 0
        ∧ wrap32 (a.stride * k + n - a.padding) ≥ 0
        ∧ wrap32 (a.stride * j + m - a.padding) < a.dim_im_in
        ∧ wrap32 (a.stride * k + n - a.padding) < a.dim_im_in) := by
      rintro ⟨g1, g2, g3, g4⟩
      exact hin ⟨(hr1.1 ⟨g1, g3⟩).1, (hr1.1 ⟨g1, g3⟩).2, (hc1.1 ⟨g2, g4⟩).1, (hc1.1 ⟨g2, g4⟩).2⟩
    simp only []
    rw [if_neg hcond]
    have hz : ∑ l in Finset.range a.ch_im_in, tapTerm a i j k m n l = 0 := by
      apply Finset.sum_eq_zero
      intro l _
      unfold tapTerm
      rw [if_neg hin]
    rw [hz, add_zero, wrap32_of_I32 hacc]

/-- Closed form of the reference accumulator: the 32-bit value of shifted bias, rounding
constant and tap contributions. -/
theorem ref_conv_out_eq (a : Conv) (hwf : a.WF) (i j k : Nat)
    (hi : i < a.ch_im_out) (hj : j < 2 ^ 16) (hk : k < 2 ^ 16) :
    ref_conv_out a i j k
      = .ok (wrap32 (a.bias.getD i 0 * 2 ^ a.bias_shift + NN_ROUND a.out_shift
          + convSum a i j k)) := by
  have hb : i < a.bias.length := by
    obtain ⟨_, _, _, _, _, _, _, _, _, _, _, hB, _⟩ := hwf
    rw [hB]; exact hi
  unfold ref_conv_out
  rw [readAt_nat _ _ _ hb, Run.bind_ok]
  rw [forUp_acc a.dim_kernel _
    (fun m => ∑ n in Finset.range a.dim_kernel, ∑ l in Finset.range a.ch_im_in,
      tapTerm a i j k m n l) _ _ (wrap32_I32 _)]
  · unfold shl32 convSum
    rw [wrap32_add_left, add_assoc, wrap32_add_left, ← add_assoc]
  · intro m acc hm hacc
    apply forUp_acc _ _ _ _ _ hacc
    intro n acc' hn hacc'
    exact ref_kernel_col_eq a hwf i j k m n acc' hi hj hk hm hn hacc'

/-! ## The stores of the reference path -/

theorem storeAll_nil (o : OutBuf) : storeAll [] o = o := rfl

theorem storeAll_cons (w : Nat × Int) (ws : List (Nat × Int)) (o : OutBuf) :
    storeAll (w :: ws) o = storeAll ws ⟨o.data.set w.1 w.2, o.written ++ [w.1]⟩ := rfl

theorem storeAll_append (ws ws' : List (Nat × Int)) (o : OutBuf) :
    storeAll (ws ++ ws') o = storeAll ws' (storeAll ws o) := by
  unfold storeAll; rw [List.foldl_append]

theorem storeAll_length (ws : List (Nat × Int)) (o : OutBuf) :
    (storeAll ws o).data.length = o.data.length := by
  induction ws generalizing o with
  | nil => rfl
  | cons w ws ih => rw [storeAll_cons, ih]; simp

theorem storeAll_written (ws : List (Nat × Int)) (o : OutBuf) :
    (storeAll ws o).written = o.written ++ ws.map Prod.fst := by
  induction ws generalizing o with
  | nil => simp [storeAll_nil]
  | cons w ws ih => rw [storeAll_cons, ih]; simp

/-- Cells that no store addresses keep their content. -/
theorem storeAll_frame (ws : List (Nat × Int)) (o : OutBuf) (idx : Nat)
    (h : idx ∉ ws.map Prod.fst) : (storeAll ws o).data[idx]? = o.data[idx]? := by
  induction ws generalizing o with
  | nil => rfl
  | cons w ws ih =>
    simp only [List.map_cons, List.mem_cons, not_or] at h
    rw [storeAll_cons, ih _ h.2]
    exact List.getElem?_set_ne (fun e => h.1 e.symm)

/-- A cell addressed by exactly one store holds the value of that store. -/
theorem storeAll_get (ws : List (Nat × Int)) (o : OutBuf) (idx : Nat) (v : Int)
    (hnd : (ws.map Prod.fst).Nodup) (hmem : (idx, v) ∈ ws) (hlt : idx < o.data.length) :
    (storeAll ws o).data[idx]? = some v := by
  induction ws generalizing o with
  | nil => simp at hmem
  | cons w ws ih =>
    rw [List.map_cons, List.nodup_cons] at hnd
    rw [storeAll_cons]
    rcases List.mem_cons.1 hmem with h | h
    · subst h
      rw [storeAll_frame _ _ _ hnd.1]
      exact List.getElem?_set_self (by simpa using hlt)
    · exact ih _ hnd.2 h (by simpa using hlt)

/-- A loop whose rounds are lists of stores is the list of all these stores. -/
theorem forUp_stores (n : Nat) (body : Nat → OutBuf → Run OutBuf)
    (ws : Nat → List (Nat × Int)) (L : Nat)
    (h : ∀ k o, k < n → o.data.length = L → body k o = .ok (storeAll (ws k) o))
    (o : OutBuf) (ho : o.data.length = L) :
    forUp n body o = .ok (storeAll ((List.range n).flatMap ws) o) := by
  induction n with
  | zero => rfl
  | succ n ih =>
    rw [forUp_succ, ih (fun k o hk hl => h k o (Nat.lt_succ_of_lt hk) hl), Run.bind_ok,
      h n _ (Nat.lt_succ_self n) (by rw [storeAll_length]; exact ho), List.range_succ,
      List.flatMap_append, storeAll_append]
    simp

theorem outIndex_lt (a : Conv) (i j k : Nat) (hi : i < a.ch_im_out) (hj : j < a.dim_im_out)
    (hk : k < a.dim_im_out) :
    outIndex a i j k < a.dim_im_out * a.dim_im_out * a.ch_im_out := by
  have := flat_lt (flat_lt hj hk) hi
  unfold outIndex; omega

theorem outIndex_inj (a : Conv) (i j k i' j' k' : Nat) (hi : i < a.ch_im_out)
    (hk : k < a.dim_im_out) (hi' : i' < a.ch_im_out) (hk' : k' < a.dim_im_out)
    (h : outIndex a i j k = outIndex a i' j' k') : i = i' ∧ j = j' ∧ k = k' := by
  unfold outIndex at h
  have h1 : (i + (j * a.dim_im_out + k) * a.ch_im_out) % a.ch_im_out = i := by
    rw [Nat.add_mul_mod_self_right, Nat.mod_eq_of_lt hi]
  have h2 : (i' + (j' * a.dim_im_out + k') * a.ch_im_out) % a.ch_im_out = i' := by
    rw [Nat.add_mul_mod_self_right, Nat.mod_eq_of_lt hi']
  have e1 : i = i' := by rw [← h1, ← h2, h]
  subst e1
  have hC : 0 < a.ch_im_out := by omega
  have e2 : j * a.dim_im_out + k = j' * a.dim_im_out + k' :=
    Nat.eq_of_mul_eq_mul_right hC (by omega)
  have h3 : (k + j * a.dim_im_out) % a.dim_im_out = k := by
    rw [Nat.add_mul_mod_self_right, Nat.mod_eq_of_lt hk]
  have h4 : (k' + j' * a.dim_im_out) % a.dim_im_out = k' := by
    rw [Nat.add_mul_mod_self_right, Nat.mod_eq_of_lt hk']
  have e3 : k = k' := by rw [← h3, ← h4, Nat.add_comm, e2, Nat.add_comm]
  subst e3
  have hD : 0 < a.dim_im_out := by omega
  exact ⟨rfl, Nat.eq_of_mul_eq_mul_right hD (by omega), rfl⟩

theorem mem_refStores (a : Conv) (w : Nat × Int) :
    w ∈ refStores a ↔ ∃ i j k, i < a.ch_im_out ∧ j < a.dim_im_out ∧ k < a.dim_im_out
      ∧ w = (outIndex a i j k, outValue a i j k) := by
  unfold refStores
  simp only [List.mem_flatMap, List.mem_range, List.mem_singleton]
  constructor
  · rintro ⟨i, hi, j, hj, k, hk, h⟩; exact ⟨i, j, k, hi, hj, hk, h⟩
  · rintro ⟨i, j, k, hi, hj, hk, h⟩; exact ⟨i, hi, j, hj, k, hk, h⟩

theorem mem_refStores_fst (a : Conv) (idx : Nat) :
    idx ∈ (refStores a).map Prod.fst ↔ ∃ i j k, i < a.ch_im_out ∧ j < a.dim_im_out
      ∧ k < a.dim_im_out ∧ idx = outIndex a i j k := by
  rw [List.mem_map]
  constructor
  · rintro ⟨w, hw, rfl⟩
    obtain ⟨i, j, k, hi, hj, hk, rfl⟩ := (mem_refStores a w).1 hw
    exact ⟨i, j, k, hi, hj, hk, rfl⟩
  · rintro ⟨i, j, k, hi, hj, hk, rfl⟩
    exact ⟨_, (mem_refStores a _).2 ⟨i, j, k, hi, hj, hk, rfl⟩, rfl⟩

theorem refStores_nodup (a : Conv) : ((refStores a).map Prod.fst).Nodup := by
  unfold refStores
  simp only [List.map_flatMap, List.map_cons, List.map_nil]
  rw [List.nodup_flatMap]
  refine ⟨fun i hi => ?_, ?_⟩
  · rw [List.nodup_flatMap]
    refine ⟨fun j hj => ?_, ?_⟩
    · rw [List.nodup_flatMap]
      refine ⟨fun k _ => List.nodup_singleton _, ?_⟩
      refine List.Pairwise.imp_of_mem ?_ (List.nodup_range a.dim_im_out)
      intro k k' hk hk' hne
      simp only [Function.onFun, List.Disjoint, List.mem_singleton]
      rintro x rfl e
      exact hne (outIndex_inj a i j k i j k' (List.mem_range.1 hi) (List.mem_range.1 hk)
        (List.mem_range.1 hi) (List.mem_range.1 hk') e).2.2
    · refine List.Pairwise.imp_of_mem ?_ (List.nodup_range a.dim_im_out)
      intro j j' _ _ hne
      simp only [Function.onFun, List.Disjoint, List.mem_flatMap, List.mem_range,
        List.mem_singleton]
      rintro x ⟨k, hk, rfl⟩ ⟨k', hk', e⟩
      exact hne (outIndex_inj a i j k i j' k' (List.mem_range.1 hi) hk
        (List.mem_range.1 hi) hk' e).2.1
  · refine List.Pairwise.imp_of_mem ?_ (List.nodup_range a.ch_im_out)
    intro i i' hi hi' hne
    simp only [Function.onFun, List.Disjoint, List.mem_flatMap, List.mem_range,
      List.mem_singleton]
    rintro x ⟨j, _, k, hk, rfl⟩ ⟨j', _, k', hk', e⟩
    exact hne (outIndex_inj a i j k i' j' k' (List.mem_range.1 hi) hk
      (List.mem_range.1 hi') hk' e).1

theorem ref_pixel_eq (a : Conv) (hwf : a.WF) (i j k : Nat) (hi : i < a.ch_im_out)
    (hj : j < a.dim_im_out) (hk : k < a.dim_im_out) (o : OutBuf)
    (ho : a.dim_im_out * a.dim_im_out * a.ch_im_out ≤ o.data.length) :
    ref_pixel a i j k o = .ok (storeAll [(outIndex a i j k, outValue a i j k)] o) := by
  have hD : a.dim_im_out < 2 ^ 16 := hwf.2.2.2.2.2.2.2.2.1
  have hlt := outIndex_lt a i j k hi hj hk
  unfold ref_pixel
  rw [ref_conv_out_eq a hwf i j k hi (by omega) (by omega), Run.bind_ok, q7_cast_SSAT]
  unfold OutBuf.store
  rw [if_pos (by unfold outIndex at hlt; omega)]
  rfl

/-- The reference path never faults on well-formed arguments, and its effect on the output
buffer is the list of stores `refStores`. -/
theorem ref_run (a : Conv) (hwf : a.WF) (o : OutBuf)
    (ho : a.dim_im_out * a.dim_im_out * a.ch_im_out ≤ o.data.length) :
    arm_convolve_HWC_q7_basic_ref a o = .ok (storeAll (refStores a) o) := by
  unfold arm_convolve_HWC_q7_basic_ref refStores
  apply forUp_stores _ _ _ o.data.length _ _ rfl
  intro i o1 hi h1
  apply forUp_stores _ _ _ o.data.length _ _ h1
  intro j o2 hj h2
  apply forUp_stores _ _ _ o.data.length _ _ h2
  intro k o3 hk h3
  exact ref_pixel_eq a hwf i j k hi hj hk o3 (by omega)

theorem ref_run_get (a : Conv) (o : OutBuf) (i j k : Nat) (hi : i < a.ch_im_out)
    (hj : j < a.dim_im_out) (hk : k < a.dim_im_out)
    (ho : a.dim_im_out * a.dim_im_out * a.ch_im_out ≤ o.data.length) :
    (storeAll (refStores a) o).data[outIndex a i j k]? = some (outValue a i j k) :=
  storeAll_get _ _ _ _ (refStores_nodup a)
    ((mem_refStores a _).2 ⟨i, j, k, hi, hj, hk, rfl⟩)
    (lt_of_lt_of_le (outIndex_lt a i j k hi hj hk) ho)

theorem mem_refStores_fst_iff_lt (a : Conv) (idx : Nat) :
    idx ∈ (refStores a).map Prod.fst ↔ idx < a.dim_im_out * a.dim_im_out * a.ch_im_out := by
  rw [mem_refStores_fst]
  constructor
  · rintro ⟨i, j, k, hi, hj, hk, rfl⟩; exact outIndex_lt a i j k hi hj hk
  · intro h
    have hC : 0 < a.ch_im_out := by
      rcases Nat.eq_zero_or_pos a.ch_im_out with h0 | h0
      · rw [h0] at h; simp at h
      · exact h0
    have hD : 0 < a.dim_im_out := by
      rcases Nat.eq_zero_or_pos a.dim_im_out with h0 | h0
      · rw [h0] at h; simp at h
      · exact h0
    have hq : idx / a.ch_im_out < a.dim_im_out * a.dim_im_out :=
      (Nat.div_lt_iff_lt_mul hC).2 h
    refine ⟨idx % a.ch_im_out, idx / a.ch_im_out / a.dim_im_out,
      idx / a.ch_im_out % a.dim_im_out, Nat.mod_lt _ hC,
      (Nat.div_lt_iff_lt_mul hD).2 hq, Nat.mod_lt _ hD, ?_⟩
    unfold outIndex
    have e1 := Nat.div_add_mod (idx / a.ch_im_out) a.dim_im_out
    have e2 := Nat.mod_add_div idx a.ch_im_out
    rw [Nat.mul_comm] at e1
    rw [e1, Nat.mul_comm]
    exact e2.symm

theorem refStores_perm (a : Conv) :
    ((refStores a).map Prod.fst).Perm
      (List.range (a.dim_im_out * a.dim_im_out * a.ch_im_out)) :=
  (List.perm_ext_iff_of_nodup (refStores_nodup a) (List.nodup_range _)).2 fun idx => by
    rw [mem_refStores_fst_iff_lt, List.mem_range]

/-! ## The accumulator stays in the 32-bit range -/

theorem getD_isQ7 (xs : List Int) (h : ∀ x ∈ xs, IsQ7 x) (i : Nat) : IsQ7 (xs.getD i 0) := by
  by_cases hi : i < xs.length
  · rw [List.getD_eq_getElem?_getD, List.getElem?_eq_getElem hi]
    exact h _ (List.getElem_mem hi)
  · rw [List.getD_eq_getElem?_getD, List.getElem?_eq_none (by omega)]
    unfold IsQ7; simp

theorem abs_mul_q7_le {x w : Int} (hx : IsQ7 x) (hw : IsQ7 w) : |x * w| ≤ 16384 := by
  unfold IsQ7 at hx hw
  rw [abs_le]
  constructor <;> nlinarith

theorem abs_tapTerm_le (a : Conv) (hwf : a.WF) (i j k m n l : Nat) :
    |tapTerm a i j k m n l| ≤ 16384 := by
  obtain ⟨_, _, _, _, _, _, _, _, _, _, _, _, hI, hW, _⟩ := hwf
  unfold tapTerm
  split_ifs
  · exact abs_mul_q7_le (getD_isQ7 _ hI _) (getD_isQ7 _ hW _)
  · simp

theorem abs_sum_range_le (n : Nat) (f : Nat → Int) (B : Int)
    (h : ∀ i, i < n → |f i| ≤ B) : |∑ i in Finset.range n, f i| ≤ n * B := by
  induction n with
  | zero => simp
  | succ n ih =>
    rw [Finset.sum_range_succ]
    have h1 := ih (fun i hi => h i (Nat.lt_succ_of_lt hi))
    have h2 := h n (Nat.lt_succ_self n)
    have h3 := abs_add (∑ i in Finset.range n, f i) (f n)
    push_cast
    linarith

theorem abs_convSum_le (a : Conv) (hwf : a.WF) (i j k : Nat) :
    |convSum a i j k| ≤ (a.N : Int) * 16384 := by
  have h : |convSum a i j k| ≤ a.dim_kernel * (a.dim_kernel * (a.ch_im_in * 16384 : Int)) := by
    unfold convSum
    apply abs_sum_range_le
    intro m _
    apply abs_sum_range_le
    intro n _
    apply abs_sum_range_le
    intro l _
    exact abs_tapTerm_le a hwf i j k m n l
  have e : (a.N : Int) * 16384
      = a.dim_kernel * (a.dim_kernel * (a.ch_im_in * 16384 : Int)) := by
    unfold Conv.N; push_cast; ring
  rw [e]; exact h

theorem NN_ROUND_bounds (s : Nat) (hs : s ≤ 30) : 0 ≤ NN_ROUND s ∧ NN_ROUND s ≤ 2 ^ 29 := by
  unfold NN_ROUND
  split_ifs with h
  · constructor
    · positivity
    · exact pow_le_pow_right₀ (by norm_num) (by omega)
  · norm_num

theorem abs_shift_bias_le {b : Int} (hb : IsQ7 b) (s : Nat) (hs : s ≤ 22) :
    |b * 2 ^ s| ≤ 2 ^ 29 := by
  have h1 : (2 : Int) ^ s ≤ 2 ^ 22 := pow_le_pow_right₀ (by norm_num) hs
  have h2 : (0 : Int) < 2 ^ s := by positivity
  unfold IsQ7 at hb
  rw [abs_le]
  constructor <;> nlinarith

/-- Under the stated bounds the accumulator never leaves the 32-bit range: its closed form
is the exact integer sum. -/
theorem accValue_exact (a : Conv) (hwf : a.WF) (hN : a.N ≤ 2 ^ 15) (hbs : a.bias_shift ≤ 22)
    (hos : a.out_shift ≤ 30) (i j k : Nat) :
    accValue a i j k
      = a.bias.getD i 0 * 2 ^ a.bias_shift + NN_ROUND a.out_shift + convSum a i j k := by
  have h1 := abs_convSum_le a hwf i j k
  have h2 := NN_ROUND_bounds a.out_shift hos
  have h3 := abs_shift_bias_le (getD_isQ7 _ hwf.2.2.2.2.2.2.2.2.2.2.2.2.2.2 i) a.bias_shift hbs
  have h4 : (a.N : Int) ≤ 2 ^ 15 := by exact_mod_cast hN
  rw [abs_le] at h1 h3
  unfold accValue
  apply wrap32_of_I32
  unfold I32
  constructor <;> linarith [h1.1, h1.2, h2.1, h2.2, h3.1, h3.2]

/-! ## The left-over column of the DSP path -/

/-- A loop that steps along a known chain of states ends at the end of the chain. -/
theorem forUp_chain {σ : Type} (n : Nat) (body : Nat → σ → Run σ) (g : Nat → σ)
    (h : ∀ k, k < n → body k (g k) = .ok (g (k + 1))) : forUp n body (g 0) = .ok (g n) := by
  induction n with
  | zero => rfl
  | succ n ih =>
    rw [forUp_succ, ih (fun k hk => h k (Nat.lt_succ_of_lt hk)), Run.bind_ok,
      h n (Nat.lt_succ_self n)]

theorem readAt_off (what : Fault) (xs : List Int) (p t : Nat) (h : p + t < xs.length) :
    readAt what xs ((p : Int) + (t : Int)) = .ok (xs.getD (p + t) 0) := by
  have := readAt_nat what xs (p + t) h
  rwa [Nat.cast_add] at this

theorem leftover_single_eq (a : Conv) (bufferA : List Int) (p q : Nat) (s : Int)
    (hp : p < a.wt.length) (hq : q < bufferA.length) :
    leftover_single a bufferA ⟨p, q, s⟩
      = .ok ⟨p + 1, q + 1, wrap32 (s + a.wt.getD p 0 * bufferA.getD q 0)⟩ := by
  unfold leftover_single
  simp only []
  rw [readAt_nat _ _ _ hp, readAt_nat _ _ _ hq]
  rfl

theorem leftover_quad_eq (a : Conv) (bufferA : List Int) (p q : Nat) (s : Int)
    (hp : p + 3 < a.wt.length) (hq : q + 3 < bufferA.length) :
    leftover_quad a bufferA ⟨p, q, s⟩
      = .ok ⟨p + 4, q + 4, wrap32 (s + a.wt.getD p 0 * bufferA.getD q 0
          + a.wt.getD (p + 1) 0 * bufferA.getD (q + 1) 0
          + a.wt.getD (p + 2) 0 * bufferA.getD (q + 2) 0
          + a.wt.getD (p + 3) 0 * bufferA.getD (q + 3) 0)⟩ := by
  have r0 := readAt_nat .wt a.wt p (by omega)
  have r1 := readAt_off .wt a.wt p 1 (by omega)
  have r2 := readAt_off .wt a.wt p 2 (by omega)
  have r3 := readAt_off .wt a.wt p 3 (by omega)
  have b0 := readAt_nat .bufferA bufferA q (by omega)
  have b1 := readAt_off .bufferA bufferA q 1 (by omega)
  have b2 := readAt_off .bufferA bufferA (q + 2) 0 (by omega)
  have b3 := readAt_off .bufferA bufferA (q + 2) 1 (by omega)
  simp only [Nat.cast_ofNat, Nat.cast_one, Nat.cast_zero, Nat.cast_add, add_zero] at r1 r2 r3 b1 b2 b3
  unfold leftover_quad read_and_pad arm_nn_read_q15x2 SMLAD
  simp only [Nat.cast_add, Nat.cast_ofNat]
  rw [r0, r1, r2, r3, b0, b1, b2, b3]
  simp only [Run.bind_ok]
  rw [add_assoc (wrap32 _), wrap32_add_left, ← add_assoc]

theorem colCnt_quad (N : Nat) (h : N < 2 ^ 18) : (N >>> 2) % 2 ^ 16 = N / 4 := by
  rw [Nat.shiftRight_eq_div_pow]
  exact Nat.mod_eq_of_lt (by omega)

theorem colCnt_single (N : Nat) : (N &&& 3) % 2 ^ 16 = N % 4 := by
  have h : N &&& 3 = N % 4 := Nat.and_pow_two_sub_one_eq_mod N 2
  rw [h]
  exact Nat.mod_eq_of_lt (by omega)

theorem leftCount_le (a : Conv) : leftCount a ≤ a.N := by
  unfold leftCount
  rw [colCnt_single, Nat.shiftRight_eq_div_pow]
  have h1 : a.N / 2 ^ 2 % 2 ^ 16 ≤ a.N / 2 ^ 2 := Nat.mod_le _ _
  have h2 := Nat.div_add_mod a.N 4
  omega

theorem leftCount_eq (a : Conv) (h : a.N < 2 ^ 18) : leftCount a = a.N := by
  unfold leftCount
  rw [colCnt_single, colCnt_quad _ h]
  exact Nat.div_add_mod a.N 4

/-- Closed form of the left-over accumulator: the two loops together consume `leftCount`
weights from `pA` on and the first `leftCount` entries of the column. -/
theorem leftover_sum_eq (a : Conv) (bufferA : List Int) (i pA : Nat)
    (hb : i < a.bias.length) (hW : pA + leftCount a ≤ a.wt.length)
    (hA : leftCount a ≤ bufferA.length) :
    leftover_sum a bufferA i pA
      = .ok ⟨pA + leftCount a, leftCount a,
          wrap32 (a.bias.getD i 0 * 2 ^ a.bias_shift + NN_ROUND a.out_shift
            + colSum a bufferA pA (leftCount a))⟩ := by
  unfold leftCount at hW hA
  have hquad := forUp_chain ((a.N >>> 2) % 2 ^ 16) (fun _ d => leftover_quad a bufferA d)
    (fun r => (⟨pA + 4 * r, 4 * r,
      wrap32 (a.bias.getD i 0 * 2 ^ a.bias_shift + NN_ROUND a.out_shift
        + ∑ t in Finset.range (4 * r), a.wt.getD (pA + t) 0 * bufferA.getD t 0)⟩ :
      DotState))
    (by
      intro r hr
      simp only []
      rw [leftover_quad_eq a bufferA _ _ _ (by omega) (by omega)]
      have e5 : 4 * (r + 1) = 4 * r + 1 + 1 + 1 + 1 := by ring
      rw [e5, Finset.sum_range_succ, Finset.sum_range_succ, Finset.sum_range_succ,
        Finset.sum_range_succ]
      simp only [add_assoc (wrap32 _), wrap32_add_left]
      congr 2
      simp only [Nat.add_assoc, add_assoc])
  have hsingle := forUp_chain ((a.N &&& 3) % 2 ^ 16) (fun _ d => leftover_single a bufferA d)
    (fun r => (⟨pA + 4 * ((a.N >>> 2) % 2 ^ 16) + r, 4 * ((a.N >>> 2) % 2 ^ 16) + r,
      wrap32 (a.bias.getD i 0 * 2 ^ a.bias_shift + NN_ROUND a.out_shift
        + ∑ t in Finset.range (4 * ((a.N >>> 2) % 2 ^ 16) + r),
            a.wt.getD (pA + t) 0 * bufferA.getD t 0)⟩ : DotState))
    (by
      intro r hr
      simp only []
      rw [leftover_single_eq a bufferA _ _ _ (by omega) (by omega), wrap32_add_left]
      simp only [← Nat.add_assoc, Finset.sum_range_succ, ← add_assoc])
  simp only [Nat.mul_zero, Nat.add_zero, Finset.range_zero, Finset.sum_empty, add_zero,
    Nat.cast_ofNat] at hquad hsingle
  unfold leftover_sum
  have eN : a.ch_im_in * a.dim_kernel * a.dim_kernel = a.N := rfl
  rw [eN, readAt_nat _ _ _ hb, Run.bind_ok]
  have e0 : wrap32 (shl32 (a.bias.getD i 0) a.bias_shift + NN_ROUND a.out_shift)
      = wrap32 (a.bias.getD i 0 * 2 ^ a.bias_shift + NN_ROUND a.out_shift) := by
    unfold shl32; rw [wrap32_add_left]
  rw [e0, hquad, Run.bind_ok, hsingle]
  unfold leftCount colSum
  simp only [Nat.add_assoc]

theorem leftover_channel_eq (a : Conv) (hwf : a.WF) (bufferA : List Int)
    (hA : leftCount a ≤ bufferA.length) (i : Nat) (hi : i < a.ch_im_out) (pOut : Nat)
    (o : OutBuf) (ho : pOut + i < o.data.length) :
    leftover_channel a bufferA i ⟨i * leftCount a, pOut + i, o⟩
      = .ok ⟨(i + 1) * leftCount a, pOut + (i + 1),
          storeAll [(pOut + i, SSAT (leftAcc a bufferA i >>> a.out_shift) 8)] o⟩ := by
  obtain ⟨_, _, _, _, _, _, _, _, _, _, hWt, hB, _⟩ := hwf
  have h1 : (i + 1) * leftCount a ≤ a.ch_im_out * a.N :=
    Nat.mul_le_mul hi (leftCount_le a)
  have h2 : (i + 1) * leftCount a = i * leftCount a + leftCount a := by ring
  unfold leftover_channel
  simp only []
  rw [leftover_sum_eq a bufferA i _ (by omega) (by omega) hA, Run.bind_ok, q7_cast_SSAT]
  unfold OutBuf.store
  rw [if_pos ho, ← h2]
  rfl

/-- The left-over block never faults when the column and the output fit, and its effect on
the output buffer is the list of stores `leftStores`. -/
theorem dsp_leftover_eq (a : Conv) (hwf : a.WF) (st : DspState)
    (hA : leftCount a ≤ st.bufferA.length) (hp : st.pBuffer ≠ 0)
    (ho : st.pOut + a.ch_im_out ≤ st.Im_out.data.length) :
    dsp_leftover a st = .ok { st with
      pOut := st.pOut + a.ch_im_out,
      Im_out := storeAll (leftStores a st.bufferA st.pOut) st.Im_out } := by
  have hchain := forUp_chain a.ch_im_out (leftover_channel a st.bufferA)
    (fun i => (⟨i * leftCount a, st.pOut + i,
      storeAll ((List.range i).flatMap fun i =>
        [(st.pOut + i, SSAT (leftAcc a st.bufferA i >>> a.out_shift) 8)]) st.Im_out⟩ :
      LeftState))
    (by
      intro i hi
      simp only []
      rw [leftover_channel_eq a hwf st.bufferA hA i hi st.pOut _
        (by rw [storeAll_length]; omega), List.range_succ, List.flatMap_append,
        storeAll_append]
      simp)
  simp only [Nat.zero_mul, Nat.add_zero, List.range_zero, List.flatMap_nil, storeAll_nil]
    at hchain
  unfold dsp_leftover
  rw [if_pos hp, hchain, Run.bind_ok]
  rfl

theorem mem_leftStores (a : Conv) (bufferA : List Int) (pOut : Nat) (w : Nat × Int) :
    w ∈ leftStores a bufferA pOut ↔ ∃ i, i < a.ch_im_out
      ∧ w = (pOut + i, SSAT (leftAcc a bufferA i >>> a.out_shift) 8) := by
  unfold leftStores
  simp only [List.mem_flatMap, List.mem_range, List.mem_singleton]

theorem leftStores_nodup (a : Conv) (bufferA : List Int) (pOut : Nat) :
    ((leftStores a bufferA pOut).map Prod.fst).Nodup := by
  unfold leftStores
  simp only [List.map_flatMap, List.map_cons, List.map_nil]
  rw [List.nodup_flatMap]
  refine ⟨fun i _ => List.nodup_singleton _, ?_⟩
  refine List.Pairwise.imp_of_mem ?_ (List.nodup_range a.ch_im_out)
  intro i i' _ _ hne
  simp only [Function.onFun, List.Disjoint, List.mem_singleton]
  rintro x rfl e
  exact hne (by omega)

theorem dsp_leftover_get (a : Conv) (bufferA : List Int) (pOut : Nat) (o : OutBuf) (i : Nat)
    (hi : i < a.ch_im_out) (ho : pOut + a.ch_im_out ≤ o.data.length) :
    (storeAll (leftStores a bufferA pOut) o).data[pOut + i]?
      = some (SSAT (leftAcc a bufferA i >>> a.out_shift) 8) :=
  storeAll_get _ _ _ _ (leftStores_nodup a bufferA pOut)
    ((mem_leftStores a bufferA pOut _).2 ⟨i, hi, rfl⟩) (by omega)

/-! ## Zero padding -/

theorem flat_decode {x y b : Nat} (hy : y < b) : (x * b + y) / b = x ∧ (x * b + y) % b = y := by
  have hb : 0 < b := by omega
  constructor
  · rw [Nat.add_comm, Nat.add_mul_div_right _ _ hb, Nat.div_eq_of_lt hy, Nat.zero_add]
  · rw [Nat.add_comm, Nat.add_mul_mod_self_right, Nat.mod_eq_of_lt hy]

theorem zeroPad_getD (a : Conv) (r c l : Nat) (hr : r < a.dim_im_in + 2 * a.padding)
    (hc : c < a.dim_im_in + 2 * a.padding) (hl : l < a.ch_im_in) :
    (zeroPad a).getD ((r * (a.dim_im_in + 2 * a.padding) + c) * a.ch_im_in + l) 0
      = if a.padding ≤ r ∧ r < a.dim_im_in + a.padding ∧ a.padding ≤ c
          ∧ c < a.dim_im_in + a.padding
        then a.Im_in.getD (((r - a.padding) * a.dim_im_in + (c - a.padding)) * a.ch_im_in + l) 0
        else 0 := by
  have hlt : (r * (a.dim_im_in + 2 * a.padding) + c) * a.ch_im_in + l
      < (a.dim_im_in + 2 * a.padding) * (a.dim_im_in + 2 * a.padding) * a.ch_im_in :=
    flat_lt (flat_lt hr hc) hl
  obtain ⟨d1, d2⟩ := flat_decode (x := r * (a.dim_im_in + 2 * a.padding) + c) hl
  obtain ⟨d3, d4⟩ := flat_decode (x := r) hc
  unfold zeroPad
  rw [List.getD_eq_getElem?_getD, List.getElem?_map, List.getElem?_range hlt]
  simp only [Option.map_some', Option.getD_some, d1, d2, d3, d4]

theorem zeroPad_isQ7 (a : Conv) (h : ∀ x ∈ a.Im_in, IsQ7 x) : ∀ x ∈ zeroPad a, IsQ7 x := by
  intro x hx
  unfold zeroPad at hx
  obtain ⟨idx, _, rfl⟩ := List.mem_map.1 hx
  simp only []
  split_ifs
  · exact getD_isQ7 _ h _
  · unfold IsQ7; omega

theorem padded_WF (a : Conv) (hwf : a.WF) (hdim : a.dim_im_in + 2 * a.padding < 2 ^ 16) :
    (padded a).WF := by
  obtain ⟨h1, h2, h3, h4, h5, h6, h7, h8, h9, h10, h11, h12, h13, h14, h15⟩ := hwf
  refine ⟨hdim, h2, h3, h4, by simp [padded], h6, h7, h8, h9, ?_, h11, h12, ?_, h14, h15⟩
  · simp [padded, zeroPad]
  · exact zeroPad_isQ7 a h13

theorem tapTerm_padded (a : Conv) (i j k m n l : Nat) (hl : l < a.ch_im_in) :
    tapTerm (padded a) i j k m n l = tapTerm a i j k m n l := by
  have er : coord (padded a) j m = coord a j m + a.padding := by
    simp [coord, padded]
  have ec : coord (padded a) k n = coord a k n + a.padding := by
    simp [coord, padded]
  have hr0 : 0 ≤ coord (padded a) j m := by
    have : coord (padded a) j m = (a.stride : Int) * j + m := by simp [coord, padded]
    rw [this]; positivity
  have hc0 : 0 ≤ coord (padded a) k n := by
    have : coord (padded a) k n = (a.stride : Int) * k + n := by simp [coord, padded]
    rw [this]; positivity
  obtain ⟨r, hr⟩ := Int.eq_ofNat_of_zero_le hr0
  obtain ⟨c, hc⟩ := Int.eq_ofNat_of_zero_le hc0
  have hwt : (padded a).wt = a.wt := rfl
  have hch : (padded a).ch_im_in = a.ch_im_in := rfl
  have hK : (padded a).dim_kernel = a.dim_kernel := rfl
  have hd : (padded a).dim_im_in = a.dim_im_in + 2 * a.padding := rfl
  have hI : (padded a).Im_in = zeroPad a := rfl
  unfold tapTerm
  rw [hwt, hch, hK, hd, hI, hr, hc]
  by_cases hin : r < a.dim_im_in + 2 * a.padding ∧ c < a.dim_im_in + 2 * a.padding
  · have e1 : (((r : Int) * ((a.dim_im_in + 2 * a.padding : Nat) : Int) + c) * a.ch_im_in + l).toNat
        = (r * (a.dim_im_in + 2 * a.padding) + c) * a.ch_im_in + l := by
      have : ((r : Int) * ((a.dim_im_in + 2 * a.padding : Nat) : Int) + c) * a.ch_im_in + l
          = (((r * (a.dim_im_in + 2 * a.padding) + c) * a.ch_im_in + l : Nat) : Int) := by
        push_cast; ring
      rw [this, Int.toNat_ofNat]
    rw [if_pos (by refine ⟨by positivity, by exact_mod_cast hin.1, by positivity,
      by exact_mod_cast hin.2⟩), e1, zeroPad_getD a r c l hin.1 hin.2 hl]
    by_cases hin2 : a.padding ≤ r ∧ r < a.dim_im_in + a.padding ∧ a.padding ≤ c
        ∧ c < a.dim_im_in + a.padding
    · have hr' : coord a j m = ((r - a.padding : Nat) : Int) := by
        rw [Nat.cast_sub hin2.1]; omega
      have hc' : coord a k n = ((c - a.padding : Nat) : Int) := by
        rw [Nat.cast_sub hin2.2.2.1]; omega
      rw [if_pos hin2, hr', hc']
      rw [if_pos (by refine ⟨by positivity, by exact_mod_cast (show r - a.padding < a.dim_im_in by omega),
        by positivity, by exact_mod_cast (show c - a.padding < a.dim_im_in by omega)⟩)]
      have e2 : ((((r - a.padding : Nat) : Int) * a.dim_im_in + ((c - a.padding : Nat) : Int))
          * a.ch_im_in + l).toNat
          = ((r - a.padding) * a.dim_im_in + (c - a.padding)) * a.ch_im_in + l := by
        have : (((r - a.padding : Nat) : Int) * a.dim_im_in + ((c - a.padding : Nat) : Int))
            * a.ch_im_in + l
            = ((((r - a.padding) * a.dim_im_in + (c - a.padding)) * a.ch_im_in + l : Nat) : Int) := by
          push_cast; ring
        rw [this, Int.toNat_ofNat]
      rw [e2]
    · rw [if_neg hin2, zero_mul, if_neg]
      intro h
      apply hin2
      omega
  · rw [if_neg (by
      intro h
      apply hin
      exact ⟨by exact_mod_cast h.2.1, by exact_mod_cast h.2.2.2⟩), if_neg]
    intro h
    apply hin
    omega

theorem convSum_padded (a : Conv) (i j k : Nat) : convSum (padded a) i j k = convSum a i j k := by
  unfold convSum
  refine Finset.sum_congr rfl fun m _ => Finset.sum_congr rfl fun n _ =>
    Finset.sum_congr rfl fun l hl => ?_
  exact tapTerm_padded a i j k m n l (Finset.mem_range.1 hl)

theorem refStores_padded (a : Conv) : refStores (padded a) = refStores a := by
  unfold refStores outValue accValue outIndex
  simp only [convSum_padded]
  rfl

/-! ## Saturation and shifts -/

theorem wrap32_of_isQ7 {x : Int} (h : IsQ7 x) : wrap32 x = x := by
  unfold IsQ7 at h; unfold wrap32; omega

theorem SSAT_of_isQ7 {x : Int} (h : IsQ7 x) : SSAT x 8 = x := by
  rw [SSAT_eight]; unfold IsQ7 at h; split_ifs <;> omega

theorem SSAT_eq_sat8 (x : Int) : SSAT x 8 = sat8 x := SSAT_eight x

theorem sat8_isQ7 (x : Int) : IsQ7 (sat8 x) := by
  rw [← SSAT_eq_sat8]; exact SSAT_isQ7 x

theorem shiftRight_eq_div (x : Int) (s : Nat) : x >>> s = x / 2 ^ s := by
  rw [Int.shiftRight_eq_div_pow]; norm_cast

theorem outValue_exact (a : Conv) (hwf : a.WF) (hN : a.N ≤ 2 ^ 15) (hbs : a.bias_shift ≤ 22)
    (hos : a.out_shift ≤ 30) (i j k : Nat) :
    outValue a i j k = sat8 ((a.bias.getD i 0 * 2 ^ a.bias_shift + NN_ROUND a.out_shift
      + convSum a i j k) / 2 ^ a.out_shift) := by
  unfold outValue
  rw [accValue_exact a hwf hN hbs hos, SSAT_eq_sat8, shiftRight_eq_div]

theorem saturates_SSAT (q : Int) : Saturates q (q7_cast (SSAT q 8)) := by
  rw [q7_cast_SSAT, SSAT_eight]
  unfold Saturates
  split_ifs <;> refine ⟨?_, ?_, ?_, ?_, ?_⟩ <;> intros <;> omega

/-! ## Rounding and the left-over accumulator range -/

theorem roundsHalfUp_shift (acc : Int) (s : Nat) :
    RoundsHalfUp acc s ((acc + NN_ROUND s) >>> s) := by
  unfold RoundsHalfUp NN_ROUND
  constructor
  · intro h; subst h; simp [shiftRight_eq_div]
  · intro h
    rw [if_pos (by omega), shiftRight_eq_div]
    have e : (2 : Int) ^ s = 2 * 2 ^ (s - 1) := by
      have : s = (s - 1) + 1 := by omega
      conv_lhs => rw [this, pow_succ]
      ring
    have hp : (0 : Int) < 2 ^ s := by positivity
    have h1 := Int.emod_add_ediv (acc + 2 ^ (s - 1)) (2 ^ s)
    have h2 := Int.emod_nonneg (acc + 2 ^ (s - 1)) (ne_of_gt hp)
    have h3 := Int.emod_lt_of_pos (acc + 2 ^ (s - 1)) hp
    refine ⟨rfl, ?_, ?_⟩
    · nlinarith
    · nlinarith

theorem abs_colSum_le (a : Conv) (hwf : a.WF) (bufferA : List Int)
    (hA : ∀ x ∈ bufferA, IsQ7 x) (pA n : Nat) : |colSum a bufferA pA n| ≤ (n : Int) * 16384 := by
  unfold colSum
  apply abs_sum_range_le
  intro t _
  exact abs_mul_q7_le (getD_isQ7 _ hwf.2.2.2.2.2.2.2.2.2.2.2.2.2.1 _) (getD_isQ7 _ hA _)

/-- Under the stated bounds the left-over accumulator never leaves the 32-bit range. -/
theorem leftAcc_exact (a : Conv) (hwf : a.WF) (hN : a.N ≤ 2 ^ 15) (hbs : a.bias_shift ≤ 22)
    (hos : a.out_shift ≤ 30) (bufferA : List Int) (hA : ∀ x ∈ bufferA, IsQ7 x) (i : Nat) :
    leftAcc a bufferA i
      = a.bias.getD i 0 * 2 ^ a.bias_shift + NN_ROUND a.out_shift
        + colSum a bufferA (i * a.N) a.N := by
  have hc : leftCount a = a.N := leftCount_eq a (by omega)
  have h1 := abs_colSum_le a hwf bufferA hA (i * a.N) a.N
  have h2 := NN_ROUND_bounds a.out_shift hos
  have h3 := abs_shift_bias_le (getD_isQ7 _ hwf.2.2.2.2.2.2.2.2.2.2.2.2.2.2 i) a.bias_shift hbs
  have h4 : (a.N : Int) ≤ 2 ^ 15 := by exact_mod_cast hN
  rw [abs_le] at h1 h3
  unfold leftAcc
  rw [hc]
  apply wrap32_of_I32
  unfold I32
  constructor <;> linarith [h1.1, h1.2, h2.1, h2.2, h3.1, h3.2]

/-! ## Zero filters and the initial accumulator -/



theorem convSum_zero_of_wt (a : Conv) (i j k : Nat)
    (hz : ∀ t, t < a.N → a.wt.getD (i * a.N + t) 0 = 0) : convSum a i j k = 0 := by
  unfold convSum
  refine Finset.sum_eq_zero fun m hm => Finset.sum_eq_zero fun n hn =>
    Finset.sum_eq_zero fun l hl => ?_
  have h1 : (m * a.dim_kernel + n) * a.ch_im_in + l < a.dim_kernel * a.dim_kernel * a.ch_im_in :=
    flat_lt (flat_lt (Finset.mem_range.1 hm) (Finset.mem_range.1 hn)) (Finset.mem_range.1 hl)
  have h2 : a.dim_kernel * a.dim_kernel * a.ch_im_in = a.N := by unfold Conv.N; ring
  have h3 : i * a.ch_im_in * a.dim_kernel * a.dim_kernel
      + (m * a.dim_kernel + n) * a.ch_im_in + l
      = i * a.N + ((m * a.dim_kernel + n) * a.ch_im_in + l) := by unfold Conv.N; ring
  unfold tapTerm
  split_ifs
  · rw [h3, hz _ (by omega), mul_zero]
  · rfl

theorem colSum_zero_of_wt (a : Conv) (bufferA : List Int) (i : Nat)
    (hz : ∀ t, t < a.N → a.wt.getD (i * a.N + t) 0 = 0) : colSum a bufferA (i * a.N) a.N = 0 := by
  unfold colSum
  refine Finset.sum_eq_zero fun t ht => ?_
  rw [hz t (Finset.mem_range.1 ht), zero_mul]

theorem bias_init_exact (b : Int) (hb : IsQ7 b) (bs os : Nat) (hbs : bs ≤ 22) (hos : os ≤ 30) :
    wrap32 (shl32 b bs + NN_ROUND os) = b * 2 ^ bs + NN_ROUND os := by
  have h2 := NN_ROUND_bounds os hos
  have h3 := abs_shift_bias_le hb bs hbs
  rw [abs_le] at h3
  unfold shl32
  rw [wrap32_add_left]
  apply wrap32_of_I32
  unfold I32
  constructor <;> linarith [h2.1, h2.2, h3.1, h3.2]

/-! ## The stride/geometry scenario -/

theorem getD_replicate (n : Nat) (v : Int) (i : Nat) (h : i < n) :
    (List.replicate n v).getD i 0 = v := by
  rw [List.getD_eq_getElem?_getD, List.getElem?_replicate, if_pos h]
  rfl

theorem ones_WF (v : Int) (d K s : Nat) (hv : IsQ7 v) (hK : 1 ≤ K) (hKd : K ≤ d)
    (hd : d < 2 ^ 16) (hs : s < 2 ^ 16) : (ones_args v d K s).WF := by
  have h1 : (d - K) / s ≤ d - K := Nat.div_le_self _ _
  refine ⟨hd, by simp [ones_args], by simp [ones_args], by show K < 2 ^ 16; omega,
    by simp [ones_args], hs, by simp [ones_args], by simp [ones_args],
    by show (d - K) / s + 1 < 2 ^ 16; omega, ?_, ?_, rfl, ?_, ?_, ?_⟩
  · simp [ones_args]
  · simp [ones_args, Conv.N]
  · intro x hx
    rw [(List.mem_replicate.1 hx).2]; exact hv
  · intro x hx
    rw [(List.mem_replicate.1 hx).2]; decide
  · intro x hx
    simp only [ones_args, List.mem_singleton] at hx
    rw [hx]; decide

theorem ones_tapTerm (v : Int) (d K s : Nat) (hKd : K ≤ d) (j k m n : Nat)
    (hj : j < (d - K) / s + 1) (hk : k < (d - K) / s + 1) (hm : m < K) (hn : n < K) :
    tapTerm (ones_args v d K s) 0 j k m n 0 = v := by
  have h1 : s * ((d - K) / s) ≤ d - K := Nat.mul_div_le _ _
  have hj1 : s * j ≤ s * ((d - K) / s) := Nat.mul_le_mul_left _ (by omega)
  have hk1 : s * k ≤ s * ((d - K) / s) := Nat.mul_le_mul_left _ (by omega)
  have hr : s * j + m < d := by omega
  have hc : s * k + n < d := by omega
  have er : coord (ones_args v d K s) j m = ((s * j + m : Nat) : Int) := by
    simp [coord, ones_args]
  have ec : coord (ones_args v d K s) k n = ((s * k + n : Nat) : Int) := by
    simp [coord, ones_args]
  unfold tapTerm
  rw [er, ec]
  have e1 : ((((s * j + m : Nat) : Int) * ((ones_args v d K s).dim_im_in : Int)
      + ((s * k + n : Nat) : Int)) * ((ones_args v d K s).ch_im_in : Int) + ((0 : Nat) : Int)).toNat
      = ((s * j + m) * d + (s * k + n)) * 1 + 0 := by
    have : (((s * j + m : Nat) : Int) * ((ones_args v d K s).dim_im_in : Int)
        + ((s * k + n : Nat) : Int)) * ((ones_args v d K s).ch_im_in : Int) + ((0 : Nat) : Int)
        = ((((s * j + m) * d + (s * k + n)) * 1 + 0 : Nat) : Int) := by
      simp [ones_args]
    rw [this, Int.toNat_ofNat]
  rw [if_pos (by
    refine ⟨by positivity, by exact_mod_cast hr, by positivity, by exact_mod_cast hc⟩), e1]
  have h2 : ((s * j + m) * d + (s * k + n)) * 1 + 0 < d * d := by
    have := flat_lt hr hc
    omega
  have h3 : 0 * (ones_args v d K s).ch_im_in * (ones_args v d K s).dim_kernel
      * (ones_args v d K s).dim_kernel
      + (m * (ones_args v d K s).dim_kernel + n) * (ones_args v d K s).ch_im_in + 0 < K * K := by
    have := flat_lt hm hn
    simp only [ones_args]
    omega
  have eI : (ones_args v d K s).Im_in = List.replicate (d * d) v := rfl
  have eW : (ones_args v d K s).wt = List.replicate (K * K) 1 := rfl
  rw [eI, eW, getD_replicate _ _ _ h2, getD_replicate _ _ _ h3, mul_one]

theorem ones_convSum (v : Int) (d K s : Nat) (hKd : K ≤ d) (j k : Nat)
    (hj : j < (d - K) / s + 1) (hk : k < (d - K) / s + 1) :
    convSum (ones_args v d K s) 0 j k = (K : Int) * K * v := by
  unfold convSum
  have eK : (ones_args v d K s).dim_kernel = K := rfl
  have eC : (ones_args v d K s).ch_im_in = 1 := rfl
  rw [eK, eC]
  rw [Finset.sum_congr rfl (fun m hm => Finset.sum_congr rfl (fun n hn => by
    rw [Finset.sum_range_one,
      ones_tapTerm v d K s hKd j k m n hj hk (Finset.mem_range.1 hm) (Finset.mem_range.1 hn)]))]
  simp only [Finset.sum_const, Finset.card_range, smul_eq_mul, nsmul_eq_mul]
  ring

/-- The code the reference path stores in the stride/geometry scenario, 32-bit wrap-around
included. -/
theorem ones_outValue (v : Int) (d K s : Nat) (hKd : K ≤ d) (j k : Nat)
    (hj : j < (d - K) / s + 1) (hk : k < (d - K) / s + 1) :
    outValue (ones_args v d K s) 0 j k = sat8 (wrap32 ((K : Int) * K * v)) := by
  unfold outValue accValue
  rw [ones_convSum v d K s hKd j k hj hk, SSAT_eq_sat8, shiftRight_eq_div]
  simp [ones_args, NN_ROUND]

theorem identity_eq_ones (x : Int) : identity_args x = ones_args x 1 1 1 := rfl

/-! ## The `int16_t` loops of the DSP path -/

theorem Run.bind_assoc {σ τ υ : Type} (r : Run σ) (f : σ → Run τ) (g : τ → Run υ) :
    (r.bind f).bind g = r.bind fun s => (f s).bind g := by
  cases r <;> rfl

theorem Run.bind_ok_self {σ : Type} (r : Run σ) : r.bind Run.ok = r := by
  cases r <;> rfl

theorem forUp_front {σ : Type} (n : Nat) (body : Nat → σ → Run σ) (s : σ) :
    forUp (n + 1) body s = (body 0 s).bind (forUp n fun t => body (t + 1)) := by
  induction n with
  | zero =>
    show (Run.ok s).bind (body 0) = (body 0 s).bind fun s => Run.ok s
    rw [Run.bind_ok, Run.bind_ok_self]
  | succ n ih =>
    rw [forUp_succ, ih, Run.bind_assoc]
    rfl

theorem wrap16_of_range {x : Int} (h1 : -2 ^ 15 ≤ x) (h2 : x ≤ 2 ^ 15 - 1) : wrap16 x = x := by
  unfold wrap16; omega

/-- An `int16_t`-counted loop whose counter stays in range, with enough fuel, is the loop
over the same interval with an exact counter. -/
theorem for16_forUp {σ : Type} (body : Int → σ → Run σ) (n : Nat) :
    ∀ (lo : Int) (fuel : Nat) (s : σ), -2 ^ 15 ≤ lo → lo + n ≤ 2 ^ 15 - 1 → n < fuel →
      for16 (lo + n) body fuel lo s = forUp n (fun t s => body (lo + t) s) s := by
  induction n with
  | zero =>
    intro lo fuel s _ _ hf
    obtain ⟨f, rfl⟩ : ∃ f, fuel = f + 1 := ⟨fuel - 1, by omega⟩
    simp [for16, forUp]
  | succ n ih =>
    intro lo fuel s hlo hhi hf
    obtain ⟨f, rfl⟩ : ∃ f, fuel = f + 1 := ⟨fuel - 1, by omega⟩
    push_cast at hhi
    have hc : lo < lo + ((n + 1 : Nat) : Int) := by push_cast; omega
    have hw : wrap16 (lo + 1) = lo + 1 := wrap16_of_range (by omega) (by omega)
    have e : lo + ((n + 1 : Nat) : Int) = (lo + 1) + (n : Int) := by push_cast; ring
    rw [forUp_front]
    unfold for16
    have hrec : for16 (lo + 1 + (n : Int)) body f (lo + 1)
        = forUp n (fun t s => body (lo + ((t + 1 : Nat) : Int)) s) := by
      funext s'
      rw [ih (lo + 1) f s' (by omega) (by omega) (by omega)]
      congr 1
      funext t s''
      congr 1
      push_cast
      ring
    rw [if_pos hc, hw, e, hrec]
    simp only [Nat.cast_zero, add_zero]

theorem coord_bounds (a : Conv) (hf : a.Fits16) (o : Nat) (ho : o < a.dim_im_out) :
    -2 ^ 15 ≤ (o : Int) * a.stride - a.padding
      ∧ (o : Int) * a.stride - a.padding + a.dim_kernel ≤ 2 ^ 15 - 1 := by
  obtain ⟨_, h2, h3⟩ := hf
  have h4 : o * a.stride + a.stride ≤ a.dim_im_out * a.stride := by
    have := Nat.mul_le_mul_right a.stride (show o + 1 ≤ a.dim_im_out by omega)
    rw [Nat.add_mul, Nat.one_mul] at this
    exact this
  have h5 : ((o * a.stride : Nat) : Int) = (o : Int) * a.stride := by push_cast; rfl
  constructor
  · have : (0 : Int) ≤ (o : Int) * a.stride := by positivity
    omega
  · omega

/-- With a geometry that fits the counters and enough fuel, the im2col of output pixel
`(y, x)` is the double loop over the kernel taps with exact coordinates. -/
theorem dsp_im2col_eq (a : Conv) (hf : a.Fits16) (fuel : Nat) (hfuel : a.dim_kernel < fuel)
    (y x : Nat) (hy : y < a.dim_im_out) (hx : x < a.dim_im_out) (st : DspState) :
    dsp_im2col a fuel y x st
      = forUp a.dim_kernel (fun m st =>
          forUp a.dim_kernel (fun n st =>
            dsp_im2col_tap a ((y : Int) * a.stride - a.padding + m)
              ((x : Int) * a.stride - a.padding + n) st) st) st := by
  obtain ⟨hy1, hy2⟩ := coord_bounds a hf y hy
  obtain ⟨hx1, hx2⟩ := coord_bounds a hf x hx
  unfold dsp_im2col
  have hK : (0 : Int) ≤ a.dim_kernel := by positivity
  rw [wrap16_of_range hy1 (by omega), wrap16_of_range hx1 (by omega),
    for16_forUp _ _ _ _ _ hy1 hy2 hfuel]
  congr 1
  funext m st'
  rw [for16_forUp _ _ _ _ _ hx1 hx2 hfuel]

/-- With `dim_im_out ≤ 32767` and enough fuel, the scan is the double loop over the output
pixels with exact counters. -/
theorem dsp_scan_eq (a : Conv) (hf : a.Fits16) (fuel : Nat) (hfuel : a.dim_im_out < fuel)
    (st : DspState) :
    dsp_scan a fuel st
      = forUp a.dim_im_out (fun y st =>
          forUp a.dim_im_out (fun x st => dsp_pixel a fuel y x st) st) st := by
  have hD : ((a.dim_im_out : Nat) : Int) ≤ 2 ^ 15 - 1 := by
    have := hf.1
    omega
  have e : ((a.dim_im_out : Nat) : Int) = 0 + (a.dim_im_out : Int) := by ring
  unfold dsp_scan
  rw [e, for16_forUp _ _ _ _ _ (by norm_num) (by omega) hfuel]
  congr 1
  funext y st'
  rw [for16_forUp _ _ _ _ _ (by norm_num) (by omega) hfuel]
  simp only [zero_add]

/-! ## The im2col of one output pixel -/

theorem ext_getD {l1 l2 : List Int} (h : l1.length = l2.length)
    (h' : ∀ i, i < l1.length → l1.getD i 0 = l2.getD i 0) : l1 = l2 := by
  apply List.ext_getElem h
  intro i h1 h2
  have := h' i h1
  rw [List.getD_eq_getElem?_getD, List.getD_eq_getElem?_getD, List.getElem?_eq_getElem h1,
    List.getElem?_eq_getElem h2] at this
  exact this

theorem blit_length (buf : List Int) (p : Nat) (vs : List Int) :
    (blit buf p vs).length = buf.length := by
  simp [blit]

theorem blit_getD (buf : List Int) (p : Nat) (vs : List Int) (i : Nat) (hi : i < buf.length) :
    (blit buf p vs).getD i 0
      = if p ≤ i ∧ i < p + vs.length then vs.getD (i - p) 0 else buf.getD i 0 := by
  unfold blit
  rw [List.getD_eq_getElem?_getD, List.getElem?_map, List.getElem?_range hi]
  rfl

theorem blit_nil (buf : List Int) (p : Nat) : blit buf p [] = buf := by
  apply ext_getD (blit_length _ _ _)
  intro i hi
  rw [blit_length] at hi
  rw [blit_getD _ _ _ _ hi, if_neg (by simp)]

theorem set_eq_blit (buf : List Int) (p : Nat) (vs : List Int) (v : Int) :
    (blit buf p vs).set (p + vs.length) v = blit buf p (vs ++ [v]) := by
  apply ext_getD (by simp [blit_length])
  intro i hi
  rw [List.length_set, blit_length] at hi
  rw [blit_getD _ _ _ _ hi, List.getD_eq_getElem?_getD, List.getElem?_set]
  by_cases he : p + vs.length = i
  · subst he
    rw [if_pos rfl, if_pos (by rw [blit_length]; exact hi),
      if_pos (by simp), List.getD_eq_getElem?_getD]
    simp
  · rw [if_neg he, ← List.getD_eq_getElem?_getD, blit_getD _ _ _ _ hi]
    by_cases h1 : p ≤ i ∧ i < p + vs.length
    · rw [if_pos h1, if_pos (by simp; omega), List.getD_append _ _ _ _ (by omega)]
    · rw [if_neg h1, if_neg (by simp; omega)]

theorem blit_blit (buf : List Int) (p : Nat) (vs ws : List Int) :
    blit (blit buf p vs) (p + vs.length) ws = blit buf p (vs ++ ws) := by
  apply ext_getD (by simp [blit_length])
  intro i hi
  simp only [blit_length] at hi
  rw [blit_getD _ _ _ _ (by rw [blit_length]; exact hi), blit_getD _ _ _ _ hi,
    blit_getD _ _ _ _ hi]
  by_cases h1 : p + vs.length ≤ i ∧ i < p + vs.length + ws.length
  · rw [if_pos h1, if_pos (by simp; omega), List.getD_append_right _ _ _ _ (by omega)]
    congr 1
    omega
  · rw [if_neg h1]
    by_cases h2 : p ≤ i ∧ i < p + vs.length
    · rw [if_pos h2, if_pos (by simp; omega), List.getD_append _ _ _ _ (by omega)]
    · rw [if_neg h2, if_neg (by simp; omega)]

/-- A loop that stores `f l` at `dst + l` writes the list of the `f l` from `dst` on. -/
theorem forUp_write (n : Nat) (f : Nat → Int) (dst : Nat) (buf : List Int)
    (h : dst + n ≤ buf.length) :
    forUp n (fun l buf => writeA buf (dst + l) (f l)) buf
      = .ok (blit buf dst ((List.range n).map f)) := by
  have hchain := forUp_chain n (fun l buf => writeA buf (dst + l) (f l))
    (fun l => blit buf dst ((List.range l).map f))
    (by
      intro l hl
      simp only []
      unfold writeA
      rw [if_pos (by rw [blit_length]; omega)]
      have e := set_eq_blit buf dst ((List.range l).map f) (f l)
      simp only [List.length_map, List.length_range] at e
      rw [e, List.range_succ, List.map_append]
      rfl)
  simp only [List.range_zero, List.map_nil, blit_nil] at hchain
  exact hchain

theorem tapEntries_length (a : Conv) (r c : Int) : (tapEntries a r c).length = a.ch_im_in := by
  simp [tapEntries]

theorem dsp_im2col_tap_appends (a : Conv) (hwf : a.WF) (r c : Int) :
    Appends (dsp_im2col_tap a r c) (tapEntries a r c) := by
  intro st hst
  rw [tapEntries_length] at hst ⊢
  unfold dsp_im2col_tap
  by_cases hout : r < 0 ∨ r ≥ a.dim_im_in ∨ c < 0 ∨ c ≥ a.dim_im_in
  · rw [if_pos hout]
    unfold memset_q15
    rw [forUp_write _ _ _ _ hst, Run.bind_ok]
    unfold tapEntries
    simp only [if_pos hout]
  · rw [if_neg hout]
    have h1 : 0 ≤ r := by omega
    have h2 : 0 ≤ c := by omega
    obtain ⟨r', hr⟩ := Int.eq_ofNat_of_zero_le h1
    obtain ⟨c', hc⟩ := Int.eq_ofNat_of_zero_le h2
    have hr' : r' < a.dim_im_in := by omega
    have hc' : c' < a.dim_im_in := by omega
    have hIn : a.Im_in.length = a.dim_im_in * a.dim_im_in * a.ch_im_in :=
      hwf.2.2.2.2.2.2.2.2.2.1
    have hbody : ∀ l, l < a.ch_im_in → ∀ buf : List Int,
        (readAt .Im_in a.Im_in ((r * a.dim_im_in + c) * a.ch_im_in + l)).bind
            (fun x => writeA buf (st.pBuffer + l) x)
          = writeA buf (st.pBuffer + l)
              (a.Im_in.getD ((r * a.dim_im_in + c) * a.ch_im_in + l).toNat 0) := by
      intro l hl buf
      have e1 : (r * a.dim_im_in + c) * a.ch_im_in + l
          = (((r' * a.dim_im_in + c') * a.ch_im_in + l : Nat) : Int) := by
        rw [hr, hc]; push_cast; ring
      have h3 : (r' * a.dim_im_in + c') * a.ch_im_in + l < a.Im_in.length := by
        rw [hIn]; exact flat_lt (flat_lt hr' hc') hl
      rw [e1, readAt_nat _ _ _ h3, Run.bind_ok, Int.toNat_ofNat]
    unfold arm_q7_to_q15_no_shift
    have hloop : forUp a.ch_im_in
        (fun l buf => (readAt .Im_in a.Im_in ((r * a.dim_im_in + c) * a.ch_im_in + l)).bind
          fun x => writeA buf (st.pBuffer + l) x) st.bufferA
        = forUp a.ch_im_in (fun l buf => writeA buf (st.pBuffer + l)
            (a.Im_in.getD ((r * a.dim_im_in + c) * a.ch_im_in + l).toNat 0)) st.bufferA := by
      have hgen : ∀ n, n ≤ a.ch_im_in → ∀ buf : List Int,
          forUp n (fun l buf =>
            (readAt .Im_in a.Im_in ((r * a.dim_im_in + c) * a.ch_im_in + l)).bind
              fun x => writeA buf (st.pBuffer + l) x) buf
          = forUp n (fun l buf => writeA buf (st.pBuffer + l)
              (a.Im_in.getD ((r * a.dim_im_in + c) * a.ch_im_in + l).toNat 0)) buf := by
        intro n
        induction n with
        | zero => intro _ _; rfl
        | succ n ih =>
          intro hn buf
          rw [forUp_succ, forUp_succ, ih (by omega)]
          congr 1
          funext buf'
          exact hbody n (by omega) buf'
      exact hgen _ (Nat.le_refl _) _
    rw [hloop, forUp_write _ _ _ _ hst, Run.bind_ok]
    unfold tapEntries
    simp only [if_neg hout]

/-- A loop whose rounds append lists of entries appends the concatenation of the lists. -/
theorem appends_forUp (n : Nat) (body : Nat → DspState → Run DspState)
    (ws : Nat → List Int) (h : ∀ k, k < n → Appends (body k) (ws k)) :
    Appends (forUp n body) ((List.range n).flatMap ws) := by
  induction n with
  | zero =>
    intro st _
    simp [forUp, blit_nil]
  | succ n ih =>
    intro st hst
    rw [List.range_succ, List.flatMap_append] at hst ⊢
    simp only [List.flatMap_cons, List.flatMap_nil, List.append_nil, List.length_append]
      at hst ⊢
    rw [forUp_succ, ih (fun k hk => h k (Nat.lt_succ_of_lt hk)) st (by omega), Run.bind_ok,
      h n (Nat.lt_succ_self n) _ (by simp only [blit_length]; omega)]
    simp only []
    rw [blit_blit, Nat.add_assoc]

/-- Length and entries of a concatenation of `n` blocks of equal length `w`. -/
theorem flatMap_block (n w : Nat) (f : Nat → List Int) (hf : ∀ i, i < n → (f i).length = w) :
    ((List.range n).flatMap f).length = n * w
    ∧ ∀ i j, i < n → j < w → ((List.range n).flatMap f).getD (i * w + j) 0 = (f i).getD j 0 := by
  induction n with
  | zero => exact ⟨by simp, fun i j hi _ => by omega⟩
  | succ n ih =>
    obtain ⟨h1, h2⟩ := ih (fun i hi => hf i (Nat.lt_succ_of_lt hi))
    rw [List.range_succ, List.flatMap_append]
    simp only [List.flatMap_cons, List.flatMap_nil, List.append_nil]
    refine ⟨by rw [List.length_append, h1, hf n (Nat.lt_succ_self n)]; ring, ?_⟩
    intro i j hi hj
    by_cases hin : i < n
    · rw [List.getD_append _ _ _ _ (by rw [h1]; exact flat_lt hin hj)]
      exact h2 i j hin hj
    · have e : i = n := by omega
      subst e
      rw [List.getD_append_right _ _ _ _ (by rw [h1]; omega), h1]
      congr 1
      omega

theorem colList_length (a : Conv) (y x : Nat) : (colList a y x).length = a.N := by
  unfold colList
  rw [(flatMap_block a.dim_kernel (a.dim_kernel * a.ch_im_in) _ (fun m _ =>
    (flatMap_block a.dim_kernel a.ch_im_in _ (fun n _ => tapEntries_length a _ _)).1)).1]
  unfold Conv.N
  ring

/-- Entry `(m * dim_kernel + n) * ch_im_in + l` of the column of pixel `(y, x)`. -/
theorem colList_getD (a : Conv) (y x m n l : Nat) (hm : m < a.dim_kernel)
    (hn : n < a.dim_kernel) (hl : l < a.ch_im_in) :
    (colList a y x).getD ((m * a.dim_kernel + n) * a.ch_im_in + l) 0
      = if 0 ≤ coord a y m ∧ coord a y m < a.dim_im_in ∧ 0 ≤ coord a x n
          ∧ coord a x n < a.dim_im_in
        then a.Im_in.getD ((coord a y m * a.dim_im_in + coord a x n) * a.ch_im_in + l).toNat 0
        else 0 := by
  have e1 : (m * a.dim_kernel + n) * a.ch_im_in + l
      = m * (a.dim_kernel * a.ch_im_in) + (n * a.ch_im_in + l) := by ring
  have hb : n * a.ch_im_in + l < a.dim_kernel * a.ch_im_in := flat_lt hn hl
  have ey : (y : Int) * a.stride - a.padding + m = coord a y m := by unfold coord; ring
  have ex : (x : Int) * a.stride - a.padding + n = coord a x n := by unfold coord; ring
  unfold colList
  rw [e1, (flatMap_block a.dim_kernel (a.dim_kernel * a.ch_im_in) _ (fun m _ =>
    (flatMap_block a.dim_kernel a.ch_im_in _ (fun n _ => tapEntries_length a _ _)).1)).2
      m _ hm hb,
    (flatMap_block a.dim_kernel a.ch_im_in _ (fun n _ => tapEntries_length a _ _)).2 n l hn hl,
    ey, ex]
  unfold tapEntries
  rw [List.getD_eq_getElem?_getD, List.getElem?_map, List.getElem?_range hl]
  simp only [Option.map_some', Option.getD_some]
  by_cases hin : 0 ≤ coord a y m ∧ coord a y m < a.dim_im_in ∧ 0 ≤ coord a x n
      ∧ coord a x n < a.dim_im_in
  · rw [if_pos hin, if_neg (by omega)]
  · rw [if_neg hin, if_pos (by omega)]

/-- With a geometry that fits the counters and enough fuel, the im2col of pixel `(y, x)`
appends the column of that pixel to the working buffer. -/
theorem dsp_im2col_appends (a : Conv) (hwf : a.WF) (hf : a.Fits16) (fuel : Nat)
    (hfuel : a.dim_kernel < fuel) (y x : Nat) (hy : y < a.dim_im_out)
    (hx : x < a.dim_im_out) :
    Appends (dsp_im2col a fuel y x) (colList a y x) := by
  have h : dsp_im2col a fuel y x
      = forUp a.dim_kernel (fun m st =>
          forUp a.dim_kernel (fun n st =>
            dsp_im2col_tap a ((y : Int) * a.stride - a.padding + m)
              ((x : Int) * a.stride - a.padding + n) st) st) := by
    funext st
    exact dsp_im2col_eq a hf fuel hfuel y x hy hx st
  rw [h]
  unfold colList
  apply appends_forUp
  intro m _
  apply appends_forUp
  intro n _
  exact dsp_im2col_tap_appends a hwf _ _

/-! ## The fused kernel -/

theorem sum_range_mul (a b : Nat) (f : Nat → Int) :
    ∑ t in Finset.range (a * b), f t
      = ∑ i in Finset.range a, ∑ j in Finset.range b, f (i * b + j) := by
  induction a with
  | zero => simp
  | succ a ih =>
    rw [Nat.succ_mul, Finset.sum_range_add, ih, Finset.sum_range_succ]

/-- The dot product of weight row `i` with the column of pixel `(y, x)` is the sum of the
in-bounds tap products. -/
theorem dot_col_eq_convSum (a : Conv) (i y x : Nat) (g : Nat → Int)
    (hg : ∀ t, t < a.N → g t = (colList a y x).getD t 0) :
    ∑ t in Finset.range a.N, a.wt.getD (i * a.N + t) 0 * g t = convSum a i y x := by
  have eN : a.N = a.dim_kernel * (a.dim_kernel * a.ch_im_in) := by unfold Conv.N; ring
  unfold convSum
  rw [eN, sum_range_mul]
  refine Finset.sum_congr rfl fun m hm => ?_
  rw [sum_range_mul]
  refine Finset.sum_congr rfl fun n hn => Finset.sum_congr rfl fun l hl => ?_
  have hm' := Finset.mem_range.1 hm
  have hn' := Finset.mem_range.1 hn
  have hl' := Finset.mem_range.1 hl
  have e1 : m * (a.dim_kernel * a.ch_im_in) + (n * a.ch_im_in + l)
      = (m * a.dim_kernel + n) * a.ch_im_in + l := by ring
  have hlt : (m * a.dim_kernel + n) * a.ch_im_in + l < a.N := by
    have := flat_lt (flat_lt hm' hn') hl'
    rw [eN]
    calc (m * a.dim_kernel + n) * a.ch_im_in + l
        < a.dim_kernel * a.dim_kernel * a.ch_im_in := this
      _ = a.dim_kernel * (a.dim_kernel * a.ch_im_in) := by ring
  have e2 : i * (a.dim_kernel * (a.dim_kernel * a.ch_im_in))
      + ((m * a.dim_kernel + n) * a.ch_im_in + l)
      = i * a.ch_im_in * a.dim_kernel * a.dim_kernel
        + (m * a.dim_kernel + n) * a.ch_im_in + l := by ring
  rw [e1, hg _ hlt, colList_getD a y x m n l hm' hn' hl', e2]
  unfold tapTerm
  split_ifs
  · rw [mul_comm]
  · rw [mul_zero]

theorem dot_q7_q15_eq (wt : List Int) (wbase : Nat) (bufferA : List Int) (cbase n : Nat)
    (acc : Int) (hacc : I32 acc) (hw : wbase + n ≤ wt.length)
    (hb : cbase + n ≤ bufferA.length) :
    dot_q7_q15 wt wbase bufferA cbase n acc
      = .ok (wrap32 (acc
          + ∑ t in Finset.range n, wt.getD (wbase + t) 0 * bufferA.getD (cbase + t) 0)) := by
  unfold dot_q7_q15
  apply forUp_acc _ _ _ _ _ hacc
  intro t acc' ht _
  rw [readAt_off _ _ _ _ (by omega), Run.bind_ok, readAt_off _ _ _ _ (by omega), Run.bind_ok]

/-- The fused kernel, as the spec describes it, never faults when two columns and two pixels
of output fit, and its effect on the output buffer is the list of stores `kernelStores`. -/
theorem kernel_eq (a : Conv) (hwf : a.WF) (bufferA : List Int)
    (hA : 2 * a.N ≤ bufferA.length) (pOut : Nat) (out : OutBuf)
    (ho : pOut + 2 * a.ch_im_out ≤ out.data.length) :
    arm_nn_mat_mult_kernel_q7_q15 a bufferA pOut out
      = .ok (storeAll (kernelStores a bufferA pOut) out) := by
  obtain ⟨_, _, _, _, _, _, _, _, _, _, hWt, hB, _⟩ := hwf
  unfold arm_nn_mat_mult_kernel_q7_q15 kernelStores
  apply forUp_stores _ _ _ out.data.length _ _ rfl
  intro i o hi ho'
  have hw : i * a.N + a.N ≤ a.wt.length := by
    have h1 : (i + 1) * a.N ≤ a.ch_im_out * a.N := Nat.mul_le_mul_right _ hi
    have h2 : (i + 1) * a.N = i * a.N + a.N := by ring
    rw [hWt]; omega
  have e0 : wrap32 (shl32 (a.bias.getD i 0) a.bias_shift + NN_ROUND a.out_shift)
      = wrap32 (a.bias.getD i 0 * 2 ^ a.bias_shift + NN_ROUND a.out_shift) := by
    unfold shl32; rw [wrap32_add_left]
  rw [readAt_nat _ _ _ (by rw [hB]; exact hi), Run.bind_ok,
    dot_q7_q15_eq _ _ _ _ _ _ (wrap32_I32 _) hw (by omega), Run.bind_ok,
    dot_q7_q15_eq _ _ _ _ _ _ (wrap32_I32 _) hw (by omega), Run.bind_ok,
    e0, wrap32_add_left, wrap32_add_left, q7_cast_SSAT, q7_cast_SSAT]
  unfold OutBuf.store
  rw [if_pos (by omega), Run.bind_ok]
  simp only [List.length_set]
  rw [if_pos (by omega)]
  rfl

/-! ## The scan over the output pixels -/

theorem mem_kernelStores_fst (a : Conv) (bufferA : List Int) (pOut idx : Nat) :
    idx ∈ (kernelStores a bufferA pOut).map Prod.fst
      ↔ ∃ i, i < a.ch_im_out ∧ (idx = pOut + i ∨ idx = pOut + a.ch_im_out + i) := by
  unfold kernelStores
  simp only [List.map_flatMap, List.map_cons, List.map_nil, List.mem_flatMap, List.mem_range,
    List.mem_cons, List.mem_singleton, List.not_mem_nil, or_false]

theorem kernelStores_nodup (a : Conv) (bufferA : List Int) (pOut : Nat) :
    ((kernelStores a bufferA pOut).map Prod.fst).Nodup := by
  unfold kernelStores
  simp only [List.map_flatMap, List.map_cons, List.map_nil]
  rw [List.nodup_flatMap]
  refine ⟨fun i hi => ?_, ?_⟩
  · have := List.mem_range.1 hi
    simp only [List.nodup_cons, List.mem_singleton, List.not_mem_nil, not_false_eq_true,
      List.nodup_nil, and_true]
    omega
  · refine List.Pairwise.imp_of_mem ?_ (List.nodup_range a.ch_im_out)
    intro i i' hi hi' hne
    have h1 := List.mem_range.1 hi
    have h2 := List.mem_range.1 hi'
    simp only [Function.onFun, List.Disjoint, List.mem_cons, List.mem_singleton,
      List.not_mem_nil, or_false]
    intro x hx hx'
    omega

theorem kernel_get_first (a : Conv) (bufferA : List Int) (pOut : Nat) (o : OutBuf) (i : Nat)
    (hi : i < a.ch_im_out) (ho : pOut + 2 * a.ch_im_out ≤ o.data.length) :
    (storeAll (kernelStores a bufferA pOut) o).data[pOut + i]?
      = some (SSAT (wrap32 (a.bias.getD i 0 * 2 ^ a.bias_shift + NN_ROUND a.out_shift
          + ∑ t in Finset.range a.N, a.wt.getD (i * a.N + t) 0 * bufferA.getD (0 + t) 0)
          >>> a.out_shift) 8) := by
  apply storeAll_get _ _ _ _ (kernelStores_nodup a bufferA pOut) _ (by omega)
  unfold kernelStores
  simp only [List.mem_flatMap, List.mem_range, List.mem_cons, List.mem_singleton]
  exact ⟨i, hi, Or.inl rfl⟩

theorem kernel_get_second (a : Conv) (bufferA : List Int) (pOut : Nat) (o : OutBuf) (i : Nat)
    (hi : i < a.ch_im_out) (ho : pOut + 2 * a.ch_im_out ≤ o.data.length) :
    (storeAll (kernelStores a bufferA pOut) o).data[pOut + a.ch_im_out + i]?
      = some (SSAT (wrap32 (a.bias.getD i 0 * 2 ^ a.bias_shift + NN_ROUND a.out_shift
          + ∑ t in Finset.range a.N, a.wt.getD (i * a.N + t) 0 * bufferA.getD (a.N + t) 0)
          >>> a.out_shift) 8) := by
  apply storeAll_get _ _ _ _ (kernelStores_nodup a bufferA pOut) _ (by omega)
  unfold kernelStores
  simp only [List.mem_flatMap, List.mem_range, List.mem_cons, List.mem_singleton]
  exact ⟨i, hi, Or.inr (Or.inl rfl)⟩

theorem kernel_frame (a : Conv) (bufferA : List Int) (pOut : Nat) (o : OutBuf) (idx : Nat)
    (h : idx < pOut ∨ pOut + 2 * a.ch_im_out ≤ idx) :
    (storeAll (kernelStores a bufferA pOut) o).data[idx]? = o.data[idx]? := by
  apply storeAll_frame
  rw [mem_kernelStores_fst]
  rintro ⟨i, hi, h1 | h1⟩ <;> omega

theorem two_N (a : Conv) : 2 * a.ch_im_in * a.dim_kernel * a.dim_kernel = 2 * a.N := by
  unfold Conv.N; ring

theorem pix_decode (a : Conv) (y x : Nat) (hx : x < a.dim_im_out) :
    (y * a.dim_im_out + x) / a.dim_im_out = y ∧ (y * a.dim_im_out + x) % a.dim_im_out = x :=
  flat_decode hx

/-- One output pixel of the scan re-establishes the scan invariant. -/
theorem dsp_pixel_step (a : Conv) (hwf : a.WF) (hf : a.Fits16) (hN : 1 ≤ a.N) (fuel : Nat)
    (hfuel : a.dim_kernel < fuel) (bufLen : Nat) (hbl : 2 * a.N ≤ bufLen) (out0 : OutBuf)
    (hout : a.dim_im_out * a.dim_im_out * a.ch_im_out ≤ out0.data.length) (y x : Nat)
    (hy : y < a.dim_im_out) (hx : x < a.dim_im_out) (st : DspState)
    (hinv : ScanInv a bufLen out0 (y * a.dim_im_out + x) st) :
    ∃ st', dsp_pixel a fuel y x st = .ok st'
      ∧ ScanInv a bufLen out0 (y * a.dim_im_out + x + 1) st' := by
  obtain ⟨hL, hM, hpB, hpO, hcol, hdone, hframe⟩ := hinv
  obtain ⟨hd1, hd2⟩ := pix_decode a y x hx
  have hp : y * a.dim_im_out + x + 1 ≤ a.dim_im_out * a.dim_im_out := by
    have := flat_lt hy hx
    omega
  have hpC : (y * a.dim_im_out + x + 1) * a.ch_im_out
      ≤ a.dim_im_out * a.dim_im_out * a.ch_im_out := Nat.mul_le_mul_right _ hp
  have happ := dsp_im2col_appends a hwf hf fuel hfuel y x hy hx st
    (by rw [colList_length, hpB, hL]
        rcases Nat.mod_two_eq_zero_or_one (y * a.dim_im_out + x) with h | h <;> rw [h] <;> omega)
  rw [colList_length] at happ
  unfold dsp_pixel
  rw [happ, Run.bind_ok, two_N]
  simp only []
  rcases Nat.mod_two_eq_zero_or_one (y * a.dim_im_out + x) with hpar | hpar
  · -- an even number of pixels so far: the column goes to offset 0 and stays buffered
    rw [hpar] at hpB hpO hdone hframe
    have hpar' : (y * a.dim_im_out + x + 1) % 2 = 1 := by omega
    rw [if_neg (by rw [hpB]; omega)]
    refine ⟨_, rfl, ?_, hM, ?_, ?_, ?_, ?_, ?_⟩
    · simp only [blit_length]; exact hL
    · simp only [hpar', hpB]; omega
    · simp only [hpar', hpO]
      congr 1
    · intro _ t ht
      simp only [Nat.add_sub_cancel, hd1, hd2]
      rw [blit_getD _ _ _ _ (by omega), colList_length, if_pos (by omega), hpB, Nat.zero_mul,
        Nat.sub_zero]
    · intro q i hq hi
      rw [hpar'] at hq
      exact hdone q i (by omega) hi
    · intro idx hidx
      rw [hpar'] at hidx
      exact hframe idx (by simpa using hidx)
  · -- an odd number of pixels so far: the buffer is full and the fused kernel runs
    rw [hpar] at hpB hpO hdone hframe
    have hpar' : (y * a.dim_im_out + x + 1) % 2 = 0 := by omega
    have hcol' := hcol hpar
    rw [if_pos (by rw [hpB]; omega)]
    have hpO' : st.pOut + 2 * a.ch_im_out = (y * a.dim_im_out + x + 1) * a.ch_im_out := by
      rw [hpO]
      have : y * a.dim_im_out + x + 1 = (y * a.dim_im_out + x - 1) + 2 := by omega
      rw [this, Nat.add_mul]
    have hroom : st.pOut + 2 * a.ch_im_out ≤ st.Im_out.data.length := by
      rw [hM, hpO']; omega
    rw [kernel_eq a hwf _ (by rw [blit_length]; omega) st.pOut st.Im_out hroom, Run.bind_ok]
    refine ⟨_, rfl, ?_, ?_, ?_, ?_, ?_, ?_, ?_⟩
    · simp only [blit_length]; exact hL
    · simp only [storeAll_length]; exact hM
    · simp only [hpar']; omega
    · simp only [hpar', hpO', Nat.sub_zero]
    · intro h; omega
    · intro q i hq hi
      rw [hpar', Nat.sub_zero] at hq
      simp only []
      by_cases hq1 : q < y * a.dim_im_out + x - 1
      · have hlt : q * a.ch_im_out + i < st.pOut := by
          rw [hpO]
          have := flat_lt hq1 hi
          omega
        rw [kernel_frame _ _ _ _ _ (Or.inl hlt)]
        exact hdone q i hq1 hi
      · by_cases hq2 : q = y * a.dim_im_out + x - 1
        · have e : q * a.ch_im_out + i = st.pOut + i := by rw [hpO, hq2]
          rw [e, kernel_get_first _ _ _ _ _ hi hroom]
          have hsum := dot_col_eq_convSum a i ((y * a.dim_im_out + x - 1) / a.dim_im_out)
            ((y * a.dim_im_out + x - 1) % a.dim_im_out)
            (fun t => (blit st.bufferA st.pBuffer (colList a y x)).getD (0 + t) 0)
            (by
              intro t ht
              simp only [Nat.zero_add]
              rw [blit_getD _ _ _ _ (by omega), if_neg (by rw [hpB]; omega)]
              exact hcol' t ht)
          rw [hsum, hq2]
          rfl
        · have hq3 : q = y * a.dim_im_out + x := by omega
          have e : q * a.ch_im_out + i = st.pOut + a.ch_im_out + i := by
            rw [hpO, hq3]
            have : y * a.dim_im_out + x = (y * a.dim_im_out + x - 1) + 1 := by omega
            conv_lhs => rw [this, Nat.add_mul]
            omega
          rw [e, kernel_get_second _ _ _ _ _ hi hroom]
          have hsum := dot_col_eq_convSum a i y x
            (fun t => (blit st.bufferA st.pBuffer (colList a y x)).getD (a.N + t) 0)
            (by
              intro t ht
              simp only []
              rw [blit_getD _ _ _ _ (by omega), colList_length,
                if_pos (by rw [hpB]; omega), hpB]
              congr 1
              omega)
          rw [hsum, hq3]
          unfold pixValue outValue accValue
          rw [hd1, hd2]
    · intro idx hidx
      rw [hpar', Nat.sub_zero] at hidx
      simp only []
      rw [kernel_frame _ _ _ _ _ (Or.inr (by omega))]
      exact hframe idx (by
        have : (y * a.dim_im_out + x - 1) * a.ch_im_out ≤ (y * a.dim_im_out + x + 1) * a.ch_im_out :=
          Nat.mul_le_mul_right _ (by omega)
        omega)

/-- With a geometry that fits the counters and enough fuel, the scan runs to completion and
ends in the scan invariant for all `dim_im_out^2` pixels. -/
theorem dsp_scan_inv (a : Conv) (hwf : a.WF) (hf : a.Fits16) (hN : 1 ≤ a.N) (fuel : Nat)
    (hfK : a.dim_kernel < fuel) (hfD : a.dim_im_out < fuel) (bufferA : List Int)
    (hbl : 2 * a.N ≤ bufferA.length) (out0 : OutBuf)
    (hout : a.dim_im_out * a.dim_im_out * a.ch_im_out ≤ out0.data.length) :
    ∃ st, dsp_scan a fuel ⟨bufferA, 0, 0, out0⟩ = .ok st
      ∧ ScanInv a bufferA.length out0 (a.dim_im_out * a.dim_im_out) st := by
  rw [dsp_scan_eq a hf fuel hfD]
  apply forUp_inv (fun y st => ScanInv a bufferA.length out0 (y * a.dim_im_out) st)
  · refine ⟨rfl, rfl, ?_, ?_, ?_, ?_, ?_⟩
    · simp
    · simp
    · intro h; simp at h
    · intro q i hq; simp at hq
    · intro idx _; rfl
  · intro y st hy hinv
    have hrow : (y + 1) * a.dim_im_out = y * a.dim_im_out + a.dim_im_out := by ring
    rw [hrow]
    apply forUp_inv (fun x st => ScanInv a bufferA.length out0 (y * a.dim_im_out + x) st)
    · exact hinv
    · intro x st' hx hinv'
      exact dsp_pixel_step a hwf hf hN fuel hfK bufferA.length hbl out0 hout y x hy hx st' hinv'

/-- The DSP path on a geometry that fits its counters: with enough fuel, a working buffer
of `2 * N` slots and room for the output, the run completes and the output holds, pixel
after pixel and channel-innermost, the codes `pixValue`; the other cells are untouched. -/
theorem dsp_run (a : Conv) (hwf : a.WF) (hf : a.Fits16) (hN : 1 ≤ a.N) (hN' : a.N < 2 ^ 18)
    (fuel : Nat) (hfK : a.dim_kernel < fuel) (hfD : a.dim_im_out < fuel)
    (bufferA : List Int) (hbl : 2 * a.N ≤ bufferA.length) (out0 : OutBuf)
    (hout : a.dim_im_out * a.dim_im_out * a.ch_im_out ≤ out0.data.length) :
    ∃ st, arm_convolve_HWC_q7_basic_dsp a fuel bufferA out0 = .ok st
      ∧ st.Im_out.data.length = out0.data.length
      ∧ (∀ q i, q < a.dim_im_out * a.dim_im_out → i < a.ch_im_out →
          st.Im_out.data[q * a.ch_im_out + i]? = some (pixValue a q i))
      ∧ (∀ idx, a.dim_im_out * a.dim_im_out * a.ch_im_out ≤ idx →
          st.Im_out.data[idx]? = out0.data[idx]?) := by
  obtain ⟨st, hscan, hL, hM, hpB, hpO, hcol, hdone, hframe⟩ :=
    dsp_scan_inv a hwf hf hN fuel hfK hfD bufferA hbl out0 hout
  unfold arm_convolve_HWC_q7_basic_dsp
  rw [hscan, Run.bind_ok]
  rcases Nat.mod_two_eq_zero_or_one (a.dim_im_out * a.dim_im_out) with hpar | hpar
  · rw [hpar] at hpB hpO hdone hframe
    unfold dsp_leftover
    rw [if_neg (by rw [hpB]; simp)]
    exact ⟨_, rfl, hM, fun q i hq hi => hdone q i (by omega) hi,
      fun idx hidx => hframe idx (by simpa using hidx)⟩
  · rw [hpar] at hpB hpO hdone hframe
    have hcol' := hcol hpar
    have hpos : 1 ≤ a.dim_im_out * a.dim_im_out := by omega
    have hpO' : st.pOut + a.ch_im_out = a.dim_im_out * a.dim_im_out * a.ch_im_out := by
      rw [hpO]
      have : a.dim_im_out * a.dim_im_out = (a.dim_im_out * a.dim_im_out - 1) + 1 := by omega
      conv_rhs => rw [this, Nat.add_mul]
      omega
    have hroom : st.pOut + a.ch_im_out ≤ st.Im_out.data.length := by rw [hM, hpO']; exact hout
    have hlc := leftCount_eq a hN'
    rw [dsp_leftover_eq a hwf st (by rw [hlc, hL]; omega) (by rw [hpB]; omega) hroom]
    refine ⟨_, rfl, ?_, ?_, ?_⟩
    · simp only [storeAll_length]; exact hM
    · intro q i hq hi
      simp only []
      by_cases hq1 : q < a.dim_im_out * a.dim_im_out - 1
      · rw [storeAll_frame]
        · exact hdone q i hq1 hi
        · intro hmem
          obtain ⟨w, hw, hwi⟩ := List.mem_map.1 hmem
          obtain ⟨i', _, rfl⟩ := (mem_leftStores a st.bufferA st.pOut w).1 hw
          simp only [] at hwi
          have := flat_lt hq1 hi
          rw [hpO] at hwi
          omega
      · have hq2 : q = a.dim_im_out * a.dim_im_out - 1 := by omega
        have e : q * a.ch_im_out + i = st.pOut + i := by rw [hpO, hq2]
        rw [e, dsp_leftover_get a st.bufferA st.pOut st.Im_out i hi hroom]
        have hsum := dot_col_eq_convSum a i ((a.dim_im_out * a.dim_im_out - 1) / a.dim_im_out)
          ((a.dim_im_out * a.dim_im_out - 1) % a.dim_im_out)
          (fun t => st.bufferA.getD t 0) hcol'
        unfold leftAcc colSum
        rw [hlc, hsum, hq2]
        rfl
    · intro idx hidx
      simp only []
      rw [storeAll_frame]
      · exact hframe idx (by
          have : (a.dim_im_out * a.dim_im_out - 1) * a.ch_im_out
              ≤ a.dim_im_out * a.dim_im_out * a.ch_im_out := Nat.mul_le_mul_right _ (by omega)
          omega)
      · intro hmem
        obtain ⟨w, hw, hwi⟩ := List.mem_map.1 hmem
        obtain ⟨i', hi', rfl⟩ := (mem_leftStores a st.bufferA st.pOut w).1 hw
        simp only [] at hwi
        omega

/-- On a geometry that fits the `int16_t` counters of the DSP path, with fewer than `2^18`
entries per column, the DSP path (with the fused kernel as the spec describes it) and the
reference path run to completion and leave the same output tensor. -/
theorem dsp_eq_ref (a : Conv) (hwf : a.WF) (hf : a.Fits16) (hN : 1 ≤ a.N)
    (hN' : a.N < 2 ^ 18) (fuel : Nat) (hfK : a.dim_kernel < fuel)
    (hfD : a.dim_im_out < fuel) (bufferA : List Int) (hbl : 2 * a.N ≤ bufferA.length)
    (out0 : OutBuf)
    (hout : a.dim_im_out * a.dim_im_out * a.ch_im_out ≤ out0.data.length) :
    ∃ st o, arm_convolve_HWC_q7_basic_dsp a fuel bufferA out0 = .ok st
      ∧ arm_convolve_HWC_q7_basic_ref a out0 = .ok o ∧ st.Im_out.data = o.data := by
  obtain ⟨st, hrun, hM, hdone, hframe⟩ :=
    dsp_run a hwf hf hN hN' fuel hfK hfD bufferA hbl out0 hout
  refine ⟨st, _, hrun, ref_run a hwf out0 hout, ?_⟩
  apply List.ext_getElem?
  intro idx
  by_cases hidx : idx < a.dim_im_out * a.dim_im_out * a.ch_im_out
  · have hC : 0 < a.ch_im_out := by
      rcases Nat.eq_zero_or_pos a.ch_im_out with h0 | h0
      · rw [h0] at hidx; simp at hidx
      · exact h0
    have hD : 0 < a.dim_im_out := by
      rcases Nat.eq_zero_or_pos a.dim_im_out with h0 | h0
      · rw [h0] at hidx; simp at hidx
      · exact h0
    have hq : idx / a.ch_im_out < a.dim_im_out * a.dim_im_out :=
      (Nat.div_lt_iff_lt_mul hC).2 hidx
    have e1 : idx = idx / a.ch_im_out * a.ch_im_out + idx % a.ch_im_out :=
      (Nat.div_add_mod' idx a.ch_im_out).symm
    have e2 : idx = outIndex a (idx % a.ch_im_out) (idx / a.ch_im_out / a.dim_im_out)
        (idx / a.ch_im_out % a.dim_im_out) := by
      unfold outIndex
      rw [Nat.div_add_mod' (idx / a.ch_im_out) a.dim_im_out, Nat.add_comm]
      exact e1
    have h1 := hdone (idx / a.ch_im_out) (idx % a.ch_im_out) hq (Nat.mod_lt _ hC)
    have h2 := ref_run_get a out0 (idx % a.ch_im_out) (idx / a.ch_im_out / a.dim_im_out)
      (idx / a.ch_im_out % a.dim_im_out) (Nat.mod_lt _ hC)
      ((Nat.div_lt_iff_lt_mul hD).2 hq) (Nat.mod_lt _ hD) hout
    rw [← e1] at h1
    rw [← e2] at h2
    rw [h1, h2]
    rfl
  · rw [hframe idx (by omega), storeAll_frame]
    rw [mem_refStores_fst_iff_lt]
    exact hidx

theorem tapEntries_out (a : Conv) (r c : Int)
    (hout : r < 0 ∨ r ≥ a.dim_im_in ∨ c < 0 ∨ c ≥ a.dim_im_in) :
    tapEntries a r c = List.replicate a.ch_im_in 0 := by
  rw [List.eq_replicate_iff]
  refine ⟨tapEntries_length a r c, ?_⟩
  intro b hb
  unfold tapEntries at hb
  obtain ⟨l, _, rfl⟩ := List.mem_map.1 hb
  rw [if_pos hout]

theorem padded_Fits16 (a : Conv) (h : (padded a).Fits16) (hp : a.padding ≤ 32768) :
    a.Fits16 := by
  obtain ⟨h1, _, h3⟩ := h
  have h1' : a.dim_im_out ≤ 32767 := h1
  have h3' : a.dim_im_out * a.stride + a.dim_kernel ≤ 32767 + 0 + a.stride := h3
  exact ⟨h1', hp, by omega⟩


/-! ## Channel decomposition -/

theorem channel_wt_getD (a : Conv) (i t : Nat) (ht : t < a.N) :
    (channel a i).wt.getD t 0 = a.wt.getD (i * a.N + t) 0 := by
  show ((a.wt.drop (i * a.N)).take a.N).getD t 0 = _
  rw [List.getD_eq_getElem?_getD, List.getD_eq_getElem?_getD, List.getElem?_take_of_lt ht,
    List.getElem?_drop]

theorem channel_bias_getD (a : Conv) (i : Nat) :
    (channel a i).bias.getD 0 0 = a.bias.getD i 0 := by
  show ((a.bias.drop i).take 1).getD 0 0 = _
  rw [List.getD_eq_getElem?_getD, List.getD_eq_getElem?_getD,
    List.getElem?_take_of_lt Nat.one_pos, List.getElem?_drop]
  rfl

theorem channel_WF (a : Conv) (hwf : a.WF) (i : Nat) (hi : i < a.ch_im_out) :
    (channel a i).WF := by
  obtain ⟨h1, h2, h3, h4, h5, h6, h7, h8, h9, hIn, hWt, hB, qI, qW, qB⟩ := hwf
  have hN : (channel a i).N = a.N := rfl
  refine ⟨h1, h2, by show (1 : Nat) < 2 ^ 16; decide, h4, h5, h6, h7, h8, h9, hIn, ?_, ?_,
    qI, ?_, ?_⟩
  · show ((a.wt.drop (i * a.N)).take a.N).length = 1 * (channel a i).N
    rw [hN, List.length_take, List.length_drop, hWt, Nat.one_mul]
    have : (i + 1) * a.N ≤ a.ch_im_out * a.N := Nat.mul_le_mul_right _ hi
    have e : (i + 1) * a.N = i * a.N + a.N := by ring
    omega
  · show ((a.bias.drop i).take 1).length = 1
    rw [List.length_take, List.length_drop, hB]; omega
  · intro x hx
    exact qW x (List.mem_of_mem_drop (List.mem_of_mem_take hx))
  · intro x hx
    exact qB x (List.mem_of_mem_drop (List.mem_of_mem_take hx))

theorem tap_offset_lt (a : Conv) (m n l : Nat) (hm : m < a.dim_kernel) (hn : n < a.dim_kernel)
    (hl : l < a.ch_im_in) : (m * a.dim_kernel + n) * a.ch_im_in + l < a.N := by
  have h1 : (m * a.dim_kernel + n) * a.ch_im_in + l < a.dim_kernel * a.dim_kernel * a.ch_im_in :=
    flat_lt (flat_lt hm hn) hl
  have h2 : a.dim_kernel * a.dim_kernel * a.ch_im_in = a.N := by unfold Conv.N; ring
  omega

/-- A tap term reads the weights only through row `i`, at offset `(m * K + n) * ch + l`. -/
theorem tapTerm_row (a : Conv) (i j k m n l : Nat) :
    tapTerm a i j k m n l =
      if 0 ≤ coord a j m ∧ coord a j m < a.dim_im_in ∧ 0 ≤ coord a k n
          ∧ coord a k n < a.dim_im_in
      then a.Im_in.getD ((coord a j m * a.dim_im_in + coord a k n) * a.ch_im_in + l).toNat 0 *
        a.wt.getD (i * a.N + ((m * a.dim_kernel + n) * a.ch_im_in + l)) 0
      else 0 := by
  unfold tapTerm
  have e : i * a.ch_im_in * a.dim_kernel * a.dim_kernel + (m * a.dim_kernel + n) * a.ch_im_in + l
      = i * a.N + ((m * a.dim_kernel + n) * a.ch_im_in + l) := by unfold Conv.N; ring
  rw [e]

/-- Two argument records that differ at most in weights and bias and agree on weight row `i`
and on `bias[i]` have the same stored value for channel `i`. -/
theorem outValue_row (a b : Conv) (i i' j k : Nat)
    (hI : b.Im_in = a.Im_in) (hd : b.dim_im_in = a.dim_im_in) (hc : b.ch_im_in = a.ch_im_in)
    (hK : b.dim_kernel = a.dim_kernel) (hp : b.padding = a.padding) (hs : b.stride = a.stride)
    (hbs : b.bias_shift = a.bias_shift) (hos : b.out_shift = a.out_shift)
    (hw : ∀ t, t < a.N → b.wt.getD (i' * a.N + t) 0 = a.wt.getD (i * a.N + t) 0)
    (hb : b.bias.getD i' 0 = a.bias.getD i 0) :
    outValue b i' j k = outValue a i j k := by
  have hN : b.N = a.N := by unfold Conv.N; rw [hc, hK]
  have hco : ∀ o t, coord b o t = coord a o t := by intro o t; unfold coord; rw [hs, hp]
  have hS : convSum b i' j k = convSum a i j k := by
    unfold convSum
    rw [hK, hc]
    refine Finset.sum_congr rfl fun m hm => Finset.sum_congr rfl fun n hn =>
      Finset.sum_congr rfl fun l hl => ?_
    rw [tapTerm_row, tapTerm_row, hN, hco, hco, hI, hd, hc, hK,
      hw _ (tap_offset_lt a m n l (Finset.mem_range.1 hm) (Finset.mem_range.1 hn)
        (Finset.mem_range.1 hl))]
  unfold outValue accValue
  rw [hS, hb, hbs, hos]

theorem outValue_channel (a : Conv) (i j k : Nat) :
    outValue (channel a i) 0 j k = outValue a i j k :=
  outValue_row a (channel a i) i 0 j k rfl rfl rfl rfl rfl rfl rfl rfl
    (fun t ht => by rw [Nat.zero_mul, Nat.zero_add]; exact channel_wt_getD a i t ht)
    (channel_bias_getD a i)


/-! ## Every intermediate value of the accumulator -/

theorem ref_kernel_col_at_full (a : Conv) (i j k m n : Nat) (c : Int) :
    ref_kernel_col_at a i j k m n a.ch_im_in c = ref_kernel_col a i j k m n c := rfl

theorem ref_kernel_col_at_eq (a : Conv) (hwf : a.WF) (i j k m n l : Nat) (acc : Int)
    (hi : i < a.ch_im_out) (hj : j < 2 ^ 16) (hk : k < 2 ^ 16) (hm : m < a.dim_kernel)
    (hn : n < a.dim_kernel) (hl : l ≤ a.ch_im_in) (hacc : I32 acc) :
    ref_kernel_col_at a i j k m n l acc
      = .ok (wrap32 (acc + ∑ l1 in Finset.range l, tapTerm a i j k m n l1)) := by
  have hwf' := hwf
  obtain ⟨hd, _, _, hK, hp, hs, _⟩ := hwf'
  obtain ⟨hr1, hr2⟩ := wrap32_coord a j m hs hp hd hj (by omega)
  obtain ⟨hc1, hc2⟩ := wrap32_coord a k n hs hp hd hk (by omega)
  unfold ref_kernel_col_at
  by_cases hin : 0 ≤ coord a j m ∧ coord a j m < a.dim_im_in
      ∧ 0 ≤ coord a k n ∧ coord a k n < a.dim_im_in
  · obtain ⟨h1, h2, h3, h4⟩ := hin
    have hrw := hr2 ⟨h1, h2⟩
    have hcw := hc2 ⟨h3, h4⟩
    simp only [hrw, hcw]
    rw [if_pos ⟨h1, h3, h2, h4⟩]
    obtain ⟨r, hr⟩ := Int.eq_ofNat_of_zero_le h1
    obtain ⟨c, hc⟩ := Int.eq_ofNat_of_zero_le h3
    have hrlt : r < a.dim_im_in := by rw [hr] at h2; exact_mod_cast h2
    have hclt : c < a.dim_im_in := by rw [hc] at h4; exact_mod_cast h4
    rw [hr, hc]
    apply forUp_acc
    · intro l1 acc' hl1 _
      rw [ref_tap_eq a hwf i m n l1 r c acc' hi hm hn (by omega) hrlt hclt]
      have e1 : ((coord a j m * a.dim_im_in + coord a k n) * a.ch_im_in + l1).toNat
          = (r * a.dim_im_in + c) * a.ch_im_in + l1 := by
        rw [hr, hc]
        have : ((r : Int) * a.dim_im_in + c) * a.ch_im_in + l1
            = (((r * a.dim_im_in + c) * a.ch_im_in + l1 : Nat) : Int) := by push_cast; ring
        rw [this, Int.toNat_ofNat]
      unfold tapTerm
      rw [if_pos ⟨h1, h2, h3, h4⟩, e1]
    · exact hacc
  · have hcond : ¬ (wrap32 (a.stride * j + m - a.padding) ≥ 0
        ∧ wrap32 (a.stride * k + n - a.padding) ≥ 0
        ∧ wrap32 (a.stride * j + m - a.padding) < a.dim_im_in
        ∧ wrap32 (a.stride * k + n - a.padding) < a.dim_im_in) := by
      rintro ⟨g1, g2, g3, g4⟩
      exact hin ⟨(hr1.1 ⟨g1, g3⟩).1, (hr1.1 ⟨g1, g3⟩).2, (hc1.1 ⟨g2, g4⟩).1, (hc1.1 ⟨g2, g4⟩).2⟩
    simp only []
    rw [if_neg hcond]
    have hz : ∑ l1 in Finset.range l, tapTerm a i j k m n l1 = 0 := by
      apply Finset.sum_eq_zero
      intro l1 _
      unfold tapTerm
      rw [if_neg hin]
    rw [hz, add_zero, wrap32_of_I32 hacc]

/-- Closed form of the accumulator at loop position `(m, n, l)`: the 32-bit value of shifted
bias, rounding constant and the tap contributions added so far. -/
theorem ref_conv_out_at_eq (a : Conv) (hwf : a.WF) (i j k m n l : Nat)
    (hi : i < a.ch_im_out) (hj : j < 2 ^ 16) (hk : k < 2 ^ 16) (hm : m < a.dim_kernel)
    (hn : n < a.dim_kernel) (hl : l ≤ a.ch_im_in) :
    ref_conv_out_at a i j k m n l
      = .ok (wrap32 (a.bias.getD i 0 * 2 ^ a.bias_shift + NN_ROUND a.out_shift
          + sumBefore a i j k m n l)) := by
  have hb : i < a.bias.length := by
    obtain ⟨_, _, _, _, _, _, _, _, _, _, _, hB, _⟩ := hwf
    rw [hB]; exact hi
  unfold ref_conv_out_at
  rw [readAt_nat _ _ _ hb, Run.bind_ok]
  rw [forUp_acc m _
    (fun m1 => ∑ n1 in Finset.range a.dim_kernel, ∑ l1 in Finset.range a.ch_im_in,
      tapTerm a i j k m1 n1 l1) _ _ (wrap32_I32 _), Run.bind_ok]
  · rw [forUp_acc n _ (fun n1 => ∑ l1 in Finset.range a.ch_im_in, tapTerm a i j k m n1 l1) _
      _ (wrap32_I32 _), Run.bind_ok]
    · rw [ref_kernel_col_at_eq a hwf i j k m n l _ hi hj hk hm hn hl (wrap32_I32 _)]
      unfold shl32 sumBefore
      congr 1
      generalize (∑ m1 in Finset.range m, ∑ n1 in Finset.range a.dim_kernel,
        ∑ l1 in Finset.range a.ch_im_in, tapTerm a i j k m1 n1 l1) = S1
      generalize (∑ n1 in Finset.range n, ∑ l1 in Finset.range a.ch_im_in,
        tapTerm a i j k m n1 l1) = S2
      generalize (∑ l1 in Finset.range l, tapTerm a i j k m n l1) = S3
      generalize a.bias.getD i 0 * 2 ^ a.bias_shift = B
      generalize NN_ROUND a.out_shift = R
      unfold wrap32
      omega
    · intro n1 acc' hn1 hacc'
      exact ref_kernel_col_eq a hwf i j k m n1 acc' hi hj hk hm (by omega) hacc'
  · intro m1 acc hm1 hacc
    apply forUp_acc _ _ _ _ _ hacc
    intro n1 acc' hn1 hacc'
    exact ref_kernel_col_eq a hwf i j k m1 n1 acc' hi hj hk (by omega) hn1 hacc'

theorem abs_sumBefore_le (a : Conv) (hwf : a.WF) (i j k m n l : Nat) (hm : m < a.dim_kernel)
    (hn : n < a.dim_kernel) (hl : l ≤ a.ch_im_in) :
    |sumBefore a i j k m n l| ≤ (a.N : Int) * 16384 := by
  have h1 : |∑ m1 in Finset.range m, ∑ n1 in Finset.range a.dim_kernel,
      ∑ l1 in Finset.range a.ch_im_in, tapTerm a i j k m1 n1 l1|
      ≤ m * (a.dim_kernel * (a.ch_im_in * 16384 : Int)) := by
    apply abs_sum_range_le; intro m1 _
    apply abs_sum_range_le; intro n1 _
    apply abs_sum_range_le; intro l1 _
    exact abs_tapTerm_le a hwf i j k m1 n1 l1
  have h2 : |∑ n1 in Finset.range n, ∑ l1 in Finset.range a.ch_im_in, tapTerm a i j k m n1 l1|
      ≤ n * (a.ch_im_in * 16384 : Int) := by
    apply abs_sum_range_le; intro n1 _
    apply abs_sum_range_le; intro l1 _
    exact abs_tapTerm_le a hwf i j k m n1 l1
  have h3 : |∑ l1 in Finset.range l, tapTerm a i j k m n l1| ≤ l * (16384 : Int) := by
    apply abs_sum_range_le; intro l1 _
    exact abs_tapTerm_le a hwf i j k m n l1
  have hcount : m * (a.dim_kernel * a.ch_im_in) + n * a.ch_im_in + l ≤ a.N := by
    have e1 : (m * a.dim_kernel + n) * a.ch_im_in + a.ch_im_in
        ≤ a.dim_kernel * a.dim_kernel * a.ch_im_in := by
      have := flat_lt hm hn
      calc (m * a.dim_kernel + n) * a.ch_im_in + a.ch_im_in
          = (m * a.dim_kernel + n + 1) * a.ch_im_in := by ring
        _ ≤ a.dim_kernel * a.dim_kernel * a.ch_im_in := Nat.mul_le_mul_right _ this
    have e2 : a.dim_kernel * a.dim_kernel * a.ch_im_in = a.N := by unfold Conv.N; ring
    have e3 : (m * a.dim_kernel + n) * a.ch_im_in
        = m * (a.dim_kernel * a.ch_im_in) + n * a.ch_im_in := by ring
    omega
  have hcount' : (m : Int) * (a.dim_kernel * a.ch_im_in) + n * a.ch_im_in + l ≤ a.N := by
    exact_mod_cast hcount
  unfold sumBefore
  have t1 := abs_add (∑ m1 in Finset.range m, ∑ n1 in Finset.range a.dim_kernel,
      ∑ l1 in Finset.range a.ch_im_in, tapTerm a i j k m1 n1 l1
    + ∑ n1 in Finset.range n, ∑ l1 in Finset.range a.ch_im_in, tapTerm a i j k m n1 l1)
    (∑ l1 in Finset.range l, tapTerm a i j k m n l1)
  have t2 := abs_add (∑ m1 in Finset.range m, ∑ n1 in Finset.range a.dim_kernel,
      ∑ l1 in Finset.range a.ch_im_in, tapTerm a i j k m1 n1 l1)
    (∑ n1 in Finset.range n, ∑ l1 in Finset.range a.ch_im_in, tapTerm a i j k m n1 l1)
  nlinarith

/-- Shifted bias, rounding constant and at most `2^15` products of 8-bit values stay
strictly inside the signed 32-bit range. -/
theorem acc_in_range {b S : Int} (hb : IsQ7 b) (bs os : Nat) (hbs : bs ≤ 22) (hos : os ≤ 30)
    (n : Int) (hn : n ≤ 2 ^ 15) (hS : |S| ≤ n * 16384) :
    -2 ^ 31 < b * 2 ^ bs + NN_ROUND os + S ∧ b * 2 ^ bs + NN_ROUND os + S < 2 ^ 31 := by
  have h2 := NN_ROUND_bounds os hos
  have h3 := abs_shift_bias_le hb bs hbs
  rw [abs_le] at hS h3
  constructor <;> linarith [h2.1, h2.2, h3.1, h3.2, hS.1, hS.2]

theorem wrap32_of_strict {x : Int} (h : -2 ^ 31 < x ∧ x < 2 ^ 31) : wrap32 x = x :=
  wrap32_of_I32 ⟨le_of_lt h.1, h.2⟩

/-- Closed form of the left-over accumulator after `r` rounds of four and `s` rounds of one:
`4 * r + s` weights from `pA` on and as many column entries have been consumed. -/
theorem leftover_sum_at_eq (a : Conv) (bufferA : List Int) (i pA r s : Nat)
    (hb : i < a.bias.length) (hW : pA + (4 * r + s) ≤ a.wt.length)
    (hA : 4 * r + s ≤ bufferA.length) :
    leftover_sum_at a bufferA i pA r s
      = .ok ⟨pA + (4 * r + s), 4 * r + s,
          wrap32 (a.bias.getD i 0 * 2 ^ a.bias_shift + NN_ROUND a.out_shift
            + colSum a bufferA pA (4 * r + s))⟩ := by
  have hquad := forUp_chain r (fun _ d => leftover_quad a bufferA d)
    (fun r => (⟨pA + 4 * r, 4 * r,
      wrap32 (a.bias.getD i 0 * 2 ^ a.bias_shift + NN_ROUND a.out_shift
        + ∑ t in Finset.range (4 * r), a.wt.getD (pA + t) 0 * bufferA.getD t 0)⟩ :
      DotState))
    (by
      intro r1 hr
      simp only []
      rw [leftover_quad_eq a bufferA _ _ _ (by omega) (by omega)]
      have e5 : 4 * (r1 + 1) = 4 * r1 + 1 + 1 + 1 + 1 := by ring
      rw [e5, Finset.sum_range_succ, Finset.sum_range_succ, Finset.sum_range_succ,
        Finset.sum_range_succ]
      simp only [add_assoc (wrap32 _), wrap32_add_left]
      congr 2
      simp only [Nat.add_assoc, add_assoc])
  have hsingle := forUp_chain s (fun _ d => leftover_single a bufferA d)
    (fun s1 => (⟨pA + 4 * r + s1, 4 * r + s1,
      wrap32 (a.bias.getD i 0 * 2 ^ a.bias_shift + NN_ROUND a.out_shift
        + ∑ t in Finset.range (4 * r + s1),
            a.wt.getD (pA + t) 0 * bufferA.getD t 0)⟩ : DotState))
    (by
      intro s1 hs
      simp only []
      rw [leftover_single_eq a bufferA _ _ _ (by omega) (by omega), wrap32_add_left]
      simp only [← Nat.add_assoc, Finset.sum_range_succ, ← add_assoc])
  simp only [Nat.mul_zero, Nat.add_zero, Finset.range_zero, Finset.sum_empty, add_zero,
    Nat.cast_ofNat] at hquad hsingle
  unfold leftover_sum_at
  rw [readAt_nat _ _ _ hb, Run.bind_ok]
  have e0 : wrap32 (shl32 (a.bias.getD i 0) a.bias_shift + NN_ROUND a.out_shift)
      = wrap32 (a.bias.getD i 0 * 2 ^ a.bias_shift + NN_ROUND a.out_shift) := by
    unfold shl32; rw [wrap32_add_left]
  rw [e0, hquad, Run.bind_ok, hsingle]
  unfold colSum
  simp only [Nat.add_assoc]

/-- The left-over accumulator of the code is the one after `(N >> 2) mod 2^16` rounds of
four and `(N & 3) mod 2^16` rounds of one. -/
theorem leftover_sum_at_full (a : Conv) (bufferA : List Int) (i pA : Nat) :
    leftover_sum_at a bufferA i pA (((a.ch_im_in * a.dim_kernel * a.dim_kernel) >>> 2) % 2 ^ 16)
      (((a.ch_im_in * a.dim_kernel * a.dim_kernel) &&& 3) % 2 ^ 16)
      = leftover_sum a bufferA i pA := rfl

theorem colSum_succ2 (a : Conv) (bufferA : List Int) (pA t : Nat) :
    colSum a bufferA pA (t + 2) = colSum a bufferA pA t
      + a.wt.getD (pA + t) 0 * bufferA.getD t 0
      + a.wt.getD (pA + t + 1) 0 * bufferA.getD (t + 1) 0 := by
  unfold colSum
  rw [Finset.sum_range_succ, Finset.sum_range_succ]
  rfl

/-- The state after `m` rounds of a loop of `m + n` rounds is a state the loop passes
through: the loop is its first `m` rounds followed by the remaining `n`. -/
theorem forUp_split {σ : Type} (m n : Nat) (body : Nat → σ → Run σ) (s : σ) :
    forUp (m + n) body s = (forUp m body s).bind (forUp n (fun t s => body (m + t) s)) := by
  induction n with
  | zero =>
    rw [Nat.add_zero]
    cases forUp m body s with
    | ok s1 => rfl
    | fault f => rfl
  | succ n ih =>
    rw [← Nat.add_assoc, forUp_succ, ih, Run.bind_assoc]
    congr 1

/-- The last position of the loop nest: with `dim_kernel = K + 1`, the accumulator at
`(K, K, ch_im_in)` is the final accumulator of the pixel. -/
theorem ref_conv_out_at_last (a : Conv) (i j k K : Nat) (hK : a.dim_kernel = K + 1) :
    ref_conv_out_at a i j k K K a.ch_im_in = ref_conv_out a i j k := by
  unfold ref_conv_out_at ref_conv_out
  simp only [hK, forUp_succ, ref_kernel_col_at_full]


/-! ## The left-over column -/

theorem abs_colSum_le_of (a : Conv) (hwf : a.WF) (bufferA : List Int) (pA n : Nat)
    (hA : ∀ t, t < n → IsQ7 (bufferA.getD t 0)) :
    |colSum a bufferA pA n| ≤ (n : Int) * 16384 := by
  unfold colSum
  apply abs_sum_range_le
  intro t ht
  exact abs_mul_q7_le (getD_isQ7 _ hwf.2.2.2.2.2.2.2.2.2.2.2.2.2.1 _) (hA t ht)

/-- Under the stated bounds the left-over accumulator is the exact integer sum, provided the
`N` entries of the column are 8-bit values. -/
theorem leftAcc_exact_of (a : Conv) (hwf : a.WF) (hN : a.N ≤ 2 ^ 15) (hbs : a.bias_shift ≤ 22)
    (hos : a.out_shift ≤ 30) (bufferA : List Int)
    (hA : ∀ t, t < a.N → IsQ7 (bufferA.getD t 0)) (i : Nat) :
    leftAcc a bufferA i
      = a.bias.getD i 0 * 2 ^ a.bias_shift + NN_ROUND a.out_shift
        + colSum a bufferA (i * a.N) a.N := by
  have hc : leftCount a = a.N := leftCount_eq a (by omega)
  have h1 := abs_colSum_le_of a hwf bufferA (i * a.N) a.N hA
  have hb := getD_isQ7 _ hwf.2.2.2.2.2.2.2.2.2.2.2.2.2.2 i
  have h4 : (a.N : Int) ≤ 2 ^ 15 := by exact_mod_cast hN
  unfold leftAcc
  rw [hc]
  exact wrap32_of_strict (acc_in_range hb a.bias_shift a.out_shift hbs hos a.N h4 h1)

/-- The state of the loop over the output channels when channel `i` starts: the weight
pointer has advanced by `leftCount` per channel done, the output pointer by one. -/
theorem leftover_start (a : Conv) (hwf : a.WF) (bufferA : List Int)
    (hA : leftCount a ≤ bufferA.length) (pOut : Nat) (o : OutBuf)
    (ho : pOut + a.ch_im_out ≤ o.data.length) (i : Nat) (hi : i ≤ a.ch_im_out) :
    forUp i (leftover_channel a bufferA) ⟨0, pOut, o⟩
      = .ok ⟨i * leftCount a, pOut + i,
          storeAll ((List.range i).flatMap fun i =>
            [(pOut + i, SSAT (leftAcc a bufferA i >>> a.out_shift) 8)]) o⟩ := by
  have hchain := forUp_chain i (leftover_channel a bufferA)
    (fun i => (⟨i * leftCount a, pOut + i,
      storeAll ((List.range i).flatMap fun i =>
        [(pOut + i, SSAT (leftAcc a bufferA i >>> a.out_shift) 8)]) o⟩ : LeftState))
    (by
      intro k hk
      simp only []
      rw [leftover_channel_eq a hwf bufferA hA k (by omega) pOut _
        (by rw [storeAll_length]; omega), ← storeAll_append, List.range_succ,
        List.flatMap_append]
      simp)
  simp only [Nat.zero_mul, Nat.add_zero, List.range_zero, List.flatMap_nil, storeAll_nil]
    at hchain
  exact hchain

/-- The `uint16_t` count of the loop of four drops the high bits of `N >> 2`: with
`N = 2^18` both loops run zero rounds, and the accumulator of every channel is the shifted
bias plus the rounding constant, whatever the column holds. -/
theorem leftCount_truncated (a : Conv) (h : a.N = 2 ^ 18) (bufferA : List Int) (i : Nat) :
    leftCount a = 0 ∧
    leftAcc a bufferA i = wrap32 (a.bias.getD i 0 * 2 ^ a.bias_shift + NN_ROUND a.out_shift) := by
  have h0 : leftCount a = 0 := by
    unfold leftCount
    rw [h]
    decide
  refine ⟨h0, ?_⟩
  unfold leftAcc colSum
  rw [h0]
  simp

/-- The effect of the `uint16_t` count on a column of `N = 2^18 + 8` entries: the loop of
four runs `(N >> 2) mod 2^16 = 2` rounds and the loop of one none, so each channel consumes 8
weights; the weight pointer is at offset 8 when channel 1 starts, and the code stored for
channel 1 is computed from the weights 8 .. 15 of row 0 and the first 8 entries of the
column. -/
theorem leftover_truncation (a : Conv) (hwf : a.WF) (hN : a.N = 2 ^ 18 + 8)
    (hC : 1 < a.ch_im_out) (st : DspState) (hp : st.pBuffer ≠ 0)
    (hA : 8 ≤ st.bufferA.length) (ho : st.pOut + a.ch_im_out ≤ st.Im_out.data.length) :
    leftCount a = 8 ∧
    ∃ st', dsp_leftover a st = .ok st' ∧
      st'.Im_out.data[st.pOut + 1]?
        = some (SSAT (wrap32 (a.bias.getD 1 0 * 2 ^ a.bias_shift + NN_ROUND a.out_shift
            + ∑ t in Finset.range 8, a.wt.getD (8 + t) 0 * st.bufferA.getD t 0)
            >>> a.out_shift) 8) := by
  have hc : leftCount a = 8 := by
    unfold leftCount
    rw [hN]
    decide
  refine ⟨hc, _, dsp_leftover_eq a hwf st (by rw [hc]; exact hA) hp ho, ?_⟩
  have h := dsp_leftover_get a st.bufferA st.pOut st.Im_out 1 hC ho
  unfold leftAcc colSum at h
  rw [hc] at h
  exact h


/-! ## The whole call: status and dependence on the initial buffers -/

/-- No path of the function returns a status other than success. -/
theorem status_success (flag : Bool) (a : Conv) (fuel : Nat) (Im_out : OutBuf)
    (bufferA bufferB : List Int) (r : CallResult)
    (h : arm_convolve_HWC_q7_basic flag a fuel Im_out bufferA bufferB = .ok r) :
    r.status = .ARM_CMSIS_NN_SUCCESS := by
  unfold arm_convolve_HWC_q7_basic at h
  cases flag
  · simp only [Bool.false_eq_true, if_false] at h
    cases hr : arm_convolve_HWC_q7_basic_ref a Im_out with
    | ok o => rw [hr, Run.bind_ok] at h; cases h; rfl
    | fault f => rw [hr, Run.bind_fault] at h; cases h
  · simp only [if_true] at h
    cases hr : arm_convolve_HWC_q7_basic_dsp a fuel bufferA Im_out with
    | ok o => rw [hr, Run.bind_ok] at h; cases h; rfl
    | fault f => rw [hr, Run.bind_fault] at h; cases h

/-- The reference body returns the success status on all well-formed arguments, whether or
not `dim_im_out` is consistent with the rest of the geometry. -/
theorem ref_returns (a : Conv) (hwf : a.WF) (fuel : Nat) (Im_out : OutBuf)
    (hlen : a.dim_im_out * a.dim_im_out * a.ch_im_out ≤ Im_out.data.length)
    (bufferA bufferB : List Int) :
    arm_convolve_HWC_q7_basic false a fuel Im_out bufferA bufferB
      = .ok ⟨storeAll (refStores a) Im_out, bufferA, bufferB, .ARM_CMSIS_NN_SUCCESS⟩ := by
  unfold arm_convolve_HWC_q7_basic
  simp only [Bool.false_eq_true, if_false]
  rw [ref_run a hwf Im_out hlen, Run.bind_ok]

/-- The DSP body returns the success status on well-formed arguments whose geometry fits the
`int16_t` counters, given enough fuel. -/
theorem dsp_returns (a : Conv) (hwf : a.WF) (hf : a.Fits16) (hN : 1 ≤ a.N) (hN' : a.N < 2 ^ 18)
    (fuel : Nat) (hfK : a.dim_kernel < fuel) (hfD : a.dim_im_out < fuel)
    (bufferA : List Int) (hbl : 2 * a.N ≤ bufferA.length) (Im_out : OutBuf)
    (hout : a.dim_im_out * a.dim_im_out * a.ch_im_out ≤ Im_out.data.length)
    (bufferB : List Int) :
    ∃ r, arm_convolve_HWC_q7_basic true a fuel Im_out bufferA bufferB = .ok r
      ∧ r.status = .ARM_CMSIS_NN_SUCCESS ∧ r.bufferB = bufferB
      ∧ r.Im_out.data.length = Im_out.data.length
      ∧ (∀ q i, q < a.dim_im_out * a.dim_im_out → i < a.ch_im_out →
          r.Im_out.data[q * a.ch_im_out + i]? = some (pixValue a q i))
      ∧ (∀ idx, a.dim_im_out * a.dim_im_out * a.ch_im_out ≤ idx →
          r.Im_out.data[idx]? = Im_out.data[idx]?) := by
  obtain ⟨st, hrun, h1, h2, h3⟩ := dsp_run a hwf hf hN hN' fuel hfK hfD bufferA hbl Im_out hout
  refine ⟨⟨st.Im_out, st.bufferA, bufferB, .ARM_CMSIS_NN_SUCCESS⟩, ?_, rfl, rfl, h1, h2, h3⟩
  unfold arm_convolve_HWC_q7_basic
  simp only [if_true]
  rw [hrun, Run.bind_ok]

/-- Every cell of the output tensor of the reference body holds the code of its pixel and
channel, whatever the output buffer held before. -/
theorem ref_cell (a : Conv) (o : OutBuf)
    (ho : a.dim_im_out * a.dim_im_out * a.ch_im_out ≤ o.data.length) (q i : Nat)
    (hq : q < a.dim_im_out * a.dim_im_out) (hi : i < a.ch_im_out) :
    (storeAll (refStores a) o).data[q * a.ch_im_out + i]? = some (pixValue a q i) := by
  have hD : 0 < a.dim_im_out := by
    rcases Nat.eq_zero_or_pos a.dim_im_out with h0 | h0
    · rw [h0] at hq; simp at hq
    · exact h0
  have hj : q / a.dim_im_out < a.dim_im_out := (Nat.div_lt_iff_lt_mul hD).2 hq
  have hk : q % a.dim_im_out < a.dim_im_out := Nat.mod_lt _ hD
  have h := ref_run_get a o i (q / a.dim_im_out) (q % a.dim_im_out) hi hj hk ho
  unfold outIndex at h
  rw [Nat.div_add_mod' q a.dim_im_out, Nat.add_comm] at h
  exact h

/-- The output tensor of the reference body is a function of input, weights, bias, geometry
and shifts alone. -/
theorem ref_output_function (a : Conv) (hwf : a.WF) (fuel fuel' : Nat)
    (Im_out Im_out' : OutBuf)
    (hlen : a.dim_im_out * a.dim_im_out * a.ch_im_out ≤ Im_out.data.length)
    (hlen' : a.dim_im_out * a.dim_im_out * a.ch_im_out ≤ Im_out'.data.length)
    (bufferA bufferA' bufferB bufferB' : List Int) :
    ∃ r r', arm_convolve_HWC_q7_basic false a fuel Im_out bufferA bufferB = .ok r
      ∧ arm_convolve_HWC_q7_basic false a fuel' Im_out' bufferA' bufferB' = .ok r'
      ∧ ∀ q i, q < a.dim_im_out * a.dim_im_out → i < a.ch_im_out →
          r.Im_out.data[q * a.ch_im_out + i]? = r'.Im_out.data[q * a.ch_im_out + i]? := by
  refine ⟨_, _, ref_returns a hwf fuel Im_out hlen bufferA bufferB,
    ref_returns a hwf fuel' Im_out' hlen' bufferA' bufferB', ?_⟩
  intro q i hq hi
  show (storeAll (refStores a) Im_out).data[_]? = (storeAll (refStores a) Im_out').data[_]?
  rw [ref_cell a Im_out hlen q i hq hi, ref_cell a Im_out' hlen' q i hq hi]

/-- On a geometry that fits the `int16_t` counters, the output tensor of the DSP body is a
function of input, weights, bias, geometry and shifts alone: it does not depend on what the
output buffer, `bufferA` and `bufferB` held before, so every slot of `bufferA` that is read
was written earlier in the same call. -/
theorem dsp_output_function (a : Conv) (hwf : a.WF) (hf : a.Fits16) (hN : 1 ≤ a.N)
    (hN' : a.N < 2 ^ 18) (fuel fuel' : Nat) (hfK : a.dim_kernel < fuel)
    (hfD : a.dim_im_out < fuel) (hfK' : a.dim_kernel < fuel') (hfD' : a.dim_im_out < fuel')
    (Im_out Im_out' : OutBuf)
    (hlen : a.dim_im_out * a.dim_im_out * a.ch_im_out ≤ Im_out.data.length)
    (hlen' : a.dim_im_out * a.dim_im_out * a.ch_im_out ≤ Im_out'.data.length)
    (bufferA bufferA' : List Int) (hbl : 2 * a.N ≤ bufferA.length)
    (hbl' : 2 * a.N ≤ bufferA'.length) (bufferB bufferB' : List Int) :
    ∃ r r', arm_convolve_HWC_q7_basic true a fuel Im_out bufferA bufferB = .ok r
      ∧ arm_convolve_HWC_q7_basic true a fuel' Im_out' bufferA' bufferB' = .ok r'
      ∧ ∀ q i, q < a.dim_im_out * a.dim_im_out → i < a.ch_im_out →
          r.Im_out.data[q * a.ch_im_out + i]? = r'.Im_out.data[q * a.ch_im_out + i]? := by
  obtain ⟨r, hr, _, _, _, h2, _⟩ :=
    dsp_returns a hwf hf hN hN' fuel hfK hfD bufferA hbl Im_out hlen bufferB
  obtain ⟨r', hr', _, _, _, h2', _⟩ :=
    dsp_returns a hwf hf hN hN' fuel' hfK' hfD' bufferA' hbl' Im_out' hlen' bufferB'
  refine ⟨r, r', hr, hr', ?_⟩
  intro q i hq hi
  rw [h2 q i hq hi, h2' q i hq hi]


/-! ## The im2col column and the batching of the columns in pairs -/

/-- On a geometry that fits the `int16_t` counters, the im2col of output pixel `(y, x)`
writes the `N` slots from `pBuffer` on and nothing else: slot
`(ky * dim_kernel + kx) * ch_im_in + c` receives `Im_in[(r * dim_im_in + q) * ch_im_in + c]`
(the 8-bit value itself, as a 16-bit value) when `r = y * stride - padding + ky` and
`q = x * stride - padding + kx` lie in `[0, dim_im_in)`, and 0 otherwise; the offset of a slot
is the offset of the weight it meets inside row `i` of the weights. -/
theorem dsp_im2col_column (a : Conv) (hwf : a.WF) (hf : a.Fits16) (fuel : Nat)
    (hfuel : a.dim_kernel < fuel) (y x : Nat) (hy : y < a.dim_im_out) (hx : x < a.dim_im_out)
    (st : DspState) (hroom : st.pBuffer + a.N ≤ st.bufferA.length) :
    ∃ st', dsp_im2col a fuel y x st = .ok st' ∧ st'.pBuffer = st.pBuffer + a.N ∧
      st'.pOut = st.pOut ∧ st'.Im_out = st.Im_out ∧
      st'.bufferA.length = st.bufferA.length ∧
      (∀ ky kx c, ky < a.dim_kernel → kx < a.dim_kernel → c < a.ch_im_in →
        st'.bufferA.getD (st.pBuffer + ((ky * a.dim_kernel + kx) * a.ch_im_in + c)) 0
          = (if 0 ≤ coord a y ky ∧ coord a y ky < a.dim_im_in ∧ 0 ≤ coord a x kx
                ∧ coord a x kx < a.dim_im_in
              then a.Im_in.getD
                ((coord a y ky * a.dim_im_in + coord a x kx) * a.ch_im_in + c).toNat 0
              else 0)
        ∧ ∀ i, i * a.ch_im_in * a.dim_kernel * a.dim_kernel
              + (ky * a.dim_kernel + kx) * a.ch_im_in + c
            = i * a.N + ((ky * a.dim_kernel + kx) * a.ch_im_in + c)) ∧
      (∀ t, t < st.pBuffer ∨ st.pBuffer + a.N ≤ t →
        st'.bufferA.getD t 0 = st.bufferA.getD t 0) := by
  have happ := dsp_im2col_appends a hwf hf fuel hfuel y x hy hx st
    (by rw [colList_length]; exact hroom)
  rw [colList_length] at happ
  refine ⟨_, happ, rfl, rfl, rfl, blit_length _ _ _, ?_, ?_⟩
  · intro ky kx c hky hkx hc
    have hlt := tap_offset_lt a ky kx c hky hkx hc
    refine ⟨?_, fun i => by unfold Conv.N; ring⟩
    show (blit st.bufferA st.pBuffer (colList a y x)).getD _ 0 = _
    rw [blit_getD _ _ _ _ (by omega), colList_length, if_pos (by omega), Nat.add_sub_cancel_left,
      colList_getD a y x ky kx c hky hkx hc]
  · intro t ht
    show (blit st.bufferA st.pBuffer (colList a y x)).getD _ 0 = _
    by_cases hlen : t < st.bufferA.length
    · rw [blit_getD _ _ _ _ hlen, colList_length, if_neg (by omega)]
    · rw [List.getD_eq_getElem?_getD, List.getD_eq_getElem?_getD,
        List.getElem?_eq_none (by rw [blit_length]; omega), List.getElem?_eq_none (by omega)]

/-- Scanning in row-major order on a geometry that fits the counters: at a pixel of even
index the column goes to `bufferA[0 .. N)` and the fused kernel is not called (output and
`pOut` unchanged); at a pixel of odd index `p` the column goes to `bufferA[N .. 2N)` and the
fused kernel is called once, on the columns of pixels `p - 1` and `p` in that order, with
`pOut` at pixel `p - 1`. -/
theorem dsp_pixel_batching (a : Conv) (hwf : a.WF) (hf : a.Fits16) (hN : 1 ≤ a.N) (fuel : Nat)
    (hfuel : a.dim_kernel < fuel) (bufLen : Nat) (hbl : 2 * a.N ≤ bufLen) (out0 : OutBuf)
    (y x : Nat) (hy : y < a.dim_im_out) (hx : x < a.dim_im_out) (st : DspState)
    (hinv : ScanInv a bufLen out0 (y * a.dim_im_out + x) st) :
    ((y * a.dim_im_out + x) % 2 = 0 →
      dsp_pixel a fuel y x st
        = .ok { st with bufferA := blit st.bufferA 0 (colList a y x), pBuffer := a.N }) ∧
    ((y * a.dim_im_out + x) % 2 = 1 →
      dsp_pixel a fuel y x st
        = (arm_nn_mat_mult_kernel_q7_q15 a (blit st.bufferA a.N (colList a y x)) st.pOut
            st.Im_out).bind (fun out =>
              .ok ⟨blit st.bufferA a.N (colList a y x), 0, st.pOut + 2 * a.ch_im_out, out⟩)
      ∧ st.pOut = (y * a.dim_im_out + x - 1) * a.ch_im_out
      ∧ (∀ t, t < a.N →
          (blit st.bufferA a.N (colList a y x)).getD t 0
            = (colList a ((y * a.dim_im_out + x - 1) / a.dim_im_out)
                ((y * a.dim_im_out + x - 1) % a.dim_im_out)).getD t 0)
      ∧ (∀ t, t < a.N →
          (blit st.bufferA a.N (colList a y x)).getD (a.N + t) 0
            = (colList a y x).getD t 0)) := by
  obtain ⟨hL, hM, hpB, hpO, hcol, hdone, hframe⟩ := hinv
  have happ := dsp_im2col_appends a hwf hf fuel hfuel y x hy hx st
    (by rw [colList_length, hpB, hL]
        rcases Nat.mod_two_eq_zero_or_one (y * a.dim_im_out + x) with h | h <;> rw [h] <;> omega)
  rw [colList_length] at happ
  constructor
  · intro hpar
    rw [hpar] at hpB
    unfold dsp_pixel
    rw [happ, Run.bind_ok, two_N]
    simp only []
    rw [if_neg (by rw [hpB]; omega), hpB]
    simp
  · intro hpar
    rw [hpar] at hpB hpO
    have hpB' : st.pBuffer = a.N := by rw [hpB]; omega
    refine ⟨?_, hpO, ?_, ?_⟩
    · unfold dsp_pixel
      rw [happ, Run.bind_ok, two_N]
      simp only []
      rw [if_pos (by rw [hpB']; omega), hpB']
    · intro t ht
      rw [blit_getD _ _ _ _ (by omega), if_neg (by omega)]
      exact hcol hpar t ht
    · intro t ht
      rw [blit_getD _ _ _ _ (by omega), colList_length, if_pos (by omega),
        Nat.add_sub_cancel_left]

/-- After the scan of all `dim_im_out^2` pixels on a geometry that fits the counters: the
fused kernel has consumed `2 * floor (dim_im_out^2 / 2)` pixels, the left-over branch is
taken if and only if `dim_im_out` is odd, and then `bufferA[0 .. N)` holds the column of the
last pixel `(dim_im_out - 1, dim_im_out - 1)`. -/
theorem dsp_scan_end (a : Conv) (hwf : a.WF) (hf : a.Fits16) (hN : 1 ≤ a.N) (fuel : Nat)
    (hfK : a.dim_kernel < fuel) (hfD : a.dim_im_out < fuel) (bufferA : List Int)
    (hbl : 2 * a.N ≤ bufferA.length) (out0 : OutBuf)
    (hout : a.dim_im_out * a.dim_im_out * a.ch_im_out ≤ out0.data.length) :
    ∃ st, dsp_scan a fuel ⟨bufferA, 0, 0, out0⟩ = .ok st
      ∧ st.pOut = 2 * (a.dim_im_out * a.dim_im_out / 2) * a.ch_im_out
      ∧ (st.pBuffer ≠ 0 ↔ a.dim_im_out * a.dim_im_out % 2 = 1)
      ∧ (a.dim_im_out * a.dim_im_out % 2 = 1 ↔ a.dim_im_out % 2 = 1)
      ∧ (st.pBuffer ≠ 0 → ∀ t, t < a.N →
          st.bufferA.getD t 0 = (colList a (a.dim_im_out - 1) (a.dim_im_out - 1)).getD t 0) := by
  obtain ⟨st, hscan, hL, hM, hpB, hpO, hcol, hdone, hframe⟩ :=
    dsp_scan_inv a hwf hf hN fuel hfK hfD bufferA hbl out0 hout
  have hodd : a.dim_im_out * a.dim_im_out % 2 = 1 ↔ a.dim_im_out % 2 = 1 := by
    rw [Nat.mul_mod]
    rcases Nat.mod_two_eq_zero_or_one a.dim_im_out with h | h <;> rw [h]
  have hiff : st.pBuffer ≠ 0 ↔ a.dim_im_out * a.dim_im_out % 2 = 1 := by
    rw [hpB]
    rcases Nat.mod_two_eq_zero_or_one (a.dim_im_out * a.dim_im_out) with h | h <;> rw [h]
    · simp
    · simp; omega
  refine ⟨st, hscan, ?_, hiff, hodd, ?_⟩
  · rw [hpO]
    congr 1
    omega
  · intro hne t ht
    have hpar := hiff.1 hne
    have hDodd := hodd.1 hpar
    have hD : 1 ≤ a.dim_im_out := by omega
    have h := hcol hpar t ht
    have e : a.dim_im_out * a.dim_im_out - 1
        = (a.dim_im_out - 1) * a.dim_im_out + (a.dim_im_out - 1) := by
      have : a.dim_im_out * a.dim_im_out = (a.dim_im_out - 1 + 1) * a.dim_im_out := by
        rw [Nat.sub_add_cancel hD]
      rw [this, Nat.add_mul]
      omega
    obtain ⟨d1, d2⟩ := pix_decode a (a.dim_im_out - 1) (a.dim_im_out - 1) (by omega)
    rw [e, d1, d2] at h
    exact h


/-! ## A geometry on which a kernel-loop counter of the DSP path wraps -/

theorem for16_succ {σ : Type} (hi : Int) (body : Int → σ → Run σ) (fuel : Nat) (c : Int)
    (s : σ) :
    for16 hi body (fuel + 1) c s
      = if c < hi then (body c s).bind (for16 hi body fuel (wrap16 (c + 1))) else .ok s := rfl

/-- A loop of one round from counter 0, with fuel for two tests. -/
theorem for16_one {σ : Type} (body : Int → σ → Run σ) (fuel : Nat) (s : σ) :
    for16 1 body (fuel + 2) 0 s = body 0 s := by
  rw [for16_succ, if_pos (by norm_num)]
  have h : wrap16 (0 + 1) = 1 := by decide
  rw [h]
  cases body 0 s with
  | ok s1 => rw [Run.bind_ok, for16_succ, if_neg (by norm_num)]
  | fault f => rfl

theorem padded_Im_in (a : Conv) : (padded a).Im_in = zeroPad a := rfl

/-- With one input channel, a 1x1 kernel, padding 0, stride 32767, `dim_im_out = 2` and an
input of side above 32767, the DSP path does not return: at output pixel `(0, 1)` the counter
`i_ker_x` starts at 32767 with bound 32768, wraps to -32768 after its first round and goes
on; the second round writes at offset 2 of a working buffer of `2 * N = 2` slots. -/
theorem dsp_counter_wraps (xs : List Int) (d : Nat) (hd : 32767 < d) (hlen : 32767 < xs.length)
    (w b : Int) (C bs os : Nat) (b0 b1 : Int) (out : OutBuf) (fuel : Nat) :
    arm_convolve_HWC_q7_basic_dsp
      { Im_in := xs, dim_im_in := d, ch_im_in := 1, wt := [w], ch_im_out := C, dim_kernel := 1,
        padding := 0, stride := 32767, bias := [b], bias_shift := bs, out_shift := os,
        dim_im_out := 2 } (fuel + 3) [b0, b1] out = .fault .bufferA := by
  have hd' : (32767 : Int) < d := by exact_mod_cast hd
  have r0 : readAt .Im_in xs 0 = .ok (xs.getD 0 0) := readAt_nat _ _ 0 (by omega)
  have r1 : readAt .Im_in xs 32767 = .ok (xs.getD 32767 0) := readAt_nat _ _ 32767 hlen
  have w1 : wrap16 1 = 1 := by decide
  have w2 : wrap16 32767 = 32767 := by decide
  have w3 : wrap16 (32767 + 1) = -32768 := by decide
  have w0 : wrap16 0 = 0 := by decide
  unfold arm_convolve_HWC_q7_basic_dsp dsp_scan
  simp only [Nat.cast_ofNat]
  rw [for16_succ, if_pos (by norm_num), for16_succ, if_pos (by norm_num)]
  -- pixel (0, 0)
  have p00 : dsp_pixel
      { Im_in := xs, dim_im_in := d, ch_im_in := 1, wt := [w], ch_im_out := C, dim_kernel := 1,
        padding := 0, stride := 32767, bias := [b], bias_shift := bs, out_shift := os,
        dim_im_out := 2 } (fuel + 3) 0 0 ⟨[b0, b1], 0, 0, out⟩
      = .ok ⟨[xs.getD 0 0, b1], 1, 0, out⟩ := by
    unfold dsp_pixel dsp_im2col
    simp only [Nat.cast_ofNat, Nat.cast_one, Nat.cast_zero, zero_mul, sub_zero, zero_add, w0]
    rw [for16_one, for16_one]
    unfold dsp_im2col_tap arm_q7_to_q15_no_shift
    simp only [Nat.cast_zero, zero_mul, add_zero, mul_one, lt_self_iff_false, false_or, ge_iff_le]
    rw [if_neg (by omega)]
    simp [forUp, r0, writeA]
  rw [p00, Run.bind_ok, zero_add, w1, for16_succ, if_pos (by norm_num)]
  -- pixel (0, 1)
  have p01 : dsp_pixel
      { Im_in := xs, dim_im_in := d, ch_im_in := 1, wt := [w], ch_im_out := C, dim_kernel := 1,
        padding := 0, stride := 32767, bias := [b], bias_shift := bs, out_shift := os,
        dim_im_out := 2 } (fuel + 3) 0 1 ⟨[xs.getD 0 0, b1], 1, 0, out⟩
      = .fault .bufferA := by
    unfold dsp_pixel dsp_im2col
    simp only [Nat.cast_ofNat, Nat.cast_one, Nat.cast_zero, zero_mul, sub_zero, zero_add, w0,
      one_mul, w2]
    rw [for16_one]
    have e : (32767 : Int) + 1 = 32768 := by norm_num
    rw [e, for16_succ, if_pos (by norm_num)]
    have t1 : dsp_im2col_tap
        { Im_in := xs, dim_im_in := d, ch_im_in := 1, wt := [w], ch_im_out := C,
          dim_kernel := 1, padding := 0, stride := 32767, bias := [b], bias_shift := bs,
          out_shift := os, dim_im_out := 2 }
        0 32767 ⟨[xs.getD 0 0, b1], 1, 0, out⟩
        = .ok ⟨[xs.getD 0 0, xs.getD 32767 0], 2, 0, out⟩ := by
      unfold dsp_im2col_tap arm_q7_to_q15_no_shift
      simp only [Nat.cast_zero, zero_mul, zero_add, mul_one, lt_self_iff_false, false_or,
        ge_iff_le]
      rw [if_neg (by omega)]
      simp [forUp, r1, writeA]
    have t2 : dsp_im2col_tap
        { Im_in := xs, dim_im_in := d, ch_im_in := 1, wt := [w], ch_im_out := C,
          dim_kernel := 1, padding := 0, stride := 32767, bias := [b], bias_shift := bs,
          out_shift := os, dim_im_out := 2 }
        0 (-32768) ⟨[xs.getD 0 0, xs.getD 32767 0], 2, 0, out⟩
        = .fault .bufferA := by
      unfold dsp_im2col_tap memset_q15
      rw [if_pos (by norm_num)]
      simp [forUp, writeA]
    rw [t1, Run.bind_ok, w3, for16_succ, if_pos (by norm_num), t2]
    rfl
  rw [p01]
  rfl


/-! ## Zero padding as an equation, where the counters of the DSP path fit -/

/-- A receptive-field tap outside `[0, dim_im_in)` contributes exactly 0: on the
reference path it leaves the accumulator unchanged, on the DSP path the im2col writes
`ch_im_in` zeros for it.  As an equation: on well-formed arguments the convolution of `Im_in`
with padding `p` gives the same output tensor as the convolution, with padding 0, of the input
of side `dim_im_in + 2p` that surrounds `Im_in` with `p` rows and columns of zeros (same
weights, bias, stride, shifts and `dim_im_out`); on the reference path always, on the DSP
path whenever both geometries fit its `int16_t` counters. -/
theorem zero_padding_equiv (a : Conv) (hwf : a.WF)
    (hdim : a.dim_im_in + 2 * a.padding < 2 ^ 16) (Im_out : OutBuf)
    (hlen : a.dim_im_out * a.dim_im_out * a.ch_im_out ≤ Im_out.data.length) :
    (∀ i j k m n acc, i < a.ch_im_out → j < a.dim_im_out → k < a.dim_im_out →
      m < a.dim_kernel → n < a.dim_kernel → I32 acc →
      ¬ (0 ≤ coord a j m ∧ coord a j m < a.dim_im_in
          ∧ 0 ≤ coord a k n ∧ coord a k n < a.dim_im_in) →
      ref_kernel_col a i j k m n acc = .ok acc) ∧
    (∀ (r c : Int) (st : DspState), (r < 0 ∨ r ≥ a.dim_im_in ∨ c < 0 ∨ c ≥ a.dim_im_in) →
      st.pBuffer + a.ch_im_in ≤ st.bufferA.length →
      dsp_im2col_tap a r c st = .ok { st with
        bufferA := blit st.bufferA st.pBuffer (List.replicate a.ch_im_in 0),
        pBuffer := st.pBuffer + a.ch_im_in }) ∧
    (∃ o, arm_convolve_HWC_q7_basic_ref a Im_out = .ok o ∧
      arm_convolve_HWC_q7_basic_ref (padded a) Im_out = .ok o) ∧
    (∀ (fuel : Nat) (bufferA bufferA' : List Int), (padded a).Fits16 → a.padding ≤ 32768 →
      1 ≤ a.N → a.N < 2 ^ 18 → a.dim_kernel < fuel → a.dim_im_out < fuel →
      2 * a.N ≤ bufferA.length → 2 * a.N ≤ bufferA'.length →
      ∃ st st', arm_convolve_HWC_q7_basic_dsp a fuel bufferA Im_out = .ok st ∧
        arm_convolve_HWC_q7_basic_dsp (padded a) fuel bufferA' Im_out = .ok st' ∧
        st.Im_out.data = st'.Im_out.data) := by
  have hD : a.dim_im_out < 2 ^ 16 := hwf.2.2.2.2.2.2.2.2.1
  have hwf' := padded_WF a hwf hdim
  have href : arm_convolve_HWC_q7_basic_ref (padded a) Im_out
      = arm_convolve_HWC_q7_basic_ref a Im_out := by
    rw [ref_run (padded a) hwf' Im_out hlen, refStores_padded, ref_run a hwf Im_out hlen]
  refine ⟨?_, ?_, ?_, ?_⟩
  · intro i j k m n acc hi hj hk hm hn hacc hout
    rw [ref_kernel_col_eq a hwf i j k m n acc hi (by omega) (by omega) hm hn hacc]
    have hz : ∑ l in Finset.range a.ch_im_in, tapTerm a i j k m n l = 0 := by
      apply Finset.sum_eq_zero
      intro l _
      unfold tapTerm
      rw [if_neg hout]
    rw [hz, add_zero, wrap32_of_I32 hacc]
  · intro r c st hout hroom
    have h := dsp_im2col_tap_appends a hwf r c st (by rw [tapEntries_length]; exact hroom)
    rw [tapEntries_length, tapEntries_out a r c hout] at h
    exact h
  · exact ⟨_, ref_run a hwf Im_out hlen, by rw [href, ref_run a hwf Im_out hlen]⟩
  · intro fuel bufferA bufferA' hfit hp hN hN' hfK hfD hA hA'
    obtain ⟨st, o, h1, h2, h3⟩ := dsp_eq_ref a hwf (padded_Fits16 a hfit hp) hN hN' fuel
      hfK hfD bufferA hA Im_out hlen
    obtain ⟨st', o', h1', h2', h3'⟩ := dsp_eq_ref (padded a) hwf' hfit hN hN' fuel
      hfK hfD bufferA' hA' Im_out hlen
    refine ⟨st, st', h1, h1', ?_⟩
    rw [href, h2] at h2'
    injection h2' with h4
    rw [h3, h3', h4]

/-- The equation of zero padding at `sample_args`, whose padding is 1. -/
theorem zero_padding_equiv_sample :
    sample_args.WF ∧ sample_args.dim_im_in + 2 * sample_args.padding < 2 ^ 16 ∧
    sample_args.dim_im_out * sample_args.dim_im_out * sample_args.ch_im_out
      ≤ (OutBuf.mk (List.replicate 18 0) []).data.length ∧
    ((∀ i j k m n acc, i < sample_args.ch_im_out → j < sample_args.dim_im_out →
      k < sample_args.dim_im_out → m < sample_args.dim_kernel → n < sample_args.dim_kernel →
      I32 acc →
      ¬ (0 ≤ coord sample_args j m ∧ coord sample_args j m < sample_args.dim_im_in
          ∧ 0 ≤ coord sample_args k n ∧ coord sample_args k n < sample_args.dim_im_in) →
      ref_kernel_col sample_args i j k m n acc = .ok acc) ∧
    (∀ (r c : Int) (st : DspState),
      (r < 0 ∨ r ≥ sample_args.dim_im_in ∨ c < 0 ∨ c ≥ sample_args.dim_im_in) →
      st.pBuffer + sample_args.ch_im_in ≤ st.bufferA.length →
      dsp_im2col_tap sample_args r c st = .ok { st with
        bufferA := blit st.bufferA st.pBuffer (List.replicate sample_args.ch_im_in 0),
        pBuffer := st.pBuffer + sample_args.ch_im_in }) ∧
    (∃ o, arm_convolve_HWC_q7_basic_ref sample_args ⟨List.replicate 18 0, []⟩ = .ok o ∧
      arm_convolve_HWC_q7_basic_ref (padded sample_args) ⟨List.replicate 18 0, []⟩ = .ok o) ∧
    (∀ (fuel : Nat) (bufferA bufferA' : List Int), (padded sample_args).Fits16 →
      sample_args.padding ≤ 32768 →
      1 ≤ sample_args.N → sample_args.N < 2 ^ 18 → sample_args.dim_kernel < fuel →
      sample_args.dim_im_out < fuel →
      2 * sample_args.N ≤ bufferA.length → 2 * sample_args.N ≤ bufferA'.length →
      ∃ st st', arm_convolve_HWC_q7_basic_dsp sample_args fuel bufferA
          ⟨List.replicate 18 0, []⟩ = .ok st ∧
        arm_convolve_HWC_q7_basic_dsp (padded sample_args) fuel bufferA'
          ⟨List.replicate 18 0, []⟩ = .ok st' ∧
        st.Im_out.data = st'.Im_out.data)) :=
  ⟨by decide, by decide, by decide,
    zero_padding_equiv sample_args (by decide) (by decide) ⟨List.replicate 18 0, []⟩ (by decide)⟩

/-! # The claims -/

/-- C1, as stated, fails: with bias 64 and `bias_shift = 25` the shifted bias is `2 ^ 31`,
which the 32-bit accumulator holds as `-2 ^ 31`; the stored code is -128, while the formula
of the claim gives `sat8 (2 ^ 31 + 0 + 1) = 127`. -/
theorem C1_counterexample :
    c1_args.WF ∧
    arm_convolve_HWC_q7_basic_ref c1_args ⟨[0], []⟩ = .ok ⟨[-128], [0]⟩ ∧
    sat8 ((c1_args.bias.getD 0 0 * 2 ^ c1_args.bias_shift + NN_ROUND c1_args.out_shift
      + convSum c1_args 0 0 0) / 2 ^ c1_args.out_shift) = 127 := by
  refine ⟨by decide, by decide, ?_⟩
  simp [convSum, tapTerm, coord, c1_args, NN_ROUND, sat8, Finset.sum_range_succ]

/-- C1 (amended): on well-formed arguments with `ch_im_in * dim_kernel^2 ≤ 2^15`,
`bias_shift ≤ 22` and `out_shift ≤ 30` the reference path runs to completion and, for every
output channel `i` and output pixel `(j, k)`, the cell `Im_out[i + (j*dim_im_out + k)*ch_im_out]`
holds `sat8 (floor ((bias[i] * 2^bias_shift + R + S) / 2^out_shift))`, `R` the rounding
constant and `S = convSum` the sum of the in-bounds tap products. -/
theorem C1_reference_value (a : Conv) (hwf : a.WF) (hN : a.N ≤ 2 ^ 15)
    (hbs : a.bias_shift ≤ 22) (hos : a.out_shift ≤ 30) (Im_out : OutBuf)
    (hlen : a.dim_im_out * a.dim_im_out * a.ch_im_out ≤ Im_out.data.length) :
    ∃ o, arm_convolve_HWC_q7_basic_ref a Im_out = .ok o ∧
      ∀ i j k, i < a.ch_im_out → j < a.dim_im_out → k < a.dim_im_out →
        o.data[i + (j * a.dim_im_out + k) * a.ch_im_out]?
          = some (sat8 ((a.bias.getD i 0 * 2 ^ a.bias_shift + NN_ROUND a.out_shift
              + convSum a i j k) / 2 ^ a.out_shift)) := by
  refine ⟨_, ref_run a hwf Im_out hlen, ?_⟩
  intro i j k hi hj hk
  rw [← outValue_exact a hwf hN hbs hos]
  exact ref_run_get a Im_out i j k hi hj hk hlen

/-- C1 (amended) at `sample_args`. -/
theorem C1_reference_value_witness :
    sample_args.WF ∧ sample_args.N ≤ 2 ^ 15 ∧ sample_args.bias_shift ≤ 22
    ∧ sample_args.out_shift ≤ 30
    ∧ ∃ o, arm_convolve_HWC_q7_basic_ref sample_args ⟨List.replicate 18 0, []⟩ = .ok o ∧
      ∀ i j k, i < sample_args.ch_im_out → j < sample_args.dim_im_out →
        k < sample_args.dim_im_out →
        o.data[i + (j * sample_args.dim_im_out + k) * sample_args.ch_im_out]?
          = some (sat8 ((sample_args.bias.getD i 0 * 2 ^ sample_args.bias_shift
              + NN_ROUND sample_args.out_shift + convSum sample_args i j k)
              / 2 ^ sample_args.out_shift)) :=
  ⟨by decide, by decide, by decide, by decide,
    C1_reference_value sample_args (by decide) (by decide) (by decide) (by decide)
      ⟨List.replicate 18 0, []⟩ (by decide)⟩

/-- C3: every code the reference path stores, and every code the left-over loop of the DSP
path stores, is the accumulator after the right shift saturated to signed 8 bits: exactly
127 above 127, exactly -128 below -128, the shifted accumulator itself otherwise; so every
output code lies in `[-128, 127]` and no out-of-range value is stored as its low byte. -/
theorem C3_saturation (a : Conv) (hwf : a.WF) :
    (∀ Im_out : OutBuf,
      a.dim_im_out * a.dim_im_out * a.ch_im_out ≤ Im_out.data.length →
      ∃ o, arm_convolve_HWC_q7_basic_ref a Im_out = .ok o ∧
        ∀ i j k, i < a.ch_im_out → j < a.dim_im_out → k < a.dim_im_out →
          ∃ conv_out code, ref_conv_out a i j k = .ok conv_out
            ∧ o.data[i + (j * a.dim_im_out + k) * a.ch_im_out]? = some code
            ∧ Saturates (conv_out >>> a.out_shift) code)
    ∧ (∀ st : DspState, st.pBuffer ≠ 0 → leftCount a ≤ st.bufferA.length →
      st.pOut + a.ch_im_out ≤ st.Im_out.data.length →
      ∃ st', dsp_leftover a st = .ok st' ∧
        ∀ i, i < a.ch_im_out →
          ∃ d code, leftover_sum a st.bufferA i (i * leftCount a) = .ok d
            ∧ st'.Im_out.data[st.pOut + i]? = some code
            ∧ Saturates (d.sum >>> a.out_shift) code) := by
  have hD : a.dim_im_out < 2 ^ 16 := hwf.2.2.2.2.2.2.2.2.1
  constructor
  · intro Im_out hlen
    refine ⟨_, ref_run a hwf Im_out hlen, ?_⟩
    intro i j k hi hj hk
    refine ⟨_, _, ref_conv_out_eq a hwf i j k hi (by omega) (by omega),
      ref_run_get a Im_out i j k hi hj hk hlen, ?_⟩
    have := saturates_SSAT (accValue a i j k >>> a.out_shift)
    rw [q7_cast_SSAT] at this
    exact this
  · intro st hp hA ho
    refine ⟨_, dsp_leftover_eq a hwf st hA hp ho, ?_⟩
    intro i hi
    have hW : i * leftCount a + leftCount a ≤ a.wt.length := by
      have h1 : (i + 1) * leftCount a ≤ a.ch_im_out * a.N :=
        Nat.mul_le_mul hi (leftCount_le a)
      have h2 : (i + 1) * leftCount a = i * leftCount a + leftCount a := by ring
      rw [hwf.2.2.2.2.2.2.2.2.2.2.1]; omega
    refine ⟨_, _, leftover_sum_eq a st.bufferA i _
      (by rw [hwf.2.2.2.2.2.2.2.2.2.2.2.1]; exact hi) hW hA,
      dsp_leftover_get a st.bufferA st.pOut st.Im_out i hi ho, ?_⟩
    have := saturates_SSAT (leftAcc a st.bufferA i >>> a.out_shift)
    rw [q7_cast_SSAT] at this
    exact this

/-- C3 at `sample_args`. -/
theorem C3_saturation_witness :
    sample_args.WF ∧
    ((∀ Im_out : OutBuf,
      sample_args.dim_im_out * sample_args.dim_im_out * sample_args.ch_im_out
        ≤ Im_out.data.length →
      ∃ o, arm_convolve_HWC_q7_basic_ref sample_args Im_out = .ok o ∧
        ∀ i j k, i < sample_args.ch_im_out → j < sample_args.dim_im_out →
          k < sample_args.dim_im_out →
          ∃ conv_out code, ref_conv_out sample_args i j k = .ok conv_out
            ∧ o.data[i + (j * sample_args.dim_im_out + k) * sample_args.ch_im_out]? = some code
            ∧ Saturates (conv_out >>> sample_args.out_shift) code)
    ∧ (∀ st : DspState, st.pBuffer ≠ 0 → leftCount sample_args ≤ st.bufferA.length →
      st.pOut + sample_args.ch_im_out ≤ st.Im_out.data.length →
      ∃ st', dsp_leftover sample_args st = .ok st' ∧
        ∀ i, i < sample_args.ch_im_out →
          ∃ d code, leftover_sum sample_args st.bufferA i (i * leftCount sample_args) = .ok d
            ∧ st'.Im_out.data[st.pOut + i]? = some code
            ∧ Saturates (d.sum >>> sample_args.out_shift) code)) :=
  ⟨by decide, C3_saturation sample_args (by decide)⟩

/-- C6: the reference path fills the output as a `(dim_im_out, dim_im_out, ch_im_out)`
tensor, row-major and channel-innermost: the code of channel `c` at pixel `(y, x)` is at flat
index `(y * dim_im_out + x) * ch_im_out + c`; the indices stored are, up to order, exactly
`0, ..., dim_im_out^2 * ch_im_out - 1`, each once, and every cell from
`dim_im_out^2 * ch_im_out` on keeps its content. -/
theorem C6_output_layout_and_coverage (a : Conv) (hwf : a.WF) (Im_out : List Int)
    (hlen : a.dim_im_out * a.dim_im_out * a.ch_im_out ≤ Im_out.length) :
    ∃ o, arm_convolve_HWC_q7_basic_ref a ⟨Im_out, []⟩ = .ok o ∧
      (∀ c y x, c < a.ch_im_out → y < a.dim_im_out → x < a.dim_im_out →
        ∃ conv_out, ref_conv_out a c y x = .ok conv_out ∧
          o.data[(y * a.dim_im_out + x) * a.ch_im_out + c]?
            = some (q7_cast (SSAT (conv_out >>> a.out_shift) 8))) ∧
      o.written.Perm (List.range (a.dim_im_out * a.dim_im_out * a.ch_im_out)) ∧
      o.data.length = Im_out.length ∧
      (∀ idx, a.dim_im_out * a.dim_im_out * a.ch_im_out ≤ idx →
        o.data[idx]? = Im_out[idx]?) := by
  have hD : a.dim_im_out < 2 ^ 16 := hwf.2.2.2.2.2.2.2.2.1
  refine ⟨_, ref_run a hwf ⟨Im_out, []⟩ hlen, ?_, ?_, ?_, ?_⟩
  · intro c y x hc hy hx
    refine ⟨_, ref_conv_out_eq a hwf c y x hc (by omega) (by omega), ?_⟩
    rw [q7_cast_SSAT, Nat.add_comm]
    exact ref_run_get a ⟨Im_out, []⟩ c y x hc hy hx hlen
  · rw [storeAll_written]
    exact refStores_perm a
  · rw [storeAll_length]
  · intro idx hidx
    apply storeAll_frame
    rw [mem_refStores_fst_iff_lt]
    omega

/-- C6 at `sample_args`. -/
theorem C6_output_layout_and_coverage_witness :
    sample_args.WF ∧
    sample_args.dim_im_out * sample_args.dim_im_out * sample_args.ch_im_out
      ≤ (List.replicate 20 (7 : Int)).length ∧
    ∃ o, arm_convolve_HWC_q7_basic_ref sample_args ⟨List.replicate 20 7, []⟩ = .ok o ∧
      (∀ c y x, c < sample_args.ch_im_out → y < sample_args.dim_im_out →
        x < sample_args.dim_im_out →
        ∃ conv_out, ref_conv_out sample_args c y x = .ok conv_out ∧
          o.data[(y * sample_args.dim_im_out + x) * sample_args.ch_im_out + c]?
            = some (q7_cast (SSAT (conv_out >>> sample_args.out_shift) 8))) ∧
      o.written.Perm (List.range
        (sample_args.dim_im_out * sample_args.dim_im_out * sample_args.ch_im_out)) ∧
      o.data.length = (List.replicate 20 (7 : Int)).length ∧
      (∀ idx, sample_args.dim_im_out * sample_args.dim_im_out * sample_args.ch_im_out ≤ idx →
        o.data[idx]? = (List.replicate 20 (7 : Int))[idx]?) :=
  ⟨by decide, by decide,
    C6_output_layout_and_coverage sample_args (by decide) (List.replicate 20 7) (by decide)⟩

/-- C5, as stated, fails: with bias 64, `bias_shift = 25`, a zero filter and `out_shift = 1`
the pre-rounding accumulator of the claim is `a = 2 ^ 31`, but the 32-bit accumulator holds
`-2 ^ 31 + 1` after the rounding constant is added, and the value before saturation is
`-2 ^ 30`, not `floor ((a + 1) / 2) = 2 ^ 30`. -/
theorem C5_counterexample :
    c5_args.WF ∧ ref_conv_out c5_args 0 0 0 = .ok (-2147483647) ∧
    (-2147483647 : Int) >>> c5_args.out_shift = -1073741824 ∧
    (c5_args.bias.getD 0 0 * 2 ^ c5_args.bias_shift + convSum c5_args 0 0 0
      + 2 ^ (c5_args.out_shift - 1)) / 2 ^ c5_args.out_shift = 1073741824 := by
  refine ⟨by decide, by decide, by decide, ?_⟩
  simp [convSum, tapTerm, coord, c5_args, Finset.sum_range_succ]

/-- C5 (amended): the rounding constant is `2 ^ (out_shift - 1)` for `out_shift > 0` and 0 for
`out_shift = 0`; on well-formed arguments with `ch_im_in * dim_kernel^2 ≤ 2^15`,
`bias_shift ≤ 22` and `out_shift ≤ 30`, with `a` the shifted bias plus the tap products, the
value before saturation is `floor ((a + 2^(s-1)) / 2^s)` for `s = out_shift ≥ 1`, the integer
nearest to `a / 2^s` with ties toward plus infinity, and `a` itself for `s = 0`; on the
reference path and in the left-over loop of the DSP path (working buffer holding `q7_t`
values). -/
theorem C5_rounding (a : Conv) (hwf : a.WF) (hN : a.N ≤ 2 ^ 15) (hbs : a.bias_shift ≤ 22)
    (hos : a.out_shift ≤ 30) :
    (NN_ROUND a.out_shift = if a.out_shift > 0 then 2 ^ (a.out_shift - 1) else 0) ∧
    (∀ i j k, i < a.ch_im_out → j < a.dim_im_out → k < a.dim_im_out →
      ∃ conv_out, ref_conv_out a i j k = .ok conv_out ∧
        RoundsHalfUp (a.bias.getD i 0 * 2 ^ a.bias_shift + convSum a i j k) a.out_shift
          (conv_out >>> a.out_shift)) ∧
    (∀ bufferA : List Int, (∀ x ∈ bufferA, IsQ7 x) → a.N ≤ bufferA.length →
      ∀ i, i < a.ch_im_out →
        ∃ d, leftover_sum a bufferA i (i * a.N) = .ok d ∧
          RoundsHalfUp (a.bias.getD i 0 * 2 ^ a.bias_shift + colSum a bufferA (i * a.N) a.N)
            a.out_shift (d.sum >>> a.out_shift)) := by
  have hD : a.dim_im_out < 2 ^ 16 := hwf.2.2.2.2.2.2.2.2.1
  refine ⟨rfl, ?_, ?_⟩
  · intro i j k hi hj hk
    refine ⟨_, ref_conv_out_eq a hwf i j k hi (by omega) (by omega), ?_⟩
    have h := accValue_exact a hwf hN hbs hos i j k
    unfold accValue at h
    rw [h]
    have e : a.bias.getD i 0 * 2 ^ a.bias_shift + NN_ROUND a.out_shift + convSum a i j k
        = (a.bias.getD i 0 * 2 ^ a.bias_shift + convSum a i j k) + NN_ROUND a.out_shift := by
      ring
    rw [e]
    exact roundsHalfUp_shift _ _
  · intro bufferA hQ hA i hi
    have hc : leftCount a = a.N := leftCount_eq a (by omega)
    have hW : i * a.N + leftCount a ≤ a.wt.length := by
      have h1 : (i + 1) * a.N ≤ a.ch_im_out * a.N := Nat.mul_le_mul_right _ hi
      have h2 : (i + 1) * a.N = i * a.N + a.N := by ring
      rw [hwf.2.2.2.2.2.2.2.2.2.2.1, hc]; omega
    refine ⟨_, leftover_sum_eq a bufferA i _
      (by rw [hwf.2.2.2.2.2.2.2.2.2.2.2.1]; exact hi) hW (by omega), ?_⟩
    have h := leftAcc_exact a hwf hN hbs hos bufferA hQ i
    unfold leftAcc at h
    rw [hc] at h ⊢
    simp only []
    rw [h]
    have e : a.bias.getD i 0 * 2 ^ a.bias_shift + NN_ROUND a.out_shift
          + colSum a bufferA (i * a.N) a.N
        = (a.bias.getD i 0 * 2 ^ a.bias_shift + colSum a bufferA (i * a.N) a.N)
          + NN_ROUND a.out_shift := by
      ring
    rw [e]
    exact roundsHalfUp_shift _ _

/-- C5 (amended) at the rounding scenario of the spec, where the accumulator 5 with
`out_shift = 1` gives 3. -/
theorem C5_rounding_witness :
    rounding_args.WF ∧ rounding_args.N ≤ 2 ^ 15 ∧ rounding_args.bias_shift ≤ 22 ∧
    rounding_args.out_shift ≤ 30 ∧
    ref_conv_out rounding_args 0 0 0 = .ok 6 ∧ (6 : Int) >>> rounding_args.out_shift = 3 ∧
    ((NN_ROUND rounding_args.out_shift
        = if rounding_args.out_shift > 0 then 2 ^ (rounding_args.out_shift - 1) else 0) ∧
    (∀ i j k, i < rounding_args.ch_im_out → j < rounding_args.dim_im_out →
      k < rounding_args.dim_im_out →
      ∃ conv_out, ref_conv_out rounding_args i j k = .ok conv_out ∧
        RoundsHalfUp (rounding_args.bias.getD i 0 * 2 ^ rounding_args.bias_shift
          + convSum rounding_args i j k) rounding_args.out_shift
          (conv_out >>> rounding_args.out_shift)) ∧
    (∀ bufferA : List Int, (∀ x ∈ bufferA, IsQ7 x) → rounding_args.N ≤ bufferA.length →
      ∀ i, i < rounding_args.ch_im_out →
        ∃ d, leftover_sum rounding_args bufferA i (i * rounding_args.N) = .ok d ∧
          RoundsHalfUp (rounding_args.bias.getD i 0 * 2 ^ rounding_args.bias_shift
            + colSum rounding_args bufferA (i * rounding_args.N) rounding_args.N)
            rounding_args.out_shift (d.sum >>> rounding_args.out_shift))) :=
  ⟨by decide, by decide, by decide, by decide, by decide, by decide,
    C5_rounding rounding_args (by decide) (by decide) (by decide) (by decide)⟩

/-- C7, as stated, fails: with bias 1, `bias_shift = 31`, `out_shift = 0` and a zero filter
the shifted bias `2 ^ 31` is held as `-2 ^ 31` by the 32-bit accumulator, and the stored code
is -128, while the claim gives `sat8 (2 ^ 31 + 0) = 127`. -/
theorem C7_counterexample :
    c7_args.WF ∧ (∀ t, t < c7_args.N → c7_args.wt.getD (0 * c7_args.N + t) 0 = 0) ∧
    arm_convolve_HWC_q7_basic_ref c7_args ⟨[0], []⟩ = .ok ⟨[-128], [0]⟩ ∧
    sat8 ((c7_args.bias.getD 0 0 * 2 ^ c7_args.bias_shift + NN_ROUND c7_args.out_shift)
      / 2 ^ c7_args.out_shift) = 127 := by
  refine ⟨by decide, by decide, by decide, ?_⟩
  simp [c7_args, NN_ROUND, sat8]

/-- C7 (amended): for `bias_shift ≤ 22` and `out_shift ≤ 30` the accumulator of output
channel `i` starts, on the reference path and in the left-over loop, as
`bias[i] * 2^bias_shift + R`; consequently, when all weights of channel `i` are zero, every
output pixel of channel `i` on the reference path, and the left-over pixel of the DSP path
when `ch_im_in * dim_kernel^2 < 2^18`, is
`sat8 (floor ((bias[i] * 2^bias_shift + R) / 2^out_shift))`, whatever the input is. -/
theorem C7_bias_shift (a : Conv) (hwf : a.WF) (hbs : a.bias_shift ≤ 22)
    (hos : a.out_shift ≤ 30) (i : Nat) (hi : i < a.ch_im_out)
    (hz : ∀ t, t < a.N → a.wt.getD (i * a.N + t) 0 = 0) :
    wrap32 (shl32 (a.bias.getD i 0) a.bias_shift + NN_ROUND a.out_shift)
      = a.bias.getD i 0 * 2 ^ a.bias_shift + NN_ROUND a.out_shift ∧
    (∀ Im_out : OutBuf,
      a.dim_im_out * a.dim_im_out * a.ch_im_out ≤ Im_out.data.length →
      ∃ o, arm_convolve_HWC_q7_basic_ref a Im_out = .ok o ∧
        ∀ j k, j < a.dim_im_out → k < a.dim_im_out →
          o.data[i + (j * a.dim_im_out + k) * a.ch_im_out]?
            = some (sat8 ((a.bias.getD i 0 * 2 ^ a.bias_shift + NN_ROUND a.out_shift)
                / 2 ^ a.out_shift))) ∧
    (∀ st : DspState, st.pBuffer ≠ 0 → a.N < 2 ^ 18 → a.N ≤ st.bufferA.length →
      st.pOut + a.ch_im_out ≤ st.Im_out.data.length →
      ∃ st', dsp_leftover a st = .ok st' ∧
        st'.Im_out.data[st.pOut + i]?
          = some (sat8 ((a.bias.getD i 0 * 2 ^ a.bias_shift + NN_ROUND a.out_shift)
              / 2 ^ a.out_shift))) := by
  have hb := getD_isQ7 _ hwf.2.2.2.2.2.2.2.2.2.2.2.2.2.2 i
  have h0 := bias_init_exact _ hb a.bias_shift a.out_shift hbs hos
  unfold shl32 at h0
  rw [wrap32_add_left] at h0
  refine ⟨bias_init_exact _ hb _ _ hbs hos, ?_, ?_⟩
  · intro Im_out hlen
    refine ⟨_, ref_run a hwf Im_out hlen, ?_⟩
    intro j k hj hk
    have h := ref_run_get a Im_out i j k hi hj hk hlen
    unfold outValue accValue at h
    rw [convSum_zero_of_wt a i j k hz, add_zero, h0, SSAT_eq_sat8, shiftRight_eq_div] at h
    exact h
  · intro st hp hN hA ho
    have hc : leftCount a = a.N := leftCount_eq a hN
    refine ⟨_, dsp_leftover_eq a hwf st (by omega) hp ho, ?_⟩
    have h := dsp_leftover_get a st.bufferA st.pOut st.Im_out i hi ho
    unfold leftAcc at h
    rw [hc, colSum_zero_of_wt a st.bufferA i hz, add_zero, h0, SSAT_eq_sat8,
      shiftRight_eq_div] at h
    exact h

/-- C7 (amended) at the bias-shift scenario of the spec: bias 3 with `bias_shift = 2` and
`out_shift = 0` gives 12. -/
theorem C7_bias_shift_witness :
    bias_args.WF ∧ bias_args.bias_shift ≤ 22 ∧ bias_args.out_shift ≤ 30 ∧
    0 < bias_args.ch_im_out ∧
    (∀ t, t < bias_args.N → bias_args.wt.getD (0 * bias_args.N + t) 0 = 0) ∧
    sat8 ((bias_args.bias.getD 0 0 * 2 ^ bias_args.bias_shift + NN_ROUND bias_args.out_shift)
      / 2 ^ bias_args.out_shift) = 12 ∧
    (wrap32 (shl32 (bias_args.bias.getD 0 0) bias_args.bias_shift + NN_ROUND bias_args.out_shift)
      = bias_args.bias.getD 0 0 * 2 ^ bias_args.bias_shift + NN_ROUND bias_args.out_shift ∧
    (∀ Im_out : OutBuf,
      bias_args.dim_im_out * bias_args.dim_im_out * bias_args.ch_im_out ≤ Im_out.data.length →
      ∃ o, arm_convolve_HWC_q7_basic_ref bias_args Im_out = .ok o ∧
        ∀ j k, j < bias_args.dim_im_out → k < bias_args.dim_im_out →
          o.data[0 + (j * bias_args.dim_im_out + k) * bias_args.ch_im_out]?
            = some (sat8 ((bias_args.bias.getD 0 0 * 2 ^ bias_args.bias_shift
                + NN_ROUND bias_args.out_shift) / 2 ^ bias_args.out_shift))) ∧
    (∀ st : DspState, st.pBuffer ≠ 0 → bias_args.N < 2 ^ 18 → bias_args.N ≤ st.bufferA.length →
      st.pOut + bias_args.ch_im_out ≤ st.Im_out.data.length →
      ∃ st', dsp_leftover bias_args st = .ok st' ∧
        st'.Im_out.data[st.pOut + 0]?
          = some (sat8 ((bias_args.bias.getD 0 0 * 2 ^ bias_args.bias_shift
              + NN_ROUND bias_args.out_shift) / 2 ^ bias_args.out_shift)))) :=
  ⟨by decide, by decide, by decide, by decide, by decide, by decide,
    C7_bias_shift bias_args (by decide) (by decide) (by decide) 0 (by decide) (by decide)⟩

/-- C8, as stated, fails in two ways.  With `dim_in = 1`, `K = 2`, `s = 2` and `v = 1` the
formula gives `dim_out = (1 - 2) / 2 + 1 = 1` in C arithmetic, only one of the four taps lies
inside the input, and the single cell is 1, not `sat8 (2 * 2 * 1) = 4`.  With
`dim_in = K = 4097`, `s = 1` and `v = -128` the sum `K * K * v = -2148532352` leaves the
32-bit range, and the single cell is 127, not `sat8 (K * K * v) = -128`. -/
theorem C8_counterexample :
    (Int.tdiv (1 - 2) 2 + 1 = 1 ∧ (1 - 2) / 2 + 1 = 1 ∧
      arm_convolve_HWC_q7_basic_ref (ones_args 1 1 2 2) ⟨[0], []⟩ = .ok ⟨[1], [0]⟩ ∧
      sat8 (2 * 2 * 1) = 4) ∧
    ((ones_args (-128) 4097 4097 1).WF ∧ (ones_args (-128) 4097 4097 1).dim_im_out = 1 ∧
      (∃ o, arm_convolve_HWC_q7_basic_ref (ones_args (-128) 4097 4097 1) ⟨[0], []⟩ = .ok o
        ∧ o.data[0]? = some 127) ∧
      sat8 (4097 * 4097 * (-128)) = -128) := by
  refine ⟨⟨by decide, by decide, by decide, by decide⟩, ?_⟩
  have hwf : (ones_args (-128) 4097 4097 1).WF :=
    ones_WF (-128) 4097 4097 1 (by decide) (by decide) (by decide) (by decide) (by decide)
  refine ⟨hwf, by decide, ⟨_, ref_run _ hwf ⟨[0], []⟩ (by decide), ?_⟩, by decide⟩
  have h := ref_run_get (ones_args (-128) 4097 4097 1) ⟨[0], []⟩ 0 0 0 (by decide)
    (by decide) (by decide) (by decide)
  rw [ones_outValue (-128) 4097 4097 1 (by decide) 0 0 (by decide) (by decide)] at h
  have e : outIndex (ones_args (-128) 4097 4097 1) 0 0 0 = 0 := by decide
  rw [e] at h
  rw [h]
  decide

/-- C8 (amended): for every `v` in `[-128, 127]`, kernel size `1 ≤ K ≤ dim_in` with
`K ≤ 4096`, stride `s ≥ 1` and single-channel input of side `dim_in` filled with `v`, the
convolution with one `K x K` filter of ones, padding 0, bias 0, both shifts 0 and
`dim_out = (dim_in - K) / s + 1` runs to completion on the reference path and every cell of
the `dim_out x dim_out` output is `sat8 (K * K * v)`. -/
theorem C8_stride_geometry (v : Int) (d K s : Nat) (hv : IsQ7 v) (hK : 1 ≤ K) (hKd : K ≤ d)
    (hK' : K ≤ 4096) (_hs : 1 ≤ s) (hd : d < 2 ^ 16) (hs' : s < 2 ^ 16) (Im_out : OutBuf)
    (hlen : ((d - K) / s + 1) * ((d - K) / s + 1) ≤ Im_out.data.length) :
    ∃ o, arm_convolve_HWC_q7_basic_ref (ones_args v d K s) Im_out = .ok o ∧
      ∀ y x, y < (d - K) / s + 1 → x < (d - K) / s + 1 →
        o.data[y * ((d - K) / s + 1) + x]? = some (sat8 ((K : Int) * K * v)) := by
  have hwf := ones_WF v d K s hv hK hKd hd hs'
  have hlen' : (ones_args v d K s).dim_im_out * (ones_args v d K s).dim_im_out
      * (ones_args v d K s).ch_im_out ≤ Im_out.data.length := by
    show ((d - K) / s + 1) * ((d - K) / s + 1) * 1 ≤ _
    omega
  refine ⟨_, ref_run _ hwf Im_out hlen', ?_⟩
  intro y x hy hx
  have h := ref_run_get (ones_args v d K s) Im_out 0 y x Nat.one_pos hy hx hlen'
  rw [ones_outValue v d K s hKd y x hy hx] at h
  have e : outIndex (ones_args v d K s) 0 y x = y * ((d - K) / s + 1) + x := by
    show 0 + (y * ((d - K) / s + 1) + x) * 1 = _
    omega
  rw [e] at h
  rw [h]
  have hr : I32 ((K : Int) * K * v) := by
    have h1 : (K : Int) * K ≤ 4096 * 4096 := by
      have : K * K ≤ 4096 * 4096 := Nat.mul_le_mul hK' hK'
      exact_mod_cast this
    have h2 : (0 : Int) ≤ (K : Int) * K := by positivity
    unfold IsQ7 at hv
    unfold I32
    constructor <;> nlinarith
  rw [wrap32_of_I32 hr]

/-- C8 (amended) at the scenario of the spec: a 4x4 input of all 2, `K = 2`, `s = 2` gives a
2x2 output of all 8. -/
theorem C8_stride_geometry_witness :
    IsQ7 2 ∧ 1 ≤ 2 ∧ 2 ≤ 4 ∧ 2 ≤ 4096 ∧ 1 ≤ 2 ∧ 4 < 2 ^ 16 ∧ 2 < 2 ^ 16 ∧
    ((4 - 2) / 2 + 1) * ((4 - 2) / 2 + 1) ≤ (OutBuf.mk [0, 0, 0, 0] []).data.length ∧
    arm_convolve_HWC_q7_basic_ref (ones_args 2 4 2 2) ⟨[0, 0, 0, 0], []⟩
      = .ok ⟨[8, 8, 8, 8], [0, 1, 2, 3]⟩ ∧
    sat8 (((2 : Nat) : Int) * ((2 : Nat) : Int) * 2) = 8 ∧
    ∃ o, arm_convolve_HWC_q7_basic_ref (ones_args 2 4 2 2) ⟨[0, 0, 0, 0], []⟩ = .ok o ∧
      ∀ y x, y < (4 - 2) / 2 + 1 → x < (4 - 2) / 2 + 1 →
        o.data[y * ((4 - 2) / 2 + 1) + x]? = some (sat8 (((2 : Nat) : Int) * ((2 : Nat) : Int) * 2)) :=
  ⟨by decide, by decide, by decide, by decide, by decide, by decide, by decide, by decide,
    by decide, by decide,
    C8_stride_geometry 2 4 2 2 (by decide) (by decide) (by decide) (by decide) (by decide)
      (by decide) (by decide) ⟨[0, 0, 0, 0], []⟩ (by decide)⟩

/-- C2 fails on the code: on `c2_args` (well-formed, `dim_im_out` consistent with the
geometry, working buffer of `2 * N` slots) the reference path writes all four output cells,
while on the DSP path the `int16_t` counters start the kernel loops at
`(int16_t)(-40000) = 25536`, above their bound, so that three of the four columns are never
built, the fused kernel never runs and only `Im_out[0]` is written. -/
theorem C2_failing_input :
    c2_args.WF ∧ (c2_args.dim_im_in + 2 * c2_args.padding - c2_args.dim_kernel) / c2_args.stride + 1
      = c2_args.dim_im_out ∧
    arm_convolve_HWC_q7_basic_ref c2_args ⟨[9, 9, 9, 9], []⟩
      = .ok ⟨[0, 0, 0, 0], [0, 1, 2, 3]⟩ ∧
    ∀ fuel, arm_convolve_HWC_q7_basic_dsp c2_args (fuel + 3) [7, 7] ⟨[9, 9, 9, 9], []⟩
      = .ok ⟨[0, 7], 1, 1, ⟨[0, 9, 9, 9], [0]⟩⟩ :=
  ⟨by decide, by decide, by decide, fun _ => rfl⟩

/-- C10 fails on the code: on `c10_args` (well-formed, `dim_im_out` consistent with the
geometry) the counter `i_ker_x` of output pixel `(0, 1)` starts at 32767, wraps to -32768
when it is incremented and stays below its bound 32768, so that the im2col keeps writing and
the third write goes to offset `2 = 2 * N`, outside a working buffer of `2 * N` slots. -/
theorem C10_failing_input :
    c10_args.WF ∧ (c10_args.dim_im_in + 2 * c10_args.padding - c10_args.dim_kernel) / c10_args.stride + 1
      = c10_args.dim_im_out ∧ 2 * c10_args.N = 2 ∧
    ∀ fuel, arm_convolve_HWC_q7_basic_dsp c10_args (fuel + 3) [7, 7] ⟨[9, 9, 9, 9], []⟩
      = .fault .bufferA :=
  ⟨by decide, by decide, by decide, fun _ => rfl⟩

/-- C9: for every `q7_t` code `x`, the convolution of the 1x1 single-channel input holding
`x` with one 1x1 filter of weight 1, bias 0, both shifts 0, padding 0, stride 1 and
`dim_im_out = 1` writes exactly `x` to the single output cell: on the reference path, and on
the DSP path, where the single pixel goes through the left-over loop, for every fuel of at
least 2 and whatever the output cell and the working buffer held before. -/
theorem C9_identity (x : Int) (hx : IsQ7 x) :
    (∀ o0 : Int, ∃ o, arm_convolve_HWC_q7_basic_ref (identity_args x) ⟨[o0], []⟩ = .ok o
      ∧ o.data = [x]) ∧
    (∀ (fuel : Nat) (b0 b1 o0 : Int), ∃ st,
      arm_convolve_HWC_q7_basic_dsp (identity_args x) (fuel + 2) [b0, b1] ⟨[o0], []⟩ = .ok st
        ∧ st.Im_out.data = [x]) := by
  have hwf : (identity_args x).WF := by
    rw [identity_eq_ones]
    exact ones_WF x 1 1 1 hx (by decide) (by decide) (by decide) (by decide)
  have hval0 : outValue (identity_args x) 0 0 0 = x := by
    rw [identity_eq_ones, ones_outValue x 1 1 1 (by decide) 0 0 (by decide) (by decide)]
    simp only [Nat.cast_one, one_mul]
    rw [wrap32_of_isQ7 hx, ← SSAT_eq_sat8, SSAT_of_isQ7 hx]
  have hval : pixValue (identity_args x) 0 0 = x := by
    unfold pixValue
    rw [Nat.zero_div, Nat.zero_mod]
    exact hval0
  have hone : ∀ l : List Int, l.length = 1 → l[0]? = some x → l = [x] := by
    intro l hl h0
    match l, hl, h0 with
    | [v], _, h0 => simp at h0; rw [h0]
  have hD : (identity_args x).dim_im_out = 1 := rfl
  have hC : (identity_args x).ch_im_out = 1 := rfl
  have hK : (identity_args x).dim_kernel = 1 := rfl
  have hN : (identity_args x).N = 1 := rfl
  have hroom : ∀ o0 : Int, (identity_args x).dim_im_out * (identity_args x).dim_im_out
      * (identity_args x).ch_im_out ≤ (OutBuf.mk [o0] []).data.length := by
    intro o0; rw [hD, hC]; exact Nat.le_refl 1
  have hfit : (identity_args x).Fits16 := by
    unfold Conv.Fits16
    rw [hD, hK]
    show 1 ≤ 32767 ∧ 0 ≤ 32768 ∧ 1 * 1 + 1 ≤ 32767 + 0 + 1
    decide
  constructor
  · intro o0
    refine ⟨_, ref_run _ hwf ⟨[o0], []⟩ (hroom o0), ?_⟩
    apply hone
    · rw [storeAll_length]; rfl
    · have h := ref_run_get (identity_args x) ⟨[o0], []⟩ 0 0 0 (by rw [hC]; decide)
        (by rw [hD]; decide) (by rw [hD]; decide) (hroom o0)
      have e : outIndex (identity_args x) 0 0 0 = 0 := rfl
      rw [e, hval0] at h
      exact h
  · intro fuel b0 b1 o0
    obtain ⟨st, hrun, hlen, hdone, _⟩ := dsp_run (identity_args x) hwf hfit
      (by rw [hN]) (by rw [hN]; decide) (fuel + 2)
      (by rw [hK]; omega) (by rw [hD]; omega)
      [b0, b1] (by rw [hN]; exact Nat.le_refl 2) ⟨[o0], []⟩ (hroom o0)
    refine ⟨st, hrun, hone _ hlen ?_⟩
    have h := hdone 0 0 (by rw [hD]; decide) (by rw [hC]; decide)
    rw [hval] at h
    simpa using h

/-- C9 at `x = -128`. -/
theorem C9_identity_witness :
    IsQ7 (-128) ∧
    (∀ o0 : Int, ∃ o, arm_convolve_HWC_q7_basic_ref (identity_args (-128)) ⟨[o0], []⟩ = .ok o
      ∧ o.data = [-128]) ∧
    (∀ (fuel : Nat) (b0 b1 o0 : Int), ∃ st,
      arm_convolve_HWC_q7_basic_dsp (identity_args (-128)) (fuel + 2) [b0, b1] ⟨[o0], []⟩
        = .ok st ∧ st.Im_out.data = [-128]) :=
  ⟨by decide, C9_identity (-128) (by decide)⟩

/-- C16: channel decomposition on the reference path. For every output channel `i`, the call
with `ch_im_out = 1` on weight row `i` and the single bias `bias[i]` (same input, geometry and
shifts) returns a tensor whose element `j * D + k` is element `(j * D + k) * ch_im_out + i` of
the full call; and a call whose weights and bias differ from the full call only outside row
`i` and `bias[i]` returns the same channel `i`. -/
theorem C16_channel_decomposition (a : Conv) (hwf : a.WF) (i : Nat) (hi : i < a.ch_im_out)
    (Im_out Im_out1 : OutBuf)
    (hlen : a.dim_im_out * a.dim_im_out * a.ch_im_out ≤ Im_out.data.length)
    (hlen1 : a.dim_im_out * a.dim_im_out ≤ Im_out1.data.length) :
    ∃ o o1, arm_convolve_HWC_q7_basic_ref a Im_out = .ok o ∧
      arm_convolve_HWC_q7_basic_ref (channel a i) Im_out1 = .ok o1 ∧
      (∀ j k, j < a.dim_im_out → k < a.dim_im_out →
        ∃ v, o1.data[j * a.dim_im_out + k]? = some v ∧
          o.data[(j * a.dim_im_out + k) * a.ch_im_out + i]? = some v) ∧
      ∀ (wt2 bias2 : List Int) (Im_out2 : OutBuf),
        ({ a with wt := wt2, bias := bias2 } : Conv).WF →
        (∀ t, t < a.N → wt2.getD (i * a.N + t) 0 = a.wt.getD (i * a.N + t) 0) →
        bias2.getD i 0 = a.bias.getD i 0 →
        a.dim_im_out * a.dim_im_out * a.ch_im_out ≤ Im_out2.data.length →
        ∃ o2, arm_convolve_HWC_q7_basic_ref { a with wt := wt2, bias := bias2 } Im_out2
            = .ok o2 ∧
          ∀ j k, j < a.dim_im_out → k < a.dim_im_out →
            o2.data[(j * a.dim_im_out + k) * a.ch_im_out + i]?
              = o.data[(j * a.dim_im_out + k) * a.ch_im_out + i]? := by
  have hfull : ∀ j k, j < a.dim_im_out → k < a.dim_im_out →
      (storeAll (refStores a) Im_out).data[(j * a.dim_im_out + k) * a.ch_im_out + i]?
        = some (outValue a i j k) := by
    intro j k hj hk
    have := ref_run_get a Im_out i j k hi hj hk hlen
    rwa [outIndex, Nat.add_comm] at this
  refine ⟨_, _, ref_run a hwf Im_out hlen,
    ref_run (channel a i) (channel_WF a hwf i hi) Im_out1
      (by show a.dim_im_out * a.dim_im_out * 1 ≤ _; omega), ?_, ?_⟩
  · intro j k hj hk
    refine ⟨outValue a i j k, ?_, hfull j k hj hk⟩
    have := ref_run_get (channel a i) Im_out1 0 j k Nat.one_pos hj hk
      (by show a.dim_im_out * a.dim_im_out * 1 ≤ _; omega)
    rw [outValue_channel] at this
    have e : outIndex (channel a i) 0 j k = j * a.dim_im_out + k := by
      show 0 + (j * a.dim_im_out + k) * 1 = _
      omega
    rwa [e] at this
  · intro wt2 bias2 Im_out2 hwf2 hw hb hlen2
    refine ⟨_, ref_run _ hwf2 Im_out2 hlen2, ?_⟩
    intro j k hj hk
    rw [hfull j k hj hk]
    have := ref_run_get { a with wt := wt2, bias := bias2 } Im_out2 i j k hi hj hk hlen2
    rw [outValue_row a { a with wt := wt2, bias := bias2 } i i j k rfl rfl rfl rfl rfl rfl rfl
      rfl hw hb] at this
    rwa [outIndex, Nat.add_comm] at this

/-- C16 at `sample_args`, channel 1. -/
theorem C16_channel_decomposition_witness :
    sample_args.WF ∧ 1 < sample_args.ch_im_out ∧
    sample_args.dim_im_out * sample_args.dim_im_out * sample_args.ch_im_out
      ≤ (OutBuf.mk (List.replicate 18 0) []).data.length ∧
    sample_args.dim_im_out * sample_args.dim_im_out
      ≤ (OutBuf.mk (List.replicate 9 5) []).data.length ∧
    (channel sample_args 1).wt = [1, 0, 0, 0, 0, 0, 0, 0, 0, 0, 0, 0, 0, 0, 0, 0, 0, 1] ∧
    (channel sample_args 1).bias = [-4] ∧
    ∃ o o1, arm_convolve_HWC_q7_basic_ref sample_args ⟨List.replicate 18 0, []⟩ = .ok o ∧
      arm_convolve_HWC_q7_basic_ref (channel sample_args 1) ⟨List.replicate 9 5, []⟩ = .ok o1 ∧
      (∀ j k, j < sample_args.dim_im_out → k < sample_args.dim_im_out →
        ∃ v, o1.data[j * sample_args.dim_im_out + k]? = some v ∧
          o.data[(j * sample_args.dim_im_out + k) * sample_args.ch_im_out + 1]? = some v) ∧
      ∀ (wt2 bias2 : List Int) (Im_out2 : OutBuf),
        ({ sample_args with wt := wt2, bias := bias2 } : Conv).WF →
        (∀ t, t < sample_args.N →
          wt2.getD (1 * sample_args.N + t) 0 = sample_args.wt.getD (1 * sample_args.N + t) 0) →
        bias2.getD 1 0 = sample_args.bias.getD 1 0 →
        sample_args.dim_im_out * sample_args.dim_im_out * sample_args.ch_im_out
          ≤ Im_out2.data.length →
        ∃ o2, arm_convolve_HWC_q7_basic_ref { sample_args with wt := wt2, bias := bias2 } Im_out2
            = .ok o2 ∧
          ∀ j k, j < sample_args.dim_im_out → k < sample_args.dim_im_out →
            o2.data[(j * sample_args.dim_im_out + k) * sample_args.ch_im_out + 1]?
              = o.data[(j * sample_args.dim_im_out + k) * sample_args.ch_im_out + 1]? :=
  ⟨by decide, by decide, by decide, by decide, by decide, by decide,
    C16_channel_decomposition sample_args (by decide) 1 (by decide) ⟨List.replicate 18 0, []⟩
      ⟨List.replicate 9 5, []⟩ (by decide) (by decide)⟩

/-- C17: on the reference path, with buffers of exactly the sizes the parameters prescribe and
no assumption that `dim_im_out` is consistent with the rest of the geometry, the run never
takes the out-of-range branch of an access, and every index it uses is inside its buffer:
input indices in `[0, dim_im_in^2 * ch_im_in)`, weight indices in
`[0, ch_im_out * ch_im_in * dim_kernel^2)`, bias indices in `[0, ch_im_out)` and output
indices in `[0, dim_im_out^2 * ch_im_out)`. -/
theorem C17_in_bounds_access (a : Conv) (hwf : a.WF) (Im_out : OutBuf)
    (hlen : Im_out.data.length = a.dim_im_out * a.dim_im_out * a.ch_im_out) :
    (∃ o, arm_convolve_HWC_q7_basic_ref a Im_out = .ok o) ∧
    (∀ i j k m n l, i < a.ch_im_out → j < a.dim_im_out → k < a.dim_im_out →
      m < a.dim_kernel → n < a.dim_kernel → l < a.ch_im_in →
      (wrap32 (a.stride * j + m - a.padding) ≥ 0 ∧ wrap32 (a.stride * k + n - a.padding) ≥ 0
          ∧ wrap32 (a.stride * j + m - a.padding) < a.dim_im_in
          ∧ wrap32 (a.stride * k + n - a.padding) < a.dim_im_in →
        0 ≤ (wrap32 (a.stride * j + m - a.padding) * a.dim_im_in
              + wrap32 (a.stride * k + n - a.padding)) * a.ch_im_in + l
        ∧ (wrap32 (a.stride * j + m - a.padding) * a.dim_im_in
              + wrap32 (a.stride * k + n - a.padding)) * a.ch_im_in + l
            < ((a.dim_im_in * a.dim_im_in * a.ch_im_in : Nat) : Int)
        ∧ ∃ v, readAt .Im_in a.Im_in
            ((wrap32 (a.stride * j + m - a.padding) * a.dim_im_in
              + wrap32 (a.stride * k + n - a.padding)) * a.ch_im_in + l) = .ok v)
      ∧ i * a.ch_im_in * a.dim_kernel * a.dim_kernel + (m * a.dim_kernel + n) * a.ch_im_in + l
          < a.ch_im_out * (a.ch_im_in * a.dim_kernel * a.dim_kernel)
      ∧ (∃ w, readAt .wt a.wt (i * a.ch_im_in * a.dim_kernel * a.dim_kernel
          + (m * a.dim_kernel + n) * a.ch_im_in + l) = .ok w)
      ∧ (∃ b, readAt .bias a.bias i = .ok b)
      ∧ i + (j * a.dim_im_out + k) * a.ch_im_out
          < a.dim_im_out * a.dim_im_out * a.ch_im_out) := by
  have hwf' := hwf
  obtain ⟨_, _, _, _, _, _, _, _, _, hIn, hWt, hB, _⟩ := hwf'
  refine ⟨⟨_, ref_run a hwf Im_out (by omega)⟩, ?_⟩
  intro i j k m n l hi hj hk hm hn hl
  have hw := wt_index_lt a i m n l hi hm hn hl
  refine ⟨?_, hw, ?_, ⟨_, readAt_nat _ _ _ (by rw [hB]; exact hi)⟩, outIndex_lt a i j k hi hj hk⟩
  · rintro ⟨g1, g2, g3, g4⟩
    obtain ⟨r, hr⟩ := Int.eq_ofNat_of_zero_le g1
    obtain ⟨c, hc⟩ := Int.eq_ofNat_of_zero_le g2
    rw [hr] at g3 ⊢
    rw [hc] at g4 ⊢
    have hr' : r < a.dim_im_in := by exact_mod_cast g3
    have hc' : c < a.dim_im_in := by exact_mod_cast g4
    have h1 : (r * a.dim_im_in + c) * a.ch_im_in + l < a.dim_im_in * a.dim_im_in * a.ch_im_in :=
      flat_lt (flat_lt hr' hc') hl
    have e1 : ((r : Int) * a.dim_im_in + c) * a.ch_im_in + l
        = (((r * a.dim_im_in + c) * a.ch_im_in + l : Nat) : Int) := by push_cast; ring
    rw [e1]
    refine ⟨Int.ofNat_nonneg _, by exact_mod_cast h1, _, readAt_nat _ _ _ (by rw [hIn]; exact h1)⟩
  · have e2 : (i : Int) * a.ch_im_in * a.dim_kernel * a.dim_kernel
        + (m * a.dim_kernel + n) * a.ch_im_in + l
        = ((i * a.ch_im_in * a.dim_kernel * a.dim_kernel
          + (m * a.dim_kernel + n) * a.ch_im_in + l : Nat) : Int) := by push_cast; ring
    rw [e2]
    exact ⟨_, readAt_nat _ _ _ (by rw [hWt]; exact hw)⟩

/-- C17 at `sample_args`: the reference run on exactly sized buffers takes no fault branch. -/
theorem C17_in_bounds_access_witness :
    sample_args.WF ∧
    (OutBuf.mk (List.replicate 18 0) []).data.length
      = sample_args.dim_im_out * sample_args.dim_im_out * sample_args.ch_im_out ∧
    ∃ o, arm_convolve_HWC_q7_basic_ref sample_args ⟨List.replicate 18 0, []⟩ = .ok o :=
  ⟨by decide, by decide,
    (C17_in_bounds_access sample_args (by decide) ⟨List.replicate 18 0, []⟩ (by decide)).1⟩

/-- C18: no accumulator wrap-around. With `N = ch_im_in * dim_kernel^2 ≤ 2^15`,
`bias_shift ≤ 22` and `out_shift ≤ 30`, for all 8-bit inputs, weights and biases, the shifted
bias, and the accumulator at every position of the loops (shifted bias plus rounding constant
plus the products added so far, in program order) equal the values computed over unbounded
integers and lie strictly inside the signed 32-bit range; this holds for the reference loops
at every `(m, n, l)`, for the left-over loop after any number of rounds of four and of one
and between the two multiply-accumulates of a round, and for the final values. -/
theorem C18_no_wraparound (a : Conv) (hwf : a.WF) (hN : a.N ≤ 2 ^ 15)
    (hbs : a.bias_shift ≤ 22) (hos : a.out_shift ≤ 30) (i : Nat) (hi : i < a.ch_im_out) :
    (shl32 (a.bias.getD i 0) a.bias_shift = a.bias.getD i 0 * 2 ^ a.bias_shift
      ∧ -2 ^ 31 < a.bias.getD i 0 * 2 ^ a.bias_shift
      ∧ a.bias.getD i 0 * 2 ^ a.bias_shift < 2 ^ 31) ∧
    (∀ j k, j < a.dim_im_out → k < a.dim_im_out →
      (∀ m n l, m < a.dim_kernel → n < a.dim_kernel → l ≤ a.ch_im_in →
        ref_conv_out_at a i j k m n l
            = .ok (a.bias.getD i 0 * 2 ^ a.bias_shift + NN_ROUND a.out_shift
                + sumBefore a i j k m n l)
          ∧ -2 ^ 31 < a.bias.getD i 0 * 2 ^ a.bias_shift + NN_ROUND a.out_shift
                + sumBefore a i j k m n l
          ∧ a.bias.getD i 0 * 2 ^ a.bias_shift + NN_ROUND a.out_shift
                + sumBefore a i j k m n l < 2 ^ 31) ∧
      ref_conv_out a i j k
          = .ok (a.bias.getD i 0 * 2 ^ a.bias_shift + NN_ROUND a.out_shift + convSum a i j k)
        ∧ -2 ^ 31 < a.bias.getD i 0 * 2 ^ a.bias_shift + NN_ROUND a.out_shift
              + convSum a i j k
        ∧ a.bias.getD i 0 * 2 ^ a.bias_shift + NN_ROUND a.out_shift + convSum a i j k
            < 2 ^ 31) ∧
    (∀ bufferA : List Int, (∀ t, t < a.N → IsQ7 (bufferA.getD t 0)) →
      a.N ≤ bufferA.length →
      (∀ r s, 4 * r + s ≤ a.N →
        leftover_sum_at a bufferA i (i * a.N) r s
            = .ok ⟨i * a.N + (4 * r + s), 4 * r + s,
                a.bias.getD i 0 * 2 ^ a.bias_shift + NN_ROUND a.out_shift
                  + colSum a bufferA (i * a.N) (4 * r + s)⟩
          ∧ -2 ^ 31 < a.bias.getD i 0 * 2 ^ a.bias_shift + NN_ROUND a.out_shift
                + colSum a bufferA (i * a.N) (4 * r + s)
          ∧ a.bias.getD i 0 * 2 ^ a.bias_shift + NN_ROUND a.out_shift
                + colSum a bufferA (i * a.N) (4 * r + s) < 2 ^ 31) ∧
      (∀ t, t + 2 ≤ a.N →
        SMLAD (a.wt.getD (i * a.N + t) 0, a.wt.getD (i * a.N + t + 1) 0)
            (bufferA.getD t 0, bufferA.getD (t + 1) 0)
            (a.bias.getD i 0 * 2 ^ a.bias_shift + NN_ROUND a.out_shift
              + colSum a bufferA (i * a.N) t)
          = a.bias.getD i 0 * 2 ^ a.bias_shift + NN_ROUND a.out_shift
              + colSum a bufferA (i * a.N) (t + 2)) ∧
      leftover_sum a bufferA i (i * a.N)
        = .ok ⟨(i + 1) * a.N, a.N,
            a.bias.getD i 0 * 2 ^ a.bias_shift + NN_ROUND a.out_shift
              + colSum a bufferA (i * a.N) a.N⟩) := by
  have hwf' := hwf
  obtain ⟨_, _, _, _, _, _, _, _, hD, _, hWt, hB, _, _, qB⟩ := hwf'
  have hb := getD_isQ7 _ qB i
  have hN' : (a.N : Int) ≤ 2 ^ 15 := by exact_mod_cast hN
  have hbi : i < a.bias.length := by rw [hB]; exact hi
  have hrow : i * a.N + a.N ≤ a.wt.length := by
    rw [hWt]
    have : (i + 1) * a.N ≤ a.ch_im_out * a.N := Nat.mul_le_mul_right _ hi
    have e : (i + 1) * a.N = i * a.N + a.N := by ring
    omega
  refine ⟨?_, ?_, ?_⟩
  · have h3 := abs_shift_bias_le hb a.bias_shift hbs
    rw [abs_le] at h3
    have hr : -2 ^ 31 < a.bias.getD i 0 * 2 ^ a.bias_shift
        ∧ a.bias.getD i 0 * 2 ^ a.bias_shift < 2 ^ 31 := by
      constructor <;> linarith [h3.1, h3.2]
    exact ⟨by unfold shl32; exact wrap32_of_strict hr, hr⟩
  · intro j k hj hk
    refine ⟨?_, ?_⟩
    · intro m n l hm hn hl
      have hr := acc_in_range hb a.bias_shift a.out_shift hbs hos a.N hN'
        (abs_sumBefore_le a hwf i j k m n l hm hn hl)
      rw [ref_conv_out_at_eq a hwf i j k m n l hi (by omega) (by omega) hm hn hl,
        wrap32_of_strict hr]
      exact ⟨rfl, hr⟩
    · have hr := acc_in_range hb a.bias_shift a.out_shift hbs hos a.N hN'
        (abs_convSum_le a hwf i j k)
      rw [ref_conv_out_eq a hwf i j k hi (by omega) (by omega), wrap32_of_strict hr]
      exact ⟨rfl, hr⟩
  · intro bufferA hQ hA
    have hrange : ∀ t, t ≤ a.N →
        -2 ^ 31 < a.bias.getD i 0 * 2 ^ a.bias_shift + NN_ROUND a.out_shift
              + colSum a bufferA (i * a.N) t
        ∧ a.bias.getD i 0 * 2 ^ a.bias_shift + NN_ROUND a.out_shift
              + colSum a bufferA (i * a.N) t < 2 ^ 31 := by
      intro t ht
      have h1 := abs_colSum_le_of a hwf bufferA (i * a.N) t (fun u hu => hQ u (by omega))
      have h2 : (t : Int) * 16384 ≤ (a.N : Int) * 16384 := by
        have : (t : Int) ≤ a.N := by exact_mod_cast ht
        linarith
      exact acc_in_range hb a.bias_shift a.out_shift hbs hos a.N hN' (le_trans h1 h2)
    refine ⟨?_, ?_, ?_⟩
    · intro r s hrs
      rw [leftover_sum_at_eq a bufferA i (i * a.N) r s hbi (by omega) (by omega),
        wrap32_of_strict (hrange _ hrs)]
      exact ⟨rfl, hrange _ hrs⟩
    · intro t ht
      unfold SMLAD
      simp only []
      have h := hrange (t + 2) ht
      rw [colSum_succ2] at h ⊢
      have e : a.bias.getD i 0 * 2 ^ a.bias_shift + NN_ROUND a.out_shift
            + colSum a bufferA (i * a.N) t + a.wt.getD (i * a.N + t) 0 * bufferA.getD t 0
            + a.wt.getD (i * a.N + t + 1) 0 * bufferA.getD (t + 1) 0
          = a.bias.getD i 0 * 2 ^ a.bias_shift + NN_ROUND a.out_shift
            + (colSum a bufferA (i * a.N) t + a.wt.getD (i * a.N + t) 0 * bufferA.getD t 0
              + a.wt.getD (i * a.N + t + 1) 0 * bufferA.getD (t + 1) 0) := by ring
      rw [e]
      exact wrap32_of_strict h
    · have hc : leftCount a = a.N := leftCount_eq a (by omega)
      have h := leftover_sum_eq a bufferA i (i * a.N) hbi (by rw [hc]; exact hrow)
        (by rw [hc]; exact hA)
      rw [hc, wrap32_of_strict (hrange _ (Nat.le_refl _))] at h
      rw [h]
      congr 2
      ring

/-- C18 at `sample_args`, channel 1. -/
theorem C18_no_wraparound_witness :
    sample_args.WF ∧ sample_args.N ≤ 2 ^ 15 ∧ sample_args.bias_shift ≤ 22 ∧
    sample_args.out_shift ≤ 30 ∧ 1 < sample_args.ch_im_out ∧
    ref_conv_out_at sample_args 1 1 1 1 1 1 = .ok (-11) ∧
    (shl32 (sample_args.bias.getD 1 0) sample_args.bias_shift
        = sample_args.bias.getD 1 0 * 2 ^ sample_args.bias_shift
      ∧ -2 ^ 31 < sample_args.bias.getD 1 0 * 2 ^ sample_args.bias_shift
      ∧ sample_args.bias.getD 1 0 * 2 ^ sample_args.bias_shift < 2 ^ 31) :=
  ⟨by decide, by decide, by decide, by decide, by decide, by decide,
    (C18_no_wraparound sample_args (by decide) (by decide) (by decide) (by decide) 1
      (by decide)).1⟩

/-- C15, as stated, fails: on `c1_args` the single output pixel goes through the left-over
loop of the DSP path; with bias 64 and `bias_shift = 25` the shifted bias is `2 ^ 31`, which
the 32-bit accumulator `sum` holds as `-2 ^ 31`, so the stored code is -128, while the
formula of the claim gives `sat8 (2 ^ 31 + 0 + 1) = 127`. -/
theorem C15_counterexample :
    c1_args.WF ∧
    arm_convolve_HWC_q7_basic_dsp c1_args 2 [0, 0] ⟨[0], []⟩
      = .ok ⟨[1, 0], 1, 1, ⟨[-128], [0]⟩⟩ ∧
    dsp_leftover c1_args ⟨[1, 0], 1, 0, ⟨[0], []⟩⟩ = .ok ⟨[1, 0], 1, 1, ⟨[-128], [0]⟩⟩ ∧
    sat8 ((c1_args.bias.getD 0 0 * 2 ^ c1_args.bias_shift + NN_ROUND c1_args.out_shift
      + colSum c1_args [1, 0] (0 * c1_args.N) c1_args.N) / 2 ^ c1_args.out_shift) = 127 := by
  refine ⟨by decide, by decide, by decide, ?_⟩
  simp [colSum, Conv.N, c1_args, NN_ROUND, sat8, Finset.sum_range_succ]

/-- C15 (amended): with `N = ch_im_in * dim_kernel^2 ≤ 2^15`, `bias_shift ≤ 22` and
`out_shift ≤ 30`, when one column remains (`pBuffer` is not at the start of `bufferA`) and
its `N` entries are 8-bit values, the left-over loop runs to completion and for every output
channel `i` writes `sat8 ((bias[i] * 2^bias_shift + R + sum over t < N of
wt[i*N + t] * bufferA[t]) / 2^out_shift)` (floor division) at `pOut + i`. The loop of four
runs `N / 4` times and the loop of one `N % 4` times, together `N` rounds; for channel `i`
they start at weight offset `i * N`, which is where the channels before `i` left the weight
pointer, end at `(i + 1) * N`, and consume the `N` column entries. -/
theorem C15_leftover_column (a : Conv) (hwf : a.WF) (hN : a.N ≤ 2 ^ 15)
    (hbs : a.bias_shift ≤ 22) (hos : a.out_shift ≤ 30) (st : DspState)
    (hp : st.pBuffer ≠ 0) (hA : a.N ≤ st.bufferA.length)
    (hQ : ∀ t, t < a.N → IsQ7 (st.bufferA.getD t 0))
    (ho : st.pOut + a.ch_im_out ≤ st.Im_out.data.length) :
    (((a.ch_im_in * a.dim_kernel * a.dim_kernel) >>> 2) % 2 ^ 16 = a.N / 4
      ∧ ((a.ch_im_in * a.dim_kernel * a.dim_kernel) &&& 3) % 2 ^ 16 = a.N % 4
      ∧ 4 * (a.N / 4) + a.N % 4 = a.N) ∧
    (∀ i, i < a.ch_im_out →
      (∃ s, forUp i (leftover_channel a st.bufferA) ⟨0, st.pOut, st.Im_out⟩ = .ok s
        ∧ s.pA = i * a.N ∧ s.pOut = st.pOut + i) ∧
      leftover_sum a st.bufferA i (i * a.N)
        = .ok ⟨(i + 1) * a.N, a.N,
            a.bias.getD i 0 * 2 ^ a.bias_shift + NN_ROUND a.out_shift
              + ∑ t in Finset.range a.N, a.wt.getD (i * a.N + t) 0 * st.bufferA.getD t 0⟩) ∧
    ∃ st', dsp_leftover a st = .ok st' ∧ st'.bufferA = st.bufferA ∧
      st'.pOut = st.pOut + a.ch_im_out ∧
      ∀ i, i < a.ch_im_out →
        st'.Im_out.data[st.pOut + i]?
          = some (sat8 ((a.bias.getD i 0 * 2 ^ a.bias_shift + NN_ROUND a.out_shift
              + ∑ t in Finset.range a.N, a.wt.getD (i * a.N + t) 0 * st.bufferA.getD t 0)
              / 2 ^ a.out_shift)) := by
  have hc : leftCount a = a.N := leftCount_eq a (by omega)
  have hwf' := hwf
  obtain ⟨_, _, _, _, _, _, _, _, _, _, hWt, hB, _⟩ := hwf'
  have hA' : leftCount a ≤ st.bufferA.length := by rw [hc]; exact hA
  refine ⟨⟨colCnt_quad a.N (by omega), colCnt_single a.N, Nat.div_add_mod a.N 4⟩, ?_, ?_⟩
  · intro i hi
    refine ⟨⟨_, leftover_start a hwf st.bufferA hA' st.pOut st.Im_out ho i (le_of_lt hi),
      by rw [hc], rfl⟩, ?_⟩
    have hrow : i * a.N + a.N ≤ a.wt.length := by
      rw [hWt]
      have : (i + 1) * a.N ≤ a.ch_im_out * a.N := Nat.mul_le_mul_right _ hi
      have e : (i + 1) * a.N = i * a.N + a.N := by ring
      omega
    have h := leftover_sum_eq a st.bufferA i (i * a.N) (by rw [hB]; exact hi)
      (by rw [hc]; exact hrow) hA'
    have hx := leftAcc_exact_of a hwf hN hbs hos st.bufferA hQ i
    unfold leftAcc at hx
    rw [hc] at hx h
    rw [hx] at h
    rw [h]
    unfold colSum
    congr 2
    ring
  · refine ⟨_, dsp_leftover_eq a hwf st hA' hp ho, rfl, rfl, ?_⟩
    intro i hi
    have h := dsp_leftover_get a st.bufferA st.pOut st.Im_out i hi ho
    rw [leftAcc_exact_of a hwf hN hbs hos st.bufferA hQ i, SSAT_eq_sat8,
      shiftRight_eq_div] at h
    exact h

/-- C15 (amended) at `c15_args`: one round of four and one round of one per channel, the
second half of the working buffer holding values that are not 8-bit. -/
theorem C15_leftover_column_witness :
    c15_args.WF ∧ c15_args.N ≤ 2 ^ 15 ∧ c15_args.bias_shift ≤ 22 ∧ c15_args.out_shift ≤ 30 ∧
    dsp_leftover c15_args ⟨[1, 2, 3, 4, 5, 300, 300, 300, 300, 300], 5, 0, ⟨[0, 0], []⟩⟩
      = .ok ⟨[1, 2, 3, 4, 5, 300, 300, 300, 300, 300], 5, 2, ⟨[15, -2], [0, 1]⟩⟩ ∧
    (((c15_args.ch_im_in * c15_args.dim_kernel * c15_args.dim_kernel) >>> 2) % 2 ^ 16
        = c15_args.N / 4
      ∧ ((c15_args.ch_im_in * c15_args.dim_kernel * c15_args.dim_kernel) &&& 3) % 2 ^ 16
        = c15_args.N % 4
      ∧ 4 * (c15_args.N / 4) + c15_args.N % 4 = c15_args.N) :=
  ⟨by decide, by decide, by decide, by decide, by decide,
    (C15_leftover_column c15_args (by decide) (by decide) (by decide) (by decide)
      ⟨[1, 2, 3, 4, 5, 300, 300, 300, 300, 300], 5, 0, ⟨[0, 0], []⟩⟩
      (by decide) (by decide) (by decide) (by decide)).1⟩

/-- C11 fails on the code: on `c2_args` (well-formed, `dim_im_out` consistent with the
geometry, working buffer of `2 * N` slots) two calls of the DSP body that agree on input,
weights, bias, geometry and shifts and differ only in what the output buffer held before end
with different output tensors, `[0, 9, 9, 9]` and `[0, 1, 1, 1]`: the `int16_t` kernel-loop
counters make the im2col of three of the four pixels run zero rounds, the fused kernel is
never called and the cells 1, 2, 3 are never written. The reference body writes all four
cells from either start. -/
theorem C11_failing_input :
    c2_args.WF ∧ (c2_args.dim_im_in + 2 * c2_args.padding - c2_args.dim_kernel) / c2_args.stride + 1
      = c2_args.dim_im_out ∧
    (∀ (fuel : Nat) (bufferB : List Int),
      arm_convolve_HWC_q7_basic true c2_args (fuel + 3) ⟨[9, 9, 9, 9], []⟩ [7, 7] bufferB
        = .ok ⟨⟨[0, 9, 9, 9], [0]⟩, [0, 7], bufferB, .ARM_CMSIS_NN_SUCCESS⟩) ∧
    (∀ (fuel : Nat) (bufferB : List Int),
      arm_convolve_HWC_q7_basic true c2_args (fuel + 3) ⟨[1, 1, 1, 1], []⟩ [7, 7] bufferB
        = .ok ⟨⟨[0, 1, 1, 1], [0]⟩, [0, 7], bufferB, .ARM_CMSIS_NN_SUCCESS⟩) ∧
    ([0, 9, 9, 9] : List Int) ≠ [0, 1, 1, 1] ∧
    (∀ (fuel : Nat) (bufferB : List Int),
      arm_convolve_HWC_q7_basic false c2_args fuel ⟨[9, 9, 9, 9], []⟩ [7, 7] bufferB
        = .ok ⟨⟨[0, 0, 0, 0], [0, 1, 2, 3]⟩, [7, 7], bufferB, .ARM_CMSIS_NN_SUCCESS⟩) ∧
    (∀ (fuel : Nat) (bufferB : List Int),
      arm_convolve_HWC_q7_basic false c2_args fuel ⟨[1, 1, 1, 1], []⟩ [7, 7] bufferB
        = .ok ⟨⟨[0, 0, 0, 0], [0, 1, 2, 3]⟩, [7, 7], bufferB, .ARM_CMSIS_NN_SUCCESS⟩) :=
  ⟨by decide, by decide, fun _ _ => rfl, fun _ _ => rfl, by decide, fun _ _ => rfl,
    fun _ _ => rfl⟩

/-- C12 fails on the code: on `c10_args` (well-formed, `dim_im_out` consistent with the
geometry, working buffer of `2 * N` slots) the DSP body never reaches the `return` of line
198: whatever the fuel, the run ends without a status, for a fuel of 3 or more in a write
outside `bufferA`, because the `int16_t` counter `i_ker_x` wraps from 32767 to -32768 and
stays below its bound. The reference body returns the success status on the same
arguments. -/
theorem C12_failing_input :
    c10_args.WF ∧ (c10_args.dim_im_in + 2 * c10_args.padding - c10_args.dim_kernel) / c10_args.stride + 1
      = c10_args.dim_im_out ∧
    (∀ (fuel : Nat) (bufferB : List Int), ∃ f,
      arm_convolve_HWC_q7_basic true c10_args fuel ⟨[9, 9, 9, 9], []⟩ [7, 7] bufferB
        = .fault f) ∧
    (∀ (fuel : Nat) (bufferB : List Int),
      arm_convolve_HWC_q7_basic true c10_args (fuel + 3) ⟨[9, 9, 9, 9], []⟩ [7, 7] bufferB
        = .fault .bufferA) ∧
    (∀ (fuel : Nat) (bufferB : List Int),
      arm_convolve_HWC_q7_basic false c10_args fuel ⟨[9, 9, 9, 9], []⟩ [7, 7] bufferB
        = .ok ⟨⟨[0, 0, 0, 0], [0, 1, 2, 3]⟩, [7, 7], bufferB, .ARM_CMSIS_NN_SUCCESS⟩) := by
  refine ⟨by decide, by decide, ?_, fun _ _ => rfl, fun _ _ => rfl⟩
  intro fuel bufferB
  match fuel with
  | 0 => exact ⟨.fuel, rfl⟩
  | 1 => exact ⟨.fuel, rfl⟩
  | 2 => exact ⟨.bufferA, rfl⟩
  | _ + 3 => exact ⟨.bufferA, rfl⟩

/-- C13 fails on the code: on `c2_args` (well-formed, `dim_im_out` consistent with the
geometry) the receptive field of output pixel `(0, 0)` lies outside the input
(`r = q = 0 * 65535 - 40000 + 0 = -40000`), so its column is `[0]`; but the `int16_t`
counters `i_ker_y`, `i_ker_x` start at `(int16_t)(-40000) = 25536`, above their bound
`-39999`, the loops run zero rounds, and the im2col returns with the buffer and `pBuffer`
unchanged: the slot of the column still holds what it held before (here 7). Pixel `(1, 1)`,
whose counters start at `65535 - 40000 = 25535`, is unrolled as the claim says. -/
theorem C13_failing_input :
    c2_args.WF ∧ (c2_args.dim_im_in + 2 * c2_args.padding - c2_args.dim_kernel) / c2_args.stride + 1
      = c2_args.dim_im_out ∧ c2_args.N = 1 ∧
    coord c2_args 0 0 = -40000 ∧ colList c2_args 0 0 = [0] ∧
    wrap16 ((0 : Int) * c2_args.stride - c2_args.padding) = 25536 ∧
    (0 : Int) * c2_args.stride - c2_args.padding + c2_args.dim_kernel = -39999 ∧
    (∀ fuel, dsp_im2col c2_args (fuel + 1) 0 0 ⟨[7, 7], 0, 0, ⟨[9, 9, 9, 9], []⟩⟩
      = .ok ⟨[7, 7], 0, 0, ⟨[9, 9, 9, 9], []⟩⟩) ∧
    (∀ fuel, dsp_im2col c2_args (fuel + 2) 1 1 ⟨[7, 7], 0, 0, ⟨[9, 9, 9, 9], []⟩⟩
      = .ok ⟨[0, 7], 1, 0, ⟨[9, 9, 9, 9], []⟩⟩) :=
  ⟨by decide, by decide, by decide, by decide, by decide, by decide, by decide,
    fun _ => rfl, fun _ => rfl⟩

/-- C14 fails on the code: on `c2_args` (well-formed, `dim_im_out = 2` consistent with the
geometry, `dim_im_out^2 = 4` even) the scan of the four output pixels ends with `pOut = 0`
and no output cell written, so the fused kernel, which would have to run `4 / 2 = 2` times,
has not run at all, and with `pBuffer = 1`, not at the start of `bufferA`, so the left-over
branch is taken although `dim_im_out` is even; it writes the code of pixel `(1, 1)` to
`Im_out[0]`, the cell of pixel `(0, 0)`. The cause is the `int16_t` kernel-loop counters,
which make the im2col of pixels `(0, 0)`, `(0, 1)`, `(1, 0)` run zero rounds. -/
theorem C14_failing_input :
    c2_args.WF ∧ (c2_args.dim_im_in + 2 * c2_args.padding - c2_args.dim_kernel) / c2_args.stride + 1
      = c2_args.dim_im_out ∧
    c2_args.dim_im_out * c2_args.dim_im_out / 2 = 2 ∧
    c2_args.dim_im_out * c2_args.dim_im_out % 2 = 0 ∧
    (∀ fuel, dsp_scan c2_args (fuel + 3) ⟨[7, 7], 0, 0, ⟨[9, 9, 9, 9], []⟩⟩
      = .ok ⟨[0, 7], 1, 0, ⟨[9, 9, 9, 9], []⟩⟩) ∧
    dsp_leftover c2_args ⟨[0, 7], 1, 0, ⟨[9, 9, 9, 9], []⟩⟩
      = .ok ⟨[0, 7], 1, 1, ⟨[0, 9, 9, 9], [0]⟩⟩ :=
  ⟨by decide, by decide, by decide, by decide, fun _ => rfl, by decide⟩

/-- C4 fails on the code: on `c4_args` (well-formed, padding 16384, stride 32767,
`dim_im_out = 2` consistent with the geometry, which fits the `int16_t` counters) the DSP
path returns the output `[0, 0, 0, 0]`, as the reference path does; on the zero-padded input
of side `1 + 2 * 16384 = 32769` with padding 0 (well-formed, `dim_im_out = 2` consistent) the
reference path returns the same output, but the DSP path does not return: at output pixel
`(0, 1)` the counter `i_ker_x` starts at `1 * 32767 - 0 = 32767` with bound 32768, wraps to
-32768 and the next write goes to offset `2 = 2 * N` of the working buffer. -/
theorem C4_failing_input :
    c4_args.WF ∧
    (c4_args.dim_im_in + 2 * c4_args.padding - c4_args.dim_kernel) / c4_args.stride + 1
      = c4_args.dim_im_out ∧
    c4_args.Fits16 ∧ 2 * c4_args.N = 2 ∧
    (padded c4_args).WF ∧ (padded c4_args).dim_im_in = 32769 ∧ (padded c4_args).padding = 0 ∧
    (padded c4_args).Im_in = zeroPad c4_args ∧
    ((padded c4_args).dim_im_in + 2 * (padded c4_args).padding - (padded c4_args).dim_kernel)
        / (padded c4_args).stride + 1 = (padded c4_args).dim_im_out ∧
    arm_convolve_HWC_q7_basic_ref c4_args ⟨[9, 9, 9, 9], []⟩
      = .ok ⟨[0, 0, 0, 0], [0, 1, 2, 3]⟩ ∧
    arm_convolve_HWC_q7_basic_ref (padded c4_args) ⟨[9, 9, 9, 9], []⟩
      = .ok ⟨[0, 0, 0, 0], [0, 1, 2, 3]⟩ ∧
    (∀ fuel, arm_convolve_HWC_q7_basic_dsp c4_args (fuel + 3) [7, 7] ⟨[9, 9, 9, 9], []⟩
      = .ok ⟨[0, 0], 0, 4, ⟨[0, 0, 0, 0], [0, 1, 2, 3]⟩⟩) ∧
    (∀ fuel, arm_convolve_HWC_q7_basic_dsp (padded c4_args) (fuel + 3) [7, 7]
        ⟨[9, 9, 9, 9], []⟩ = .fault .bufferA) := by
  have hwf : c4_args.WF := by decide
  have hwf' : (padded c4_args).WF := padded_WF c4_args hwf (by decide)
  have href : arm_convolve_HWC_q7_basic_ref c4_args ⟨[9, 9, 9, 9], []⟩
      = .ok ⟨[0, 0, 0, 0], [0, 1, 2, 3]⟩ := by decide
  have hgeo : ((padded c4_args).dim_im_in + 2 * (padded c4_args).padding
      - (padded c4_args).dim_kernel) / (padded c4_args).stride + 1
      = (padded c4_args).dim_im_out := rfl
  have hdsp : ∀ fuel, arm_convolve_HWC_q7_basic_dsp c4_args (fuel + 3) [7, 7]
      ⟨[9, 9, 9, 9], []⟩ = .ok ⟨[0, 0], 0, 4, ⟨[0, 0, 0, 0], [0, 1, 2, 3]⟩⟩ := fun _ => rfl
  refine ⟨hwf, by decide, by decide, by decide, hwf', rfl, rfl, padded_Im_in c4_args, hgeo,
    href, ?_, hdsp, ?_⟩
  · have hlen : (padded c4_args).dim_im_out * (padded c4_args).dim_im_out
        * (padded c4_args).ch_im_out ≤ (OutBuf.mk [9, 9, 9, 9] []).data.length := by decide
    rw [ref_run (padded c4_args) hwf' _ hlen, refStores_padded,
      ← ref_run c4_args hwf _ (by decide), href]
  · intro fuel
    have hl : 32767 < (zeroPad c4_args).length := by
      have := hwf'.2.2.2.2.2.2.2.2.2.1
      have e : (padded c4_args).Im_in.length = 32769 * 32769 * 1 := this
      rw [padded_Im_in] at e
      rw [e]
      decide
    exact dsp_counter_wraps (zeroPad c4_args) 32769 (by decide) hl 1 0 1 0 0 7 7
      ⟨[9, 9, 9, 9], []⟩ fuel

end CmsisNN
